import Mathlib

/-!
# Verification of the RTO4LLM reversible text codec

Shallow embedding of `src/reversible_text.py` (the dictionary-substitution
codec: content classifier, frequency analyzer, token codec, document
serializer) and proofs of the spec claims about it.

Strings are modelled as `List Char`.  Python byte strings are modelled as
`List Nat`.  The dictionary provider `learner.py` is not part of the
repository sources; following the spec it supplies two fixed ordered word
lists, so every definition is parameterized by a global dictionary
`gdict : List Str` and a type-dictionary provider `tdictOf : Str → List Str`
(deterministic and shared between compress and expand, as the spec's
Dictionary Provider contract requires).
-/

namespace RTO

/-- Strings (Python `str`) as lists of unicode characters. -/
abbrev Str := List Char

/-- The token alphabet `chars = string.digits + string.ascii_letters`
(`reversible_text.py` line 151 / 279): digits, then lowercase, then
uppercase (`string.digits + string.ascii_letters`) — 62 symbols. -/
def chars : Str :=
  "0123456789abcdefghijklmnopqrstuvwxyzABCDEFGHIJKLMNOPQRSTUVWXYZ".toList

/-- ASCII decimal digit test: models Python `str.isdigit` on the characters
that can actually occur in a token suffix (the token regex only admits
`[0-9a-zA-Z]`). -/
def isDigitCh (c : Char) : Bool := decide ('0' ≤ c ∧ c ≤ '9')

/-- Numeric value of an ASCII digit character. -/
def digitVal (c : Char) : Nat := c.toNat - '0'.toNat

/-- Python `int(s)` on a string of decimal digits. -/
def parseDec (s : Str) : Nat := s.foldl (fun a c => a * 10 + digitVal c) 0

/-- The decimal digit characters, used to print indices (Python `str(idx)`). -/
def decDigit (d : Nat) : Char := "0123456789".toList.getD d '0'

/-- Fuel-driven core of decimal printing. -/
def toDecAux : Nat → Nat → Str
  | 0, _ => []
  | fuel + 1, n =>
    if n < 10 then [decDigit n]
    else toDecAux fuel (n / 10) ++ [decDigit (n % 10)]

/-- Python `str(n)` for a natural number: decimal digits, no leading zeros. -/
def toDec (n : Nat) : Str := toDecAux (n + 1) n

/-- Token index encoding (`get_token`, lines 154–157 and 281–284): indices
below 62 use the single alphabet character, larger indices fall back to the
decimal printout. -/
def encIdx (idx : Nat) : Str :=
  if h : idx < chars.length then [chars.get ⟨idx, h⟩] else toDec idx

/-- `get_token(idx, prefix)`: the prefix followed by the encoded index. -/
def getToken (pfx : Str) (idx : Nat) : Str := pfx ++ encIdx idx

/-- Python `haystack.index(needle)` (first index where `needle` occurs as a
substring),−`ValueError` modelled as `none`.  Used by `replace_func` via
`chars.index(idx_str)` (lines 328 / 343). -/
def substrIdx (hay needle : Str) : Option Nat :=
  match hay with
  | [] => if needle.isEmpty then some 0 else none
  | _ :: r => if needle.isPrefixOf hay then some 0 else (substrIdx r needle).map (· + 1)

/-- The decoder's index rule (`replace_func`, lines 324–328 / 339–343): a
purely numeric suffix whose value is at least `len(chars)` is read as a
decimal index, anything else is resolved by position lookup in the
alphabet (`chars.index`, a Python substring search); an unresolvable suffix
(`ValueError`) is `none`. -/
def decIdxStr (s : Str) : Option Nat :=
  if s ≠ [] ∧ s.all isDigitCh ∧ parseDec s ≥ chars.length then some (parseDec s)
  else substrIdx chars s

/-! ## Basic facts about the index codec -/

theorem parseDec_append_digit (l : Str) (c : Char) :
    parseDec (l ++ [c]) = parseDec l * 10 + digitVal c := by
  simp [parseDec, List.foldl_append]

theorem toDecAux_correct : ∀ fuel n, n < fuel →
    parseDec (toDecAux fuel n) = n ∧ (toDecAux fuel n).all isDigitCh ∧
      toDecAux fuel n ≠ [] := by
  intro fuel
  induction fuel with
  | zero => intro n h; omega
  | succ f ih =>
    intro n h
    by_cases h10 : n < 10
    · refine ⟨?_, ?_, ?_⟩ <;> simp only [toDecAux, if_pos h10]
      · interval_cases n <;> rfl
      · interval_cases n <;> rfl
      · simp
    · have hn : n / 10 < f := by
        have h1 : n / 10 < n := Nat.div_lt_self (by omega) (by omega)
        omega
      obtain ⟨ihv, ihd, _⟩ := ih (n / 10) hn
      refine ⟨?_, ?_, ?_⟩ <;> simp only [toDecAux, if_neg h10]
      · rw [parseDec_append_digit, ihv]
        have hm : n % 10 < 10 := Nat.mod_lt _ (by omega)
        have : digitVal (decDigit (n % 10)) = n % 10 := by
          interval_cases hh : n % 10 <;> rfl
        rw [this]
        omega
      · simp only [List.all_append, ihd, Bool.true_and, List.all_cons, List.all_nil,
          Bool.and_true]
        have hm : n % 10 < 10 := Nat.mod_lt _ (by omega)
        interval_cases hh : n % 10 <;> rfl
      · simp

theorem parseDec_toDec (n : Nat) : parseDec (toDec n) = n :=
  (toDecAux_correct (n + 1) n (Nat.lt_succ_self n)).1

theorem toDec_all_digits (n : Nat) : (toDec n).all isDigitCh = true :=
  (toDecAux_correct (n + 1) n (Nat.lt_succ_self n)).2.1

theorem toDec_ne_nil (n : Nat) : toDec n ≠ [] :=
  (toDecAux_correct (n + 1) n (Nat.lt_succ_self n)).2.2

theorem chars_length : chars.length = 62 := rfl

/-- `C9`: For every dictionary index `i`, the decoder's index-decoding rule
applied to the suffix the encoder emits for `i` recovers exactly `i`: a
single alphabet character resolves to its alphabet position for `i < 62`,
and the purely numeric decimal suffix is read back as the integer `i` for
`i ≥ 62`. -/
theorem decIdxStr_encIdx (i : Nat) : decIdxStr (encIdx i) = some i := by
  by_cases h : i < 62
  · have : ∀ j : Fin 62, decIdxStr (encIdx j.val) = some j.val := by decide
    exact this ⟨i, h⟩
  · have h62 : ¬ i < chars.length := by rw [chars_length]; omega
    rw [encIdx, dif_neg h62, decIdxStr, if_pos]
    · rw [parseDec_toDec]
    · refine ⟨toDec_ne_nil i, toDec_all_digits i, ?_⟩
      rw [parseDec_toDec, chars_length]; omega

/-! ## Character classes -/

/-- ASCII alphanumeric — the `[0-9a-zA-Z]` class of the decoder's token
regex (line 309). -/
def isAlnumCh (c : Char) : Bool :=
  isDigitCh c || decide ('A' ≤ c ∧ c ≤ 'Z') || decide ('a' ≤ c ∧ c ≤ 'z')

/-- The `[a-zA-Z_]` class of the frequency analyzer's regex (line 102). -/
def isClassCh (c : Char) : Bool :=
  decide ('A' ≤ c ∧ c ≤ 'Z') || decide ('a' ≤ c ∧ c ≤ 'z') || c = '_'

/-- Shape of a non-escape token matched by the decoder's pattern
`~[\^\*]?[0-9a-zA-Z]+`: a tilde, an optional tier sigil, and a nonempty
alphanumeric suffix. -/
def tokenShapeB (t : Str) : Bool :=
  match t with
  | '~' :: c :: cs =>
    if c = '^' || c = '*' then !cs.isEmpty && cs.all isAlnumCh
    else isAlnumCh c && cs.all isAlnumCh
  | _ => false

/-! ## The decoder's token resolver (`replace_func`, lines 311–350) -/

/-- Python dict lookup for a dict built from a JSON object: later duplicate
keys override earlier ones, so look the key up in the reversed
association list. -/
def dictGet (m : List (Str × Str)) (k : Str) : Option Str :=
  List.lookup k m.reverse

/-- One tier lookup of `replace_func`: decode the suffix after the sigil
and return the dictionary entry when the index is in range
(lines 321–333 for the global tier, 336–348 for the type tier). -/
def tierLookup (dict : List Str) (suffix : Str) : Option Str :=
  match decIdxStr suffix with
  | some idx => if idx < dict.length then some (dict.getD idx []) else none
  | none => none

/-- `replace_func` (lines 311–350): `~~` is a literal tilde; a token in the
local mapping substitutes directly; then the global (`~^`) and type (`~*`)
tiers are tried; anything unresolved is returned verbatim. -/
def resolveToken (m : List (Str × Str)) (gd td : List Str) (token : Str) : Str :=
  if token = ['~', '~'] then ['~']
  else
    match dictGet m token with
    | some w => w
    | none =>
      match (if token.take 2 = ['~', '^'] then tierLookup gd (token.drop 2) else none) with
      | some w => w
      | none =>
        match (if token.take 2 = ['~', '*'] then tierLookup td (token.drop 2) else none) with
        | some w => w
        | none => token

theorem tokenShapeB_ne_escape {t : Str} (h : tokenShapeB t = true) :
    t ≠ ['~', '~'] := by
  intro he
  subst he
  simp [tokenShapeB, isAlnumCh, isDigitCh] at h

/-- `C8`: a body token that is not in the local mapping and whose decoded
index is `ValueError`-unresolvable or out of range for its tier dictionary
is returned verbatim by the decoder (which, being a total function, never
throws). -/
theorem resolveToken_unresolved (m : List (Str × Str)) (gd td : List Str) (t : Str)
    (hshape : tokenShapeB t = true)
    (hlocal : dictGet m t = none)
    (hg : t.take 2 = ['~', '^'] →
      ∀ i, decIdxStr (t.drop 2) = some i → gd.length ≤ i)
    (ht : t.take 2 = ['~', '*'] →
      ∀ i, decIdxStr (t.drop 2) = some i → td.length ≤ i) :
    resolveToken m gd td t = t := by
  rw [resolveToken, if_neg (tokenShapeB_ne_escape hshape), hlocal]
  have hgl : (if t.take 2 = ['~', '^'] then tierLookup gd (t.drop 2) else none) = none := by
    by_cases h2 : t.take 2 = ['~', '^']
    · rw [if_pos h2]
      cases hd : decIdxStr (t.drop 2) with
      | none => simp [tierLookup, hd]
      | some i => simp [tierLookup, hd, Nat.not_lt.mpr (hg h2 i hd)]
    · rw [if_neg h2]
  have htl : (if t.take 2 = ['~', '*'] then tierLookup td (t.drop 2) else none) = none := by
    by_cases h2 : t.take 2 = ['~', '*']
    · rw [if_pos h2]
      cases hd : decIdxStr (t.drop 2) with
      | none => simp [tierLookup, hd]
      | some i => simp [tierLookup, hd, Nat.not_lt.mpr (ht h2 i hd)]
    · rw [if_neg h2]
  rw [hgl, htl]

/-- Witness for `C8` at a concrete token: `~^Z` decodes to index 35, out of
range for an empty global dictionary, and passes through verbatim. -/
theorem resolveToken_unresolved_witness :
    resolveToken [] [] [] ['~', '^', 'Z'] = ['~', '^', 'Z'] :=
  resolveToken_unresolved [] [] [] ['~', '^', 'Z'] (by decide) (by decide)
    (fun _ i _ => Nat.zero_le i)
    (fun hcontra => absurd hcontra (by decide))

/- (frequency analyzer follows) -/

/-! ## Frequency analyzer (`get_frequent_phrases`, lines 97–110)

Python's `\b` and the implicit word-character class `\w` are
unicode-aware; the source relies on the regex engine's tables.  All
scanners are therefore parameterized by a word-character predicate
`wc : Char → Bool`; the theorems only assume its (fixed, known) values on
the ASCII characters actually involved, so they hold for the real
unicode table.  On ASCII, `\w` is exactly `[A-Za-z0-9_]`: -/

/-- ASCII word characters: `\w` restricted to ASCII. -/
def asciiWordCh (c : Char) : Bool := isAlnumCh c || c = '_'

/-- The effective behaviour of `re.findall(r'\b[a-zA-Z_]{L,}\b', text)`:
scan left to right; a match can only begin where the previous character is
not a word character and the current one is in `[a-zA-Z_]`; the greedy
class run is the maximal `[a-zA-Z_]` run from there, and the match
succeeds exactly when the run has length at least `L` and the character
after it (if any) is not a word character (all shorter backtracks end
inside the run and fail the trailing `\b`).  `prevWord` records whether
the previous character was a word character; `pending` is the run being
collected (`none` while not collecting — runs that begin after a word
character can never match and are skipped). -/
def findallWB (wc : Char → Bool) (minLen : Nat) : Str → Bool → Option Str → List Str
  | [], _, none => []
  | [], _, some run => if minLen ≤ run.length then [run] else []
  | c :: rest, prevWord, none =>
    if isClassCh c then
      if prevWord then findallWB wc minLen rest (wc c) none
      else findallWB wc minLen rest (wc c) (some [c])
    else findallWB wc minLen rest (wc c) none
  | c :: rest, _, some run =>
    if isClassCh c then findallWB wc minLen rest (wc c) (some (run ++ [c]))
    else if minLen ≤ run.length ∧ ¬ wc c then run :: findallWB wc minLen rest (wc c) none
    else findallWB wc minLen rest (wc c) none

/-- Python `dict`-based occurrence counting (lines 104–106): keys keep
first-insertion order. -/
def bump : List (Str × Nat) → Str → List (Str × Nat)
  | [], w => [(w, 1)]
  | (k, n) :: r, w => if k = w then (k, n + 1) :: r else (k, n) :: bump r w

/-- `counts` built by the loop on lines 104–106. -/
def countOcc (ws : List Str) : List (Str × Nat) := ws.foldl bump []

/-- Stable insertion into a list sorted descending by `key`: the new
element goes after every element with a greater-or-equal key. -/
def insDesc (key : α → Nat) (x : α) : List α → List α
  | [] => [x]
  | y :: r => if key x ≤ key y then y :: insDesc key x r else x :: y :: r

/-- Python `sorted(l, key=key, reverse=True)`: the unique stable
descending order. -/
def stableSortDesc (key : α → Nat) (l : List α) : List α :=
  l.foldl (fun acc x => insDesc key x acc) []

/-- `get_frequent_phrases(text, min_len, top_n)` (lines 97–110): extract
the `\b[a-zA-Z_]{min_len,}\b` matches, count them, keep words occurring
more than twice, sort by descending count (stable), truncate to `top_n`
and return the words. -/
def get_frequent_phrases (wc : Char → Bool) (text : Str) (minLen topN : Nat) : List Str :=
  let words := findallWB wc minLen text false none
  let counts := (countOcc words).filter (fun p => 2 < p.2)
  ((stableSortDesc (fun p => p.2) counts).take topN).map (fun p => p.1)

/-! ### Claim `C4`: what the analyzer returns

The claim describes the extraction as "the maximal runs of `[A-Za-z_]` of
length ≥ L"; the code additionally requires the runs to be
word-boundary-delimited (`\b`), which digits and other word characters
block.  `claimPhrases` formalizes the claim's words, `wbWords` the
word-boundary-delimited amendment (as a declarative, position-indexed
characterization, against which the scanner is proved). -/

/-- Maximal `[a-zA-Z_]` runs of a string, in order (the claim's notion,
with no word-boundary requirement). -/
def classRuns : Str → Option Str → List Str
  | [], none => []
  | [], some run => [run]
  | c :: rest, none =>
    if isClassCh c then classRuns rest (some [c]) else classRuns rest none
  | c :: rest, some run =>
    if isClassCh c then classRuns rest (some (run ++ [c]))
    else run :: classRuns rest none

/-- The frequency analyzer exactly as claim `C4` words it: maximal
`[A-Za-z_]` runs of length ≥ L occurring more than twice, sorted by
descending count, truncated to N. -/
def claimPhrases (text : Str) (minLen topN : Nat) : List Str :=
  let words := (classRuns text none).filter (fun r => minLen ≤ r.length)
  let counts := (countOcc words).filter (fun p => 2 < p.2)
  ((stableSortDesc (fun p => p.2) counts).take topN).map (fun p => p.1)

/-- `C4` counterexample: in `"ab1 ab1 ab1"` the string `ab` is a maximal
`[A-Za-z_]` run of length ≥ 2 occurring three times, so the claim
requires `["ab"]`; the code returns `[]` because the adjacent digit `1`
removes the trailing word boundary. -/
theorem gfp_claim_counterexample :
    claimPhrases "ab1 ab1 ab1".toList 2 200 = ["ab".toList] ∧
      get_frequent_phrases asciiWordCh "ab1 ab1 ab1".toList 2 200 = [] := by
  constructor <;> rfl

/-- Declarative characterization of a match at position `i`: the maximal
`[a-zA-Z_]` run starting there, provided the position sits at a word
boundary (`pw` says whether the character preceding the whole string is a
word character), the run is nonempty of length at least `minLen`, and the
character following the run is absent or not a word character. -/
def wbAt (wc : Char → Bool) (minLen : Nat) (pw : Bool) (s : Str) (i : Nat) : Option Str :=
  let run := (s.drop i).takeWhile isClassCh
  let before := match (s.take i).getLast? with
    | none => !pw
    | some p => !wc p
  let after := match (s.drop i).dropWhile isClassCh with
    | [] => true
    | d :: _ => !wc d
  if before && !run.isEmpty && decide (minLen ≤ run.length) && after then some run else none

/-- All word-boundary-delimited maximal runs of a string, by position. -/
def wbMatches (wc : Char → Bool) (minLen : Nat) (pw : Bool) (s : Str) : List Str :=
  (List.range s.length).filterMap (wbAt wc minLen pw s)

theorem takeWhile_all {α : Type} {p : α → Bool} :
    ∀ l : List α, ∀ x ∈ l.takeWhile p, p x = true := by
  intro l
  induction l with
  | nil => intro x hx; simp at hx
  | cons c r ih =>
    intro x hx
    by_cases hc : p c
    · rw [List.takeWhile_cons, if_pos hc] at hx
      rcases List.mem_cons.mp hx with h | h
      · rwa [h]
      · exact ih x h
    · rw [List.takeWhile_cons, if_neg hc] at hx
      simp at hx

theorem dropWhile_head_false {α : Type} {p : α → Bool} :
    ∀ (l : List α) (d : α) (r : List α), l.dropWhile p = d :: r → p d = false := by
  intro l
  induction l with
  | nil => intro d r h; simp at h
  | cons c t ih =>
    intro d r h
    by_cases hc : p c
    · rw [List.dropWhile_cons, if_pos hc] at h
      exact ih d r h
    · rw [List.dropWhile_cons, if_neg hc] at h
      obtain ⟨rfl, -⟩ := List.cons.inj h
      exact Bool.eq_false_iff.mpr hc

/-- Shifting the position-indexed characterization past one character. -/
theorem wbAt_succ (wc : Char → Bool) (L : Nat) (pw : Bool) (c : Char) (s : Str) (i : Nat) :
    wbAt wc L pw (c :: s) (i + 1) = wbAt wc L (wc c) s i := by
  have hdrop : (c :: s).drop (i + 1) = s.drop i := rfl
  have htake : (c :: s).take (i + 1) = c :: s.take i := rfl
  have hlast : ((c :: s).take (i + 1)).getLast? =
      match (s.take i).getLast? with
      | none => some c
      | some p => some p := by
    rw [htake]
    cases hc : s.take i with
    | nil => simp
    | cons a r =>
      have hsome : ∃ p, (a :: r).getLast? = some p := by
        cases hgl : (a :: r).getLast? with
        | none => exact absurd (List.getLast?_eq_none_iff.mp hgl) (by simp)
        | some p => exact ⟨p, rfl⟩
      obtain ⟨p, hp⟩ := hsome
      rw [List.getLast?_cons_cons, hp]
  unfold wbAt
  rw [hdrop, hlast]
  cases hc : (s.take i).getLast? <;> simp

/-- Splitting the first position off the characterization. -/
theorem wbMatches_cons (wc : Char → Bool) (L : Nat) (pw : Bool) (c : Char) (s : Str) :
    wbMatches wc L pw (c :: s) =
      (wbAt wc L pw (c :: s) 0).toList ++ wbMatches wc L (wc c) s := by
  unfold wbMatches
  rw [List.length_cons, List.range_succ_eq_map, List.filterMap_cons, List.filterMap_map]
  have hcomp : (wbAt wc L pw (c :: s)) ∘ Nat.succ = wbAt wc L (wc c) s := by
    funext i
    exact wbAt_succ wc L pw c s i
  rw [hcomp]
  cases h0 : wbAt wc L pw (c :: s) 0 <;> simp

/-- Positions whose predecessor is a word character never match, so a
leading `[a-zA-Z_]` run scanned from a word-character context contributes
nothing. -/
theorem wbMatches_classPrefix (wc : Char → Bool)
    (hcw : ∀ c, isClassCh c = true → wc c = true) (L : Nat) :
    ∀ k s0, (∀ x ∈ k, isClassCh x = true) →
      wbMatches wc L true (k ++ s0) = wbMatches wc L true s0 := by
  intro k
  induction k with
  | nil => intro s0 _; rfl
  | cons c r ih =>
    intro s0 hk
    have hc : isClassCh c = true := hk c (List.mem_cons_self c r)
    rw [List.cons_append, wbMatches_cons]
    have h0 : wbAt wc L true (c :: (r ++ s0)) 0 = none := by
      unfold wbAt
      simp
    rw [h0, hcw c hc]
    simp only [Option.toList, List.nil_append]
    exact ih s0 (fun x hx => hk x (List.mem_cons_of_mem c hx))

/-- The collecting state of the scanner: with a nonempty pending run, the
scanner finishes the current maximal class run, emits it when it is long
enough and followed by a non-word character (or the end), and resumes in
the idle state after the terminating character. -/
theorem findallWB_collect (wc : Char → Bool) (L : Nat) :
    ∀ (s : Str) (pw : Bool) (run : Str),
      findallWB wc L s pw (some run) =
        match s.dropWhile isClassCh with
        | [] =>
          if L ≤ (run ++ s.takeWhile isClassCh).length
          then [run ++ s.takeWhile isClassCh] else []
        | d :: rest2 =>
          (if L ≤ (run ++ s.takeWhile isClassCh).length ∧ ¬ wc d
           then [run ++ s.takeWhile isClassCh] else []) ++
            findallWB wc L rest2 (wc d) none := by
  intro s
  induction s with
  | nil =>
    intro pw run
    simp [findallWB]
  | cons c rest ih =>
    intro pw run
    by_cases hc : isClassCh c
    · have hL : findallWB wc L (c :: rest) pw (some run) =
          findallWB wc L rest (wc c) (some (run ++ [c])) := by
        simp [findallWB, hc]
      rw [hL, ih (wc c) (run ++ [c])]
      rw [List.dropWhile_cons, if_pos hc, List.takeWhile_cons, if_pos hc]
      cases hdw : rest.dropWhile isClassCh <;> simp
    · have hstep : findallWB wc L (c :: rest) pw (some run) =
          if L ≤ run.length ∧ ¬ wc c then run :: findallWB wc L rest (wc c) none
          else findallWB wc L rest (wc c) none := by
        simp [findallWB, hc]
      rw [hstep, List.dropWhile_cons, if_neg hc, List.takeWhile_cons, if_neg hc]
      by_cases hcond : L ≤ run.length ∧ ¬ wc c
      · simp [hcond]
      · have hcond2 : ¬(L ≤ run.length ∧ wc c = false) := by simpa using hcond
        simp [hcond2]

theorem wbAt_zero (wc : Char → Bool) (L : Nat) (pw : Bool) (s : Str) :
    wbAt wc L pw s 0 =
      if (!pw && !(s.takeWhile isClassCh).isEmpty &&
          decide (L ≤ (s.takeWhile isClassCh).length) &&
          (match s.dropWhile isClassCh with
           | [] => true
           | d :: _ => !wc d))
      then some (s.takeWhile isClassCh) else none := rfl

/-- The scanner implementing `re.findall(r'\b[a-zA-Z_]{L,}\b', ·)` computes
exactly the word-boundary-delimited maximal `[a-zA-Z_]` runs. -/
theorem findallWB_eq_wbMatches (wc : Char → Bool)
    (hcw : ∀ c, isClassCh c = true → wc c = true) (L : Nat) :
    ∀ (n : Nat) (s : Str) (pw : Bool), s.length ≤ n →
      findallWB wc L s pw none = wbMatches wc L pw s := by
  intro n
  induction n with
  | zero =>
    intro s pw hlen
    have hs : s = [] := List.length_eq_zero.mp (Nat.le_zero.mp hlen)
    subst hs
    rfl
  | succ n ih =>
    intro s pw hlen
    cases s with
    | nil => rfl
    | cons c rest =>
      have hrest : rest.length ≤ n := by
        simp only [List.length_cons] at hlen
        omega
      by_cases hc : isClassCh c
      · cases pw with
        | true =>
          have hstep : findallWB wc L (c :: rest) true none =
              findallWB wc L rest (wc c) none := by
            simp [findallWB, hc]
          have h0 : wbAt wc L true (c :: rest) 0 = none := by
            rw [wbAt_zero]
            simp
          rw [hstep, wbMatches_cons, h0, ih rest (wc c) hrest]
          simp [Option.toList]
        | false =>
          have hwcc : wc c = true := hcw c hc
          have hstep : findallWB wc L (c :: rest) false none =
              findallWB wc L rest (wc c) (some [c]) := by
            simp [findallWB, hc]
          have hsplit : rest.takeWhile isClassCh ++ rest.dropWhile isClassCh = rest :=
            List.takeWhile_append_dropWhile isClassCh rest
          have hmr : wbMatches wc L (wc c) rest =
              wbMatches wc L true (rest.dropWhile isClassCh) := by
            rw [hwcc]
            conv_lhs => rw [← hsplit]
            exact wbMatches_classPrefix wc hcw L _ _ (takeWhile_all _)
          have htwc : (c :: rest).takeWhile isClassCh = c :: rest.takeWhile isClassCh := by
            rw [List.takeWhile_cons, if_pos hc]
          have hdwc : (c :: rest).dropWhile isClassCh = rest.dropWhile isClassCh := by
            rw [List.dropWhile_cons, if_pos hc]
          rw [hstep, findallWB_collect, wbMatches_cons, hmr]
          cases hdw : rest.dropWhile isClassCh with
          | nil =>
            have hat0 : wbAt wc L false (c :: rest) 0 =
                if L ≤ (c :: rest.takeWhile isClassCh).length
                then some (c :: rest.takeWhile isClassCh) else none := by
              rw [wbAt_zero, htwc, hdwc, hdw]
              by_cases hL : L ≤ (c :: rest.takeWhile isClassCh).length <;> simp [hL]
            rw [hat0]
            by_cases hL : L ≤ ([c] ++ rest.takeWhile isClassCh).length
            · rw [if_pos hL, if_pos (by simpa using hL)]
              simp [wbMatches, Option.toList]
            · rw [if_neg hL, if_neg (by simpa using hL)]
              simp [wbMatches, Option.toList]
          | cons d rest2 =>
            have hd : isClassCh d = false := dropWhile_head_false rest d rest2 hdw
            have hr2 : rest2.length ≤ n := by
              have heq : rest.takeWhile isClassCh ++ d :: rest2 = rest := by
                rw [← hdw]
                exact hsplit
              have hlen2 := congrArg List.length heq
              simp only [List.length_append, List.length_cons] at hlen2
              omega
            have hat0 : wbAt wc L false (c :: rest) 0 =
                if L ≤ (rest.takeWhile isClassCh).length + 1 ∧ wc d = false
                then some (c :: rest.takeWhile isClassCh) else none := by
              rw [wbAt_zero, htwc, hdwc, hdw]
              by_cases hL1 : L ≤ (rest.takeWhile isClassCh).length + 1
              · by_cases hL2 : wc d = true
                · simp [hL2]
                · have hwd : wc d = false := by simpa using hL2
                  simp [hL1, hwd]
              · simp [hL1]
            have hmd : wbMatches wc L true (d :: rest2) = wbMatches wc L (wc d) rest2 := by
              rw [wbMatches_cons]
              have h0 : wbAt wc L true (d :: rest2) 0 = none := by
                rw [wbAt_zero]
                simp [List.takeWhile_cons, hd]
              rw [h0]
              simp [Option.toList]
            rw [hat0, hmd]
            have hih := ih rest2 (wc d) hr2
            by_cases hcond : L ≤ (rest.takeWhile isClassCh).length + 1 ∧ wc d = false
            · obtain ⟨h1, h2⟩ := hcond
              have hih2 : findallWB wc L rest2 false none = wbMatches wc L false rest2 := by
                rw [h2] at hih
                exact hih
              simp [h1, h2, Option.toList, hih2]
            · have hcond2 : ¬(L ≤ (rest.takeWhile isClassCh).length + 1 ∧ ¬ wc d) := by
                simpa using hcond
              simp [Option.toList, hcond, hcond2, hih]
      · have hstep : findallWB wc L (c :: rest) pw none =
            findallWB wc L rest (wc c) none := by
          simp [findallWB, hc]
        have h0 : wbAt wc L pw (c :: rest) 0 = none := by
          rw [wbAt_zero]
          simp [List.takeWhile_cons, hc]
        rw [hstep, wbMatches_cons, h0, ih rest (wc c) hrest]
        simp [Option.toList]

/-- The frequency analyzer's specification as amended: word-boundary-
delimited maximal `[a-zA-Z_]` runs, counted, filtered to count > 2, stably
sorted by descending count, truncated to `topN`. -/
def amendedPhrases (wc : Char → Bool) (text : Str) (minLen topN : Nat) : List Str :=
  let words := wbMatches wc minLen false text
  let counts := (countOcc words).filter (fun p => 2 < p.2)
  ((stableSortDesc (fun p => p.2) counts).take topN).map (fun p => p.1)

theorem asciiWordCh_of_class (c : Char) (h : isClassCh c = true) :
    asciiWordCh c = true := by
  simp only [isClassCh, Bool.or_eq_true, decide_eq_true_eq] at h
  simp only [asciiWordCh, isAlnumCh, Bool.or_eq_true, decide_eq_true_eq]
  tauto

/-- `C4` amended: for every text, minimum length `L ≥ 1` and cap `N`, the
frequency analyzer returns exactly the *word-boundary-delimited* maximal
runs of `[A-Za-z_]` of length ≥ `L` (maximal runs adjacent to another word
character, e.g. a digit, are excluded by the `\b` anchors) that occur more
than 2 times, stably sorted by descending occurrence count and truncated
to the first `N` words.  `wc` is any word-character predicate agreeing
with `\w` on `[A-Za-z_]`; `L ≥ 1` marks the modelling boundary (for
`L = 0` the Python regex additionally produces empty matches). -/
theorem gfp_eq_amendedPhrases (wc : Char → Bool)
    (hcw : ∀ c, isClassCh c = true → wc c = true) (text : Str) (L N : Nat)
    (hL : 1 ≤ L) :
    get_frequent_phrases wc text L N = amendedPhrases wc text L N := by
  unfold get_frequent_phrases amendedPhrases
  rw [findallWB_eq_wbMatches wc hcw L text.length text false le_rfl]

/-- Witness for the amended `C4` at a concrete input. -/
theorem gfp_eq_amendedPhrases_witness :
    get_frequent_phrases asciiWordCh "ab ab ab cd1".toList 2 200 =
      amendedPhrases asciiWordCh "ab ab ab cd1".toList 2 200 :=
  gfp_eq_amendedPhrases asciiWordCh asciiWordCh_of_class "ab ab ab cd1".toList 2 200
    (by decide)

/-! ## Token codec — compression (`compress`, lines 112–256)

`text.replace('~', '~~')` (line 146): -/

/-- Escape literal tildes by doubling them. -/
def escapeTildes : Str → Str
  | [] => []
  | c :: r => if c = '~' then '~' :: '~' :: escapeTildes r else c :: escapeTildes r

/-- `\b` holds before the match: the previous character (`none` at the
start of the string) is not a word character.  (The matched word's first
character is always a word character here.) -/
def boundaryLB (wc : Char → Bool) : Option Char → Bool
  | none => true
  | some p => !wc p

/-- `\b` holds after the match: the following text is empty or starts with
a non-word character.  (The matched word's last character is always a word
character here.) -/
def boundaryRB (wc : Char → Bool) : Str → Bool
  | [] => true
  | d :: _ => !wc d

/-- The regex `\b` + escaped word + `\b` matches at the current position:
`prev` is the character before the position. -/
def matchesAt (wc : Char → Bool) (w : Str) (prev : Option Char) (s : Str) : Bool :=
  boundaryLB wc prev && w.isPrefixOf s && boundaryRB wc (s.drop w.length)

/-- Fuel-driven scan of `re.sub(r'\b' + re.escape(word) + r'\b', token,
text)` for a nonempty word consisting of word characters: find
non-overlapping matches left to right, emit the token for each, copy
everything else.  After a match the scan resumes after the matched text
with the word's last character as the new previous character. -/
def replWordAux (wc : Char → Bool) (w tok : Str) : Nat → Option Char → Str → Str
  | 0, _, s => s
  | fuel + 1, prev, s =>
    match s with
    | [] => []
    | c :: rest =>
      if w ≠ [] ∧ matchesAt wc w prev s then
        tok ++ replWordAux wc w tok fuel w.getLast? (s.drop w.length)
      else c :: replWordAux wc w tok fuel (some c) rest

/-- The scan with its canonical fuel and scan state. -/
def replCore (wc : Char → Bool) (w tok : Str) (prev : Option Char) (s : Str) : Str :=
  replWordAux wc w tok s.length prev s

/-- `re.sub(r'\b' + re.escape(word) + r'\b', token, text)` (line 204). -/
def replaceWord (wc : Char → Bool) (w tok s : Str) : Str := replCore wc w tok none s

theorem replWordAux_fuel (wc : Char → Bool) (w tok : Str) :
    ∀ f g (prev : Option Char) (s : Str), s.length ≤ f → s.length ≤ g →
      replWordAux wc w tok f prev s = replWordAux wc w tok g prev s := by
  intro f
  induction f with
  | zero =>
    intro g prev s hf _
    have hs : s = [] := List.length_eq_zero.mp (Nat.le_zero.mp hf)
    subst hs
    cases g <;> rfl
  | succ f ih =>
    intro g prev s hf hg
    cases s with
    | nil => cases g <;> rfl
    | cons c rest =>
      cases g with
      | zero => simp at hg
      | succ g =>
        simp only [List.length_cons] at hf hg
        show (if w ≠ [] ∧ matchesAt wc w prev (c :: rest) then
            tok ++ replWordAux wc w tok f w.getLast? ((c :: rest).drop w.length)
          else c :: replWordAux wc w tok f (some c) rest) =
          (if w ≠ [] ∧ matchesAt wc w prev (c :: rest) then
            tok ++ replWordAux wc w tok g w.getLast? ((c :: rest).drop w.length)
          else c :: replWordAux wc w tok g (some c) rest)
        by_cases hm : w ≠ [] ∧ matchesAt wc w prev (c :: rest)
        · rw [if_pos hm, if_pos hm]
          have hw1 : 1 ≤ w.length := by
            cases hww : w with
            | nil => exact absurd hww hm.1
            | cons a b => simp
          have hd : ((c :: rest).drop w.length).length ≤ f := by
            simp only [List.length_drop, List.length_cons]
            omega
          have hd2 : ((c :: rest).drop w.length).length ≤ g := by
            simp only [List.length_drop, List.length_cons]
            omega
          rw [ih g w.getLast? _ hd hd2]
        · rw [if_neg hm, if_neg hm, ih g (some c) rest (by omega) (by omega)]

theorem replCore_nil (wc : Char → Bool) (w tok : Str) (prev : Option Char) :
    replCore wc w tok prev [] = [] := rfl

theorem replCore_cons (wc : Char → Bool) (w tok : Str) (prev : Option Char)
    (c : Char) (rest : Str) :
    replCore wc w tok prev (c :: rest) =
      if w ≠ [] ∧ matchesAt wc w prev (c :: rest) then
        tok ++ replCore wc w tok w.getLast? ((c :: rest).drop w.length)
      else c :: replCore wc w tok (some c) rest := by
  show (if w ≠ [] ∧ matchesAt wc w prev (c :: rest) then
      tok ++ replWordAux wc w tok rest.length w.getLast? ((c :: rest).drop w.length)
    else c :: replWordAux wc w tok rest.length (some c) rest) = _
  by_cases hm : w ≠ [] ∧ matchesAt wc w prev (c :: rest)
  · rw [if_pos hm, if_pos hm, replCore]
    have hw1 : 1 ≤ w.length := List.length_pos.mpr hm.1
    rw [replWordAux_fuel wc w tok rest.length ((c :: rest).drop w.length).length
      w.getLast? _ (by simp only [List.length_drop, List.length_cons]; omega) le_rfl]
  · rw [if_neg hm, if_neg hm, replCore]

/-! ### Tier selection (`compress` loop body, lines 176–204) -/

/-- One iteration of the word loop: global dictionary first, then the type
dictionary, otherwise a fresh local token appended to the mapping
(`mapping`/`reverse_mapping`, lines 180–200).  Returns the token and the
updated reverse mapping (token → word, in insertion order). -/
def chooseToken (gd td : List Str) (revMap : List (Str × Str)) (w : Str) :
    Str × List (Str × Str) :=
  if w ∈ gd then (getToken ['~', '^'] (gd.indexOf w), revMap)
  else if w ∈ td then (getToken ['~', '*'] (td.indexOf w), revMap)
  else
    let tok := getToken ['~'] revMap.length
    (tok, revMap ++ [(tok, w)])

/-- The word-processing loop of `compress` (lines 176–204): for each word
in order, choose its token and replace all `\b`-delimited occurrences. -/
def procWords (wc : Char → Bool) (gd td : List Str) :
    List Str → Str → List (Str × Str) → Str × List (Str × Str)
  | [], body, revMap => (body, revMap)
  | w :: ws, body, revMap =>
    let p := chooseToken gd td revMap w
    procWords wc gd td ws (replaceWord wc w p.1 body) p.2

/-- `words.sort(key=len, reverse=True)` (line 168). -/
def sortLenDesc (ws : List Str) : List Str := stableSortDesc (fun w => w.length) ws

/-- The candidate words of `compress`, in substitution order (lines 135 and
168): frequency analysis, then the stable descending-length sort. -/
def candidateOrder (wc : Char → Bool) (text : Str) (minLen topN : Nat) : List Str :=
  sortLenDesc (get_frequent_phrases wc text minLen topN)

/-- The dictionary-substitution stage of `compress` (lines 135–204):
escape tildes, then substitute each candidate word.  Returns the
substituted body and the reverse mapping for the header. -/
def compressCore (wc : Char → Bool) (gd td : List Str) (text : Str)
    (minLen topN : Nat) : Str × List (Str × Str) :=
  procWords wc gd td (candidateOrder wc text minLen topN) (escapeTildes text) []

/-- `C5`: exactly one tier is chosen per candidate word, with priority
global over type over local: a word in the global dictionary (in
particular one present in both dictionaries) is always emitted with the
global sigil `~^` and never the type sigil `~*`; a word in neither
dictionary receives the next local token, which is recorded in the local
mapping. -/
theorem chooseToken_tier_priority (gd td : List Str) (revMap : List (Str × Str)) (w : Str) :
    (w ∈ gd →
      (chooseToken gd td revMap w).1 = ['~', '^'] ++ encIdx (gd.indexOf w) ∧
      (chooseToken gd td revMap w).1.take 2 ≠ ['~', '*'] ∧
      (chooseToken gd td revMap w).2 = revMap) ∧
    (w ∉ gd → w ∉ td →
      (chooseToken gd td revMap w).1 = ['~'] ++ encIdx revMap.length ∧
      (chooseToken gd td revMap w).2 = revMap ++ [((chooseToken gd td revMap w).1, w)]) := by
  constructor
  · intro hg
    refine ⟨by simp [chooseToken, hg, getToken], ?_, by simp [chooseToken, hg]⟩
    simp [chooseToken, hg, getToken]
  · intro hg ht
    exact ⟨by simp [chooseToken, hg, ht, getToken], by simp [chooseToken, hg, ht, getToken]⟩

/-- Witness for `C5`: `both` is in both dictionaries and is emitted with
the global sigil; `loc` is in neither and becomes local token `~0`,
recorded in the mapping. -/
theorem chooseToken_tier_priority_witness :
    (chooseToken ["both".toList] ["both".toList] [] "both".toList).1 = "~^0".toList ∧
      (chooseToken ["both".toList] ["both".toList] [] "loc".toList).1 = "~0".toList ∧
      (chooseToken ["both".toList] ["both".toList] [] "loc".toList).2 =
        [("~0".toList, "loc".toList)] := by
  refine ⟨?_, ?_, ?_⟩
  · exact ((chooseToken_tier_priority ["both".toList] ["both".toList] []
      "both".toList).1 (by decide)).1.trans (by decide)
  · exact ((chooseToken_tier_priority ["both".toList] ["both".toList] []
      "loc".toList).2 (by decide) (by decide)).1.trans (by decide)
  · have h := ((chooseToken_tier_priority ["both".toList] ["both".toList] []
      "loc".toList).2 (by decide) (by decide)).2
    rw [h]
    have h1 := ((chooseToken_tier_priority ["both".toList] ["both".toList] []
      "loc".toList).2 (by decide) (by decide)).1
    rw [h1]
    decide

theorem mem_insDesc {α : Type} (key : α → Nat) (x z : α) :
    ∀ l : List α, z ∈ insDesc key x l → z = x ∨ z ∈ l := by
  intro l
  induction l with
  | nil =>
    intro h
    simp [insDesc] at h
    exact Or.inl h
  | cons y r ih =>
    intro h
    rw [insDesc] at h
    by_cases hk : key x ≤ key y
    · rw [if_pos hk] at h
      rcases List.mem_cons.mp h with h | h
      · exact Or.inr (h ▸ List.mem_cons_self y r)
      · rcases ih h with h | h
        · exact Or.inl h
        · exact Or.inr (List.mem_cons_of_mem y h)
    · rw [if_neg hk] at h
      rcases List.mem_cons.mp h with h | h
      · exact Or.inl h
      · exact Or.inr h

theorem pairwise_insDesc {α : Type} (key : α → Nat) (x : α) :
    ∀ l : List α, l.Pairwise (fun a b => key b ≤ key a) →
      (insDesc key x l).Pairwise (fun a b => key b ≤ key a) := by
  intro l
  induction l with
  | nil => intro _; simp [insDesc]
  | cons y r ih =>
    intro h
    rw [List.pairwise_cons] at h
    obtain ⟨hy, hr⟩ := h
    rw [insDesc]
    by_cases hk : key x ≤ key y
    · rw [if_pos hk]
      rw [List.pairwise_cons]
      refine ⟨?_, ih hr⟩
      intro z hz
      rcases mem_insDesc key x z r hz with rfl | hz
      · exact hk
      · exact hy z hz
    · rw [if_neg hk]
      have hyx : key y ≤ key x := Nat.le_of_not_le hk
      rw [List.pairwise_cons]
      refine ⟨?_, List.pairwise_cons.mpr ⟨hy, hr⟩⟩
      intro z hz
      rcases List.mem_cons.mp hz with rfl | hz
      · exact hyx
      · exact le_trans (hy z hz) hyx

theorem pairwise_stableSortDesc {α : Type} (key : α → Nat) (l : List α) :
    (stableSortDesc key l).Pairwise (fun a b => key b ≤ key a) := by
  suffices h : ∀ (l acc : List α), acc.Pairwise (fun a b => key b ≤ key a) →
      (l.foldl (fun acc x => insDesc key x acc) acc).Pairwise (fun a b => key b ≤ key a) by
    exact h l [] (by simp)
  intro l
  induction l with
  | nil => intro acc hacc; exact hacc
  | cons x r ih =>
    intro acc hacc
    exact ih (insDesc key x acc) (pairwise_insDesc key x acc hacc)

/-- `C6`: `compress` substitutes candidate words in descending length
order (the processed candidate list is sorted by non-increasing length;
ties keep their relative order, matching "ties: order irrelevant"), and in
the claim's scenario — `in` and `int` both candidates in a text of `int`
and `in` occurrences — every occurrence of the longer word `int` is
replaced by its own token `~0` intact, never as the `in` token plus a
trailing `t`. -/
theorem compress_longest_first :
    (∀ (wc : Char → Bool) (text : Str) (L N : Nat),
      (candidateOrder wc text L N).Pairwise (fun a b => b.length ≤ a.length)) ∧
      compressCore asciiWordCh [] [] "int x int y int z in a in b in c".toList 2 200 =
        ("~0 x ~0 y ~0 z ~1 a ~1 b ~1 c".toList,
          [("~0".toList, "int".toList), ("~1".toList, "in".toList)]) := by
  constructor
  · intro wc text L N
    exact pairwise_stableSortDesc (fun w : Str => w.length)
      (get_frequent_phrases wc text L N)
  · rfl

/-! ## Token codec — the decoder's scan (`expand`, lines 309 and 352)

`token_pattern = re.compile(r'~~|~[\^\*]?[0-9a-zA-Z]+')` and
`token_pattern.sub(replace_func, body)`: a left-to-right scan; at a `~`
the first alternative (`~~`) is preferred; otherwise an optional sigil is
followed by the greedy maximal `[0-9a-zA-Z]` run (backtracking a shorter
run never helps the fixed pattern, and a sigil with no alphanumeric
suffix falls back to no-sigil, which then fails on the sigil character);
a position with no match emits its character verbatim.  Every match is
passed to the resolver `R` (`replace_func`). -/

/-- Fuel-driven decoder scan. -/
def decodeAux (R : Str → Str) : Nat → Str → Str
  | 0, s => s
  | _ + 1, [] => []
  | fuel + 1, c :: rest =>
    if c = '~' then
      match rest with
      | [] => ['~']
      | d :: rest2 =>
        if d = '~' then R ['~', '~'] ++ decodeAux R fuel rest2
        else if d = '^' ∨ d = '*' then
          if (rest2.takeWhile isAlnumCh).isEmpty then '~' :: decodeAux R fuel rest
          else R ('~' :: ([d] ++ rest2.takeWhile isAlnumCh)) ++
            decodeAux R fuel (rest2.drop (rest2.takeWhile isAlnumCh).length)
        else
          if (rest.takeWhile isAlnumCh).isEmpty then '~' :: decodeAux R fuel rest
          else R ('~' :: rest.takeWhile isAlnumCh) ++
            decodeAux R fuel (rest.drop (rest.takeWhile isAlnumCh).length)
    else c :: decodeAux R fuel rest

/-- The decoder scan with its canonical fuel. -/
def decodeCore (R : Str → Str) (s : Str) : Str := decodeAux R s.length s

theorem decodeAux_nil (R : Str → Str) : ∀ f, decodeAux R f [] = [] := by
  intro f
  cases f <;> rfl

theorem decodeAux_fuel (R : Str → Str) :
    ∀ f g (s : Str), s.length ≤ f → s.length ≤ g →
      decodeAux R f s = decodeAux R g s := by
  intro f
  induction f with
  | zero =>
    intro g s hf _
    have hs : s = [] := List.length_eq_zero.mp (Nat.le_zero.mp hf)
    subst hs
    cases g <;> rfl
  | succ f ih =>
    intro g s hf hg
    cases s with
    | nil => cases g <;> rfl
    | cons c rest =>
      cases g with
      | zero => simp at hg
      | succ g =>
        simp only [List.length_cons] at hf hg
        cases rest with
        | nil =>
          show (if c = '~' then ['~'] else c :: decodeAux R f []) =
            (if c = '~' then ['~'] else c :: decodeAux R g [])
          rw [decodeAux_nil, decodeAux_nil]
        | cons d rest2 =>
          simp only [List.length_cons] at hf hg
          show (if c = '~' then
              (if d = '~' then R ['~', '~'] ++ decodeAux R f rest2
               else if d = '^' ∨ d = '*' then
                 (if (rest2.takeWhile isAlnumCh).isEmpty then
                    '~' :: decodeAux R f (d :: rest2)
                  else R ('~' :: ([d] ++ rest2.takeWhile isAlnumCh)) ++
                    decodeAux R f (rest2.drop (rest2.takeWhile isAlnumCh).length))
               else
                 (if ((d :: rest2).takeWhile isAlnumCh).isEmpty then
                    '~' :: decodeAux R f (d :: rest2)
                  else R ('~' :: (d :: rest2).takeWhile isAlnumCh) ++
                    decodeAux R f ((d :: rest2).drop
                      ((d :: rest2).takeWhile isAlnumCh).length)))
            else c :: decodeAux R f (d :: rest2)) =
            (if c = '~' then
              (if d = '~' then R ['~', '~'] ++ decodeAux R g rest2
               else if d = '^' ∨ d = '*' then
                 (if (rest2.takeWhile isAlnumCh).isEmpty then
                    '~' :: decodeAux R g (d :: rest2)
                  else R ('~' :: ([d] ++ rest2.takeWhile isAlnumCh)) ++
                    decodeAux R g (rest2.drop (rest2.takeWhile isAlnumCh).length))
               else
                 (if ((d :: rest2).takeWhile isAlnumCh).isEmpty then
                    '~' :: decodeAux R g (d :: rest2)
                  else R ('~' :: (d :: rest2).takeWhile isAlnumCh) ++
                    decodeAux R g ((d :: rest2).drop
                      ((d :: rest2).takeWhile isAlnumCh).length)))
            else c :: decodeAux R g (d :: rest2))
          by_cases hc : c = '~'
          · rw [if_pos hc, if_pos hc]
            by_cases hd : d = '~'
            · rw [if_pos hd, if_pos hd, ih g rest2 (by omega) (by omega)]
            · rw [if_neg hd, if_neg hd]
              by_cases hsg : d = '^' ∨ d = '*'
              · rw [if_pos hsg, if_pos hsg]
                by_cases hrun : (rest2.takeWhile isAlnumCh).isEmpty
                · rw [if_pos hrun, if_pos hrun,
                    ih g (d :: rest2) (by simp; omega) (by simp; omega)]
                · rw [if_neg hrun, if_neg hrun,
                    ih g _ (by simp [List.length_drop]; omega)
                      (by simp [List.length_drop]; omega)]
              · rw [if_neg hsg, if_neg hsg]
                by_cases hrun : ((d :: rest2).takeWhile isAlnumCh).isEmpty
                · rw [if_pos hrun, if_pos hrun,
                    ih g (d :: rest2) (by simp; omega) (by simp; omega)]
                · rw [if_neg hrun, if_neg hrun,
                    ih g _ (by simp [List.length_drop]; omega)
                      (by simp [List.length_drop]; omega)]
          · rw [if_neg hc, if_neg hc, ih g (d :: rest2) (by simp; omega) (by simp; omega)]

theorem decodeCore_cons (R : Str → Str) (c : Char) (rest : Str) :
    decodeCore R (c :: rest) =
      if c = '~' then
        match rest with
        | [] => ['~']
        | d :: rest2 =>
          if d = '~' then R ['~', '~'] ++ decodeCore R rest2
          else if d = '^' ∨ d = '*' then
            if (rest2.takeWhile isAlnumCh).isEmpty then '~' :: decodeCore R rest
            else R ('~' :: ([d] ++ rest2.takeWhile isAlnumCh)) ++
              decodeCore R (rest2.drop (rest2.takeWhile isAlnumCh).length)
          else
            if (rest.takeWhile isAlnumCh).isEmpty then '~' :: decodeCore R rest
            else R ('~' :: rest.takeWhile isAlnumCh) ++
              decodeCore R (rest.drop (rest.takeWhile isAlnumCh).length)
      else c :: decodeCore R rest := by
  cases rest with
  | nil =>
    show (if c = '~' then ['~'] else c :: decodeAux R 0 []) = _
    rfl
  | cons d rest2 =>
    show (if c = '~' then
        (if d = '~' then R ['~', '~'] ++ decodeAux R (rest2.length + 1) rest2
         else if d = '^' ∨ d = '*' then
           (if (rest2.takeWhile isAlnumCh).isEmpty then
              '~' :: decodeAux R (rest2.length + 1) (d :: rest2)
            else R ('~' :: ([d] ++ rest2.takeWhile isAlnumCh)) ++
              decodeAux R (rest2.length + 1)
                (rest2.drop (rest2.takeWhile isAlnumCh).length))
         else
           (if ((d :: rest2).takeWhile isAlnumCh).isEmpty then
              '~' :: decodeAux R (rest2.length + 1) (d :: rest2)
            else R ('~' :: (d :: rest2).takeWhile isAlnumCh) ++
              decodeAux R (rest2.length + 1) ((d :: rest2).drop
                ((d :: rest2).takeWhile isAlnumCh).length)))
      else c :: decodeAux R (rest2.length + 1) (d :: rest2)) =
      (if c = '~' then
        (if d = '~' then R ['~', '~'] ++ decodeCore R rest2
         else if d = '^' ∨ d = '*' then
           (if (rest2.takeWhile isAlnumCh).isEmpty then
              '~' :: decodeCore R (d :: rest2)
            else R ('~' :: ([d] ++ rest2.takeWhile isAlnumCh)) ++
              decodeCore R (rest2.drop (rest2.takeWhile isAlnumCh).length))
         else
           (if ((d :: rest2).takeWhile isAlnumCh).isEmpty then
              '~' :: decodeCore R (d :: rest2)
            else R ('~' :: (d :: rest2).takeWhile isAlnumCh) ++
              decodeCore R ((d :: rest2).drop
                ((d :: rest2).takeWhile isAlnumCh).length)))
      else c :: decodeCore R (d :: rest2))
    by_cases hc : c = '~'
    · rw [if_pos hc, if_pos hc]
      by_cases hd : d = '~'
      · rw [if_pos hd, if_pos hd,
          decodeAux_fuel R (rest2.length + 1) rest2.length rest2 (by omega) le_rfl]
        rfl
      · rw [if_neg hd, if_neg hd]
        by_cases hsg : d = '^' ∨ d = '*'
        · rw [if_pos hsg, if_pos hsg]
          by_cases hrun : (rest2.takeWhile isAlnumCh).isEmpty
          · rw [if_pos hrun, if_pos hrun]
            rfl
          · rw [if_neg hrun, if_neg hrun,
              decodeAux_fuel R (rest2.length + 1) _ _
                (by simp [List.length_drop]; omega) le_rfl]
            rfl
        · rw [if_neg hsg, if_neg hsg]
          by_cases hrun : ((d :: rest2).takeWhile isAlnumCh).isEmpty
          · rw [if_pos hrun, if_pos hrun]
            rfl
          · rw [if_neg hrun, if_neg hrun,
              decodeAux_fuel R (rest2.length + 1) _ _
                (by simp [List.length_drop]) le_rfl]
            rfl
    · rw [if_neg hc, if_neg hc]
      rfl

/-! ## The body invariant

A compressed body is a sequence of *items*: literal characters of the
original text (escaped on rendering) and inserted tokens (which remember
the word they stand for).  `render` produces the actual body string;
`readback` the original text the decoder must recover. -/

/-- A body item: a literal source character, or an inserted token together
with the word it replaces. -/
inductive Item where
  | lit : Char → Item
  | tok : Str → Str → Item
deriving DecidableEq

/-- The body text an item contributes (a literal tilde was escaped before
substitution; tokens are inserted verbatim). -/
def renderItem : Item → Str
  | Item.lit c => if c = '~' then ['~', '~'] else [c]
  | Item.tok t _ => t

/-- The body string of an item sequence. -/
def render (l : List Item) : Str := (l.map renderItem).join

/-- The original text an item sequence stands for. -/
def readback : List Item → Str
  | [] => []
  | Item.lit c :: r => c :: readback r
  | Item.tok _ w :: r => w ++ readback r

theorem render_cons (i : Item) (r : List Item) :
    render (i :: r) = renderItem i ++ render r := by
  simp [render]

/-- The item after a token starts with a non-word character (tokens start
with `~`; a following literal must be non-word because substitution only
happens at `\b` boundaries). -/
def headNonWord (wc : Char → Bool) : List Item → Prop
  | [] => True
  | Item.lit c :: _ => wc c = false
  | Item.tok _ _ :: _ => True

/-- Well-formedness of an item sequence with respect to a word-character
predicate `wc` and a token resolver `R`: every token has the encoder's
shape (tilde, optional tier sigil, a nonempty alphanumeric suffix that is
a single character or all digits), resolves to its word under `R`, and is
followed by a non-word character (or the end). -/
inductive WFItems (wc : Char → Bool) (R : Str → Str) : List Item → Prop where
  | nil : WFItems wc R []
  | lit (c : Char) {rest : List Item} :
      WFItems wc R rest → WFItems wc R (Item.lit c :: rest)
  | tok (sg suffix w : Str) {rest : List Item}
      (hsg : sg = [] ∨ sg = ['^'] ∨ sg = ['*'])
      (hne : suffix ≠ [])
      (hal : suffix.all isAlnumCh = true)
      (hshort : suffix.length = 1 ∨ suffix.all isDigitCh = true)
      (hres : R ('~' :: (sg ++ suffix)) = w)
      (hnext : headNonWord wc rest)
      (hwf : WFItems wc R rest) :
      WFItems wc R (Item.tok ('~' :: (sg ++ suffix)) w :: rest)

theorem takeWhile_append_all {p : Char → Bool} (a b : Str)
    (ha : ∀ x ∈ a, p x = true) (hb : ∀ d, b.head? = some d → p d = false) :
    (a ++ b).takeWhile p = a := by
  induction a with
  | nil =>
    simp only [List.nil_append]
    cases b with
    | nil => rfl
    | cons d r =>
      rw [List.takeWhile_cons, if_neg]
      rw [hb d rfl]
      simp
  | cons x a2 ih =>
    rw [List.cons_append, List.takeWhile_cons,
      if_pos (ha x (List.mem_cons_self x a2))]
    rw [ih (fun y hy => ha y (List.mem_cons_of_mem x hy))]

/-- If the items following a token are well formed and start non-word, the
rendered string is empty or starts with a non-alphanumeric character. -/
theorem render_head_not_alnum (wc : Char → Bool) (R : Str → Str)
    (haw : ∀ c, isAlnumCh c = true → wc c = true) :
    ∀ items, WFItems wc R items → headNonWord wc items →
      ∀ d, (render items).head? = some d → isAlnumCh d = false := by
  intro items hwf hnw d hd
  cases hwf with
  | nil => simp [render] at hd
  | lit c hrest =>
    rw [render_cons] at hd
    simp only [headNonWord] at hnw
    by_cases hc : c = '~'
    · subst hc
      rw [show renderItem (Item.lit '~') = ['~', '~'] from rfl,
        List.cons_append, List.head?_cons] at hd
      have hd2 : d = '~' := (Option.some.inj hd).symm
      subst hd2
      decide
    · rw [show renderItem (Item.lit c) = [c] by simp [renderItem, hc],
        List.cons_append, List.head?_cons] at hd
      have hd2 : d = c := (Option.some.inj hd).symm
      subst hd2
      by_contra hcon
      have := haw d (by simpa using hcon)
      rw [this] at hnw
      simp at hnw
  | tok sg suffix w hsg hne hal hshort hres hnext2 hrest =>
    rw [render_cons] at hd
    rw [show renderItem (Item.tok ('~' :: (sg ++ suffix)) w) = '~' :: (sg ++ suffix)
        from rfl, List.cons_append, List.head?_cons] at hd
    have hd2 : d = '~' := (Option.some.inj hd).symm
    subst hd2
    decide

/-- Decoding a well-formed rendered body recovers the readback, provided
the resolver turns the escape pair back into a tilde. -/
theorem decode_render (wc : Char → Bool) (R : Str → Str)
    (haw : ∀ c, isAlnumCh c = true → wc c = true)
    (hR : R ['~', '~'] = ['~']) :
    ∀ items, WFItems wc R items → decodeCore R (render items) = readback items := by
  intro items hwf
  induction hwf with
  | nil => rfl
  | lit c hrest ih =>
    rename_i rest
    rw [render_cons]
    by_cases hc : c = '~'
    · subst hc
      rw [show renderItem (Item.lit '~') = ['~', '~'] from rfl]
      show decodeCore R ('~' :: '~' :: render rest) = readback (Item.lit '~' :: rest)
      rw [decodeCore_cons]
      simp only [if_pos rfl, hR]
      rw [ih]
      rfl
    · rw [show renderItem (Item.lit c) = [c] by simp [renderItem, hc]]
      show decodeCore R (c :: render rest) = readback (Item.lit c :: rest)
      rw [decodeCore_cons, if_neg hc, ih]
      rfl
  | tok sg suffix w hsg hne hal hshort hres hnext hrest ih =>
    rename_i rest
    rw [render_cons]
    obtain ⟨a, suf2, rfl⟩ : ∃ a suf2, suffix = a :: suf2 := by
      cases suffix with
      | nil => exact absurd rfl hne
      | cons a suf2 => exact ⟨a, suf2, rfl⟩
    have hrunfact : ((a :: suf2) ++ render rest).takeWhile isAlnumCh = a :: suf2 := by
      refine takeWhile_append_all (a :: suf2) (render rest) ?_ ?_
      · intro x hx
        exact List.all_eq_true.mp hal x hx
      · intro d hd
        exact render_head_not_alnum wc R haw rest hrest hnext d hd
    have hdropfact : ((a :: suf2) ++ render rest).drop (a :: suf2).length = render rest :=
      List.drop_left (a :: suf2) (render rest)
    rw [List.cons_append] at hrunfact hdropfact
    have ha : isAlnumCh a = true := List.all_eq_true.mp hal a (List.mem_cons_self a suf2)
    have ha_t : a ≠ '~' := by intro hx; subst hx; revert ha; decide
    have ha_c : a ≠ '^' := by intro hx; subst hx; revert ha; decide
    have ha_s : a ≠ '*' := by intro hx; subst hx; revert ha; decide
    have hiemp : ¬ ((a :: suf2) : Str).isEmpty = true := by simp
    rcases hsg with rfl | rfl | rfl
    · rw [show renderItem (Item.tok ('~' :: ([] ++ (a :: suf2))) w) =
          '~' :: a :: suf2 from rfl]
      show decodeCore R ('~' :: a :: (suf2 ++ render rest)) =
        readback (Item.tok ('~' :: ([] ++ (a :: suf2))) w :: rest)
      rw [decodeCore_cons]
      show (if a = '~' then R ['~', '~'] ++ decodeCore R (suf2 ++ render rest)
          else if a = '^' ∨ a = '*' then
            (if ((suf2 ++ render rest).takeWhile isAlnumCh).isEmpty = true then
               '~' :: decodeCore R (a :: (suf2 ++ render rest))
             else R ('~' :: ([a] ++ (suf2 ++ render rest).takeWhile isAlnumCh)) ++
               decodeCore R ((suf2 ++ render rest).drop
                 ((suf2 ++ render rest).takeWhile isAlnumCh).length))
          else
            (if ((a :: (suf2 ++ render rest)).takeWhile isAlnumCh).isEmpty = true then
               '~' :: decodeCore R (a :: (suf2 ++ render rest))
             else R ('~' :: (a :: (suf2 ++ render rest)).takeWhile isAlnumCh) ++
               decodeCore R ((a :: (suf2 ++ render rest)).drop
                 ((a :: (suf2 ++ render rest)).takeWhile isAlnumCh).length))) =
        readback (Item.tok ('~' :: ([] ++ (a :: suf2))) w :: rest)
      rw [if_neg ha_t,
        if_neg (by push_neg; exact ⟨ha_c, ha_s⟩ : ¬(a = '^' ∨ a = '*'))]
      rw [show (a :: (suf2 ++ render rest)).takeWhile isAlnumCh = a :: suf2
          from hrunfact]
      rw [if_neg hiemp]
      rw [show (a :: (suf2 ++ render rest)).drop ((a :: suf2) : Str).length = render rest
          from hdropfact]
      rw [ih]
      simp only [List.nil_append] at hres
      rw [hres]
      rfl
    · rw [show renderItem (Item.tok ('~' :: (['^'] ++ (a :: suf2))) w) =
          '~' :: '^' :: a :: suf2 from rfl]
      show decodeCore R ('~' :: '^' :: (a :: (suf2 ++ render rest))) =
        readback (Item.tok ('~' :: (['^'] ++ (a :: suf2))) w :: rest)
      rw [decodeCore_cons]
      show (if ((a :: (suf2 ++ render rest)).takeWhile isAlnumCh).isEmpty = true then
            '~' :: decodeCore R ('^' :: a :: (suf2 ++ render rest))
          else R ('~' :: (['^'] ++ (a :: (suf2 ++ render rest)).takeWhile isAlnumCh)) ++
            decodeCore R ((a :: (suf2 ++ render rest)).drop
              ((a :: (suf2 ++ render rest)).takeWhile isAlnumCh).length)) =
        readback (Item.tok ('~' :: (['^'] ++ (a :: suf2))) w :: rest)
      rw [show (a :: (suf2 ++ render rest)).takeWhile isAlnumCh = a :: suf2
          from hrunfact]
      rw [if_neg hiemp]
      rw [show (a :: (suf2 ++ render rest)).drop ((a :: suf2) : Str).length = render rest
          from hdropfact]
      rw [ih, hres]
      rfl
    · rw [show renderItem (Item.tok ('~' :: (['*'] ++ (a :: suf2))) w) =
          '~' :: '*' :: a :: suf2 from rfl]
      show decodeCore R ('~' :: '*' :: (a :: (suf2 ++ render rest))) =
        readback (Item.tok ('~' :: (['*'] ++ (a :: suf2))) w :: rest)
      rw [decodeCore_cons]
      show (if ((a :: (suf2 ++ render rest)).takeWhile isAlnumCh).isEmpty = true then
            '~' :: decodeCore R ('*' :: a :: (suf2 ++ render rest))
          else R ('~' :: (['*'] ++ (a :: (suf2 ++ render rest)).takeWhile isAlnumCh)) ++
            decodeCore R ((a :: (suf2 ++ render rest)).drop
              ((a :: (suf2 ++ render rest)).takeWhile isAlnumCh).length)) =
        readback (Item.tok ('~' :: (['*'] ++ (a :: suf2))) w :: rest)
      rw [show (a :: (suf2 ++ render rest)).takeWhile isAlnumCh = a :: suf2
          from hrunfact]
      rw [if_neg hiemp]
      rw [show (a :: (suf2 ++ render rest)).drop ((a :: suf2) : Str).length = render rest
          from hdropfact]
      rw [ih, hres]
      rfl

/-! ## Item-level substitution and its agreement with the string scan -/

/-- `\b` after a replaced run, at the item level: end of items, a
non-word literal, or a token (whose rendering starts with the non-word
`~`). -/
def itemBoundary (wc : Char → Bool) : List Item → Bool
  | [] => true
  | Item.lit c :: _ => !wc c
  | Item.tok _ _ :: _ => true

/-- The word matches at the current item position: the boundary before
holds, the next `w.length` items are exactly the literals of `w`, and the
boundary after holds. -/
def itemsMatchB (wc : Char → Bool) (w : Str) (prev : Option Char) (items : List Item) : Bool :=
  boundaryLB wc prev && decide (items.take w.length = w.map Item.lit) &&
    itemBoundary wc (items.drop w.length)

/-- The last rendered character of an item (scan state after passing it). -/
def itemLastCh : Item → Option Char
  | Item.lit c => some c
  | Item.tok t _ => t.getLast?

/-- Item-level mirror of the substitution scan. -/
def replItemsAux (wc : Char → Bool) (w tok : Str) :
    Nat → Option Char → List Item → List Item
  | 0, _, items => items
  | fuel + 1, prev, items =>
    match items with
    | [] => []
    | i :: rest =>
      if w ≠ [] ∧ itemsMatchB wc w prev (i :: rest) = true then
        Item.tok tok w :: replItemsAux wc w tok fuel w.getLast? ((i :: rest).drop w.length)
      else i :: replItemsAux wc w tok fuel (itemLastCh i) rest

/-- The item-level substitution with its canonical fuel. -/
def replItemsCore (wc : Char → Bool) (w tok : Str) (prev : Option Char)
    (items : List Item) : List Item :=
  replItemsAux wc w tok items.length prev items

theorem replItemsAux_fuel (wc : Char → Bool) (w tok : Str) :
    ∀ f g (prev : Option Char) (items : List Item),
      items.length ≤ f → items.length ≤ g →
      replItemsAux wc w tok f prev items = replItemsAux wc w tok g prev items := by
  intro f
  induction f with
  | zero =>
    intro g prev items hf _
    have hs : items = [] := List.length_eq_zero.mp (Nat.le_zero.mp hf)
    subst hs
    cases g <;> rfl
  | succ f ih =>
    intro g prev items hf hg
    cases items with
    | nil => cases g <;> rfl
    | cons i rest =>
      cases g with
      | zero => simp at hg
      | succ g =>
        simp only [List.length_cons] at hf hg
        show (if w ≠ [] ∧ itemsMatchB wc w prev (i :: rest) = true then
            Item.tok tok w :: replItemsAux wc w tok f w.getLast? ((i :: rest).drop w.length)
          else i :: replItemsAux wc w tok f (itemLastCh i) rest) =
          (if w ≠ [] ∧ itemsMatchB wc w prev (i :: rest) = true then
            Item.tok tok w :: replItemsAux wc w tok g w.getLast? ((i :: rest).drop w.length)
          else i :: replItemsAux wc w tok g (itemLastCh i) rest)
        by_cases hm : w ≠ [] ∧ itemsMatchB wc w prev (i :: rest) = true
        · rw [if_pos hm, if_pos hm]
          have hw1 : 1 ≤ w.length := List.length_pos.mpr hm.1
          rw [ih g w.getLast? _ (by simp only [List.length_drop, List.length_cons]; omega)
            (by simp only [List.length_drop, List.length_cons]; omega)]
        · rw [if_neg hm, if_neg hm, ih g (itemLastCh i) rest (by omega) (by omega)]

theorem replItemsCore_cons (wc : Char → Bool) (w tok : Str) (prev : Option Char)
    (i : Item) (rest : List Item) :
    replItemsCore wc w tok prev (i :: rest) =
      if w ≠ [] ∧ itemsMatchB wc w prev (i :: rest) = true then
        Item.tok tok w :: replItemsCore wc w tok w.getLast? ((i :: rest).drop w.length)
      else i :: replItemsCore wc w tok (itemLastCh i) rest := by
  show (if w ≠ [] ∧ itemsMatchB wc w prev (i :: rest) = true then
      Item.tok tok w :: replItemsAux wc w tok rest.length w.getLast? ((i :: rest).drop w.length)
    else i :: replItemsAux wc w tok rest.length (itemLastCh i) rest) = _
  by_cases hm : w ≠ [] ∧ itemsMatchB wc w prev (i :: rest) = true
  · rw [if_pos hm, if_pos hm, replItemsCore]
    have hw1 : 1 ≤ w.length := List.length_pos.mpr hm.1
    rw [replItemsAux_fuel wc w tok rest.length ((i :: rest).drop w.length).length
      w.getLast? _ (by simp only [List.length_drop, List.length_cons]; omega) le_rfl]
  · rw [if_neg hm, if_neg hm, replItemsCore]

/-! ### Character-class facts -/

theorem digit_not_class (c : Char) (h : isDigitCh c = true) : isClassCh c = false := by
  simp only [isDigitCh, decide_eq_true_eq] at h
  obtain ⟨h1, h2⟩ := h
  have n1 : 48 ≤ c.toNat := h1
  have n2 : c.toNat ≤ 57 := h2
  simp only [isClassCh, Bool.or_eq_false_iff, decide_eq_false_iff_not]
  refine ⟨⟨fun hc => ?_, fun hc => ?_⟩, ?_⟩
  · have a1 : 65 ≤ c.toNat := hc.1
    omega
  · have a1 : 97 ≤ c.toNat := hc.1
    omega
  · intro hc
    have hn : c.toNat = 95 := by rw [hc]; rfl
    omega

theorem class_ne_tilde {c : Char} (h : isClassCh c = true) : c ≠ '~' := by
  intro hx
  subst hx
  simp [isClassCh] at h

theorem class_ne_caret {c : Char} (h : isClassCh c = true) : c ≠ '^' := by
  intro hx
  subst hx
  simp [isClassCh] at h

theorem class_ne_star {c : Char} (h : isClassCh c = true) : c ≠ '*' := by
  intro hx
  subst hx
  simp [isClassCh] at h

/-- A candidate word safe for substitution: at least two characters, all
in `[a-zA-Z_]`. -/
def SafeW (w : Str) : Prop := 2 ≤ w.length ∧ w.all isClassCh = true

/-- The hypotheses on the word-character predicate: it agrees with `\w` on
`[a-zA-Z_]` and `[0-9a-zA-Z]`, and rejects the marker and sigils (all true
of Python's unicode `\w`). -/
structure WCHyps (wc : Char → Bool) : Prop where
  hcw : ∀ c, isClassCh c = true → wc c = true
  haw : ∀ c, isAlnumCh c = true → wc c = true
  hwt : wc '~' = false
  hwc : wc '^' = false
  hws : wc '*' = false

theorem render_append (a b : List Item) : render (a ++ b) = render a ++ render b := by
  simp [render]

theorem render_map_lit (v : Str) (hv : v.all isClassCh = true) :
    render (v.map Item.lit) = v := by
  induction v with
  | nil => rfl
  | cons x v2 ih =>
    simp only [List.all_cons, Bool.and_eq_true] at hv
    rw [List.map_cons, render_cons,
      show renderItem (Item.lit x) = [x] by simp [renderItem, class_ne_tilde hv.1]]
    rw [ih hv.2]
    rfl

theorem isPrefixOf_cons_cons (x c : Char) (v s : Str) :
    ((x :: v).isPrefixOf (c :: s)) = ((x == c) && v.isPrefixOf s) := rfl

/-- A prefix of the rendering consisting of `[a-zA-Z_]` characters can
only come from literal items. -/
theorem prefix_render_lits (wc : Char → Bool) (R : Str → Str) :
    ∀ (v : Str) (items : List Item), WFItems wc R items →
      v.all isClassCh = true → v.isPrefixOf (render items) = true →
      items.take v.length = v.map Item.lit := by
  intro v
  induction v with
  | nil => intro items _ _ _; rfl
  | cons x v2 ih =>
    intro items hwf hv hpfx
    simp only [List.all_cons, Bool.and_eq_true] at hv
    cases hwf with
    | nil => simp [List.isPrefixOf] at hpfx
    | lit c hrest =>
      rename_i rest
      by_cases hc : c = '~'
      · subst hc
        rw [render_cons, show renderItem (Item.lit '~') = ['~', '~'] from rfl,
          List.cons_append, isPrefixOf_cons_cons] at hpfx
        simp only [Bool.and_eq_true, beq_iff_eq] at hpfx
        exact absurd hpfx.1 (class_ne_tilde hv.1)
      · rw [render_cons, show renderItem (Item.lit c) = [c] by simp [renderItem, hc],
          List.singleton_append, isPrefixOf_cons_cons] at hpfx
        simp only [Bool.and_eq_true, beq_iff_eq] at hpfx
        obtain ⟨rfl, hpfx2⟩ := hpfx
        rw [List.length_cons, List.take_succ_cons, List.map_cons]
        rw [ih rest hrest hv.2 hpfx2]
    | tok sg suffix w hsg hne hal hshort hres hnext hrest =>
      rename_i rest
      rw [render_cons, show renderItem (Item.tok ('~' :: (sg ++ suffix)) w) =
        '~' :: (sg ++ suffix) from rfl, List.cons_append, isPrefixOf_cons_cons] at hpfx
      simp only [Bool.and_eq_true, beq_iff_eq] at hpfx
      exact absurd hpfx.1 (class_ne_tilde hv.1)

theorem WFItems_drop (wc : Char → Bool) (R : Str → Str) :
    ∀ (items : List Item), WFItems wc R items → ∀ k, WFItems wc R (items.drop k) := by
  intro items hwf
  induction hwf with
  | nil => intro k; rw [List.drop_nil]; exact WFItems.nil
  | lit c hrest ih =>
    intro k
    cases k with
    | zero => exact WFItems.lit c hrest
    | succ k => exact ih k
  | tok sg suffix w hsg hne hal hshort hres hnext hrest ih =>
    intro k
    cases k with
    | zero => exact WFItems.tok sg suffix w hsg hne hal hshort hres hnext hrest
    | succ k => exact ih k

theorem render_of_take_lits (v : Str) (items : List Item)
    (hv : v.all isClassCh = true)
    (htake : items.take v.length = v.map Item.lit) :
    render items = v ++ render (items.drop v.length) := by
  conv_lhs => rw [← List.take_append_drop v.length items]
  rw [render_append, htake, render_map_lit v hv]

theorem boundaryRB_render (wc : Char → Bool) (R : Str → Str) (hwt : wc '~' = false)
    (items : List Item) (hwf : WFItems wc R items) :
    boundaryRB wc (render items) = itemBoundary wc items := by
  cases hwf with
  | nil => rfl
  | lit c hrest =>
    by_cases hc : c = '~'
    · subst hc
      rw [render_cons, show renderItem (Item.lit '~') = ['~', '~'] from rfl]
      show (!wc '~') = !wc '~'
      rfl
    · rw [render_cons, show renderItem (Item.lit c) = [c] by simp [renderItem, hc]]
      rfl
  | tok sg suffix w hsg hne hal hshort hres hnext hrest =>
    rw [render_cons, show renderItem (Item.tok ('~' :: (sg ++ suffix)) w) =
      '~' :: (sg ++ suffix) from rfl]
    show (!wc '~') = true
    rw [hwt]
    rfl

/-- The string-level `\b`-match on the rendered body coincides with the
item-level match. -/
theorem matchesAt_transfer (wc : Char → Bool) (R : Str → Str) (H : WCHyps wc)
    (w : Str) (hw : w.all isClassCh = true) (items : List Item)
    (hwf : WFItems wc R items) (prev : Option Char) :
    matchesAt wc w prev (render items) = itemsMatchB wc w prev items := by
  unfold matchesAt itemsMatchB
  by_cases htake : items.take w.length = w.map Item.lit
  · have hrend := render_of_take_lits w items hw htake
    rw [hrend]
    have hpfx : w.isPrefixOf (w ++ render (items.drop w.length)) = true := by
      rw [List.isPrefixOf_iff_prefix]
      exact List.prefix_append w _
    rw [hpfx, decide_eq_true htake, List.drop_left,
      boundaryRB_render wc R H.hwt _ (WFItems_drop wc R items hwf w.length)]
  · rw [decide_eq_false htake]
    have hpfx : w.isPrefixOf (render items) = false := by
      by_contra hcon
      exact htake (prefix_render_lits wc R w items hwf hw
        (Bool.not_eq_false _ ▸ Bool.eq_true_of_ne_false hcon))
    rw [hpfx]
    simp

theorem matchesAt_head_ne (wc : Char → Bool) (w0 : Char) (w1 : Str)
    (prev : Option Char) (c : Char) (s : Str) (hne : w0 ≠ c) :
    matchesAt wc (w0 :: w1) prev (c :: s) = false := by
  unfold matchesAt
  rw [isPrefixOf_cons_cons, beq_eq_false_iff_ne.mpr hne]
  simp

/-- The scan state after passing a string (its last character, or the
previous state if it is empty). -/
def prevAfter (prev : Option Char) (s : Str) : Option Char :=
  match s.getLast? with
  | none => prev
  | some a => some a

theorem prevAfter_cons (prev : Option Char) (a : Char) (s : Str) :
    prevAfter prev (a :: s) = prevAfter (some a) s := by
  cases s with
  | nil => rfl
  | cons b r =>
    unfold prevAfter
    rw [List.getLast?_cons_cons]
    cases hgl : (b :: r).getLast? with
    | none => exact absurd (List.getLast?_eq_none_iff.mp hgl) (by simp)
    | some x => rfl

/-- The scan passes over a digit run unchanged: a word of `[a-zA-Z_]`
characters can never start at a digit. -/
theorem replCore_skip_digits (wc : Char → Bool) (w0 : Char) (w1 tok : Str)
    (hw0 : isClassCh w0 = true) :
    ∀ (suffix ρ : Str) (prev : Option Char), suffix.all isDigitCh = true →
      replCore wc (w0 :: w1) tok prev (suffix ++ ρ) =
        suffix ++ replCore wc (w0 :: w1) tok (prevAfter prev suffix) ρ := by
  intro suffix
  induction suffix with
  | nil => intro ρ prev _; rfl
  | cons a s2 ih =>
    intro ρ prev hdig
    simp only [List.all_cons, Bool.and_eq_true] at hdig
    have hne : w0 ≠ a := by
      intro hx
      rw [hx, digit_not_class a hdig.1] at hw0
      exact Bool.false_ne_true hw0
    rw [List.cons_append, replCore_cons,
      if_neg (by rw [matchesAt_head_ne wc w0 w1 prev a _ hne]; simp)]
    rw [ih ρ (some a) hdig.2, prevAfter_cons prev a s2, List.cons_append]

theorem prevAfter_of_ne_nil (prev : Option Char) (s : Str) (hs : s ≠ []) :
    prevAfter prev s = s.getLast? := by
  unfold prevAfter
  cases hgl : s.getLast? with
  | none => exact absurd (List.getLast?_eq_none_iff.mp hgl) hs
  | some x => rfl

/-- The scan passes over a token suffix (single alphanumeric character or
digit run) unchanged, provided the text after it cannot continue a word. -/
theorem replCore_skip_suffix (wc : Char → Bool) (H : WCHyps wc)
    (w0 : Char) (w1 tok : Str) (hwall : (w0 :: w1).all isClassCh = true)
    (hw1 : w1 ≠ [])
    (suffix : Str) (hne : suffix ≠ [])
    (hshort : suffix.length = 1 ∨ suffix.all isDigitCh = true)
    (ρ : Str) (hρ : ∀ d, ρ.head? = some d → d = '~' ∨ wc d = false)
    (prev : Option Char) :
    replCore wc (w0 :: w1) tok prev (suffix ++ ρ) =
      suffix ++ replCore wc (w0 :: w1) tok (prevAfter prev suffix) ρ := by
  simp only [List.all_cons, Bool.and_eq_true] at hwall
  rcases hshort with hlen | hdig
  swap
  · exact replCore_skip_digits wc w0 w1 tok hwall.1 suffix ρ prev hdig
  · obtain ⟨a, rfl⟩ := List.length_eq_one.mp hlen
    have hpfx : (w0 :: w1).isPrefixOf (a :: ρ) = false := by
      rw [isPrefixOf_cons_cons]
      by_cases hw0a : (w0 == a) = true
      · rw [hw0a]
        obtain ⟨x, w2, rfl⟩ : ∃ x w2, w1 = x :: w2 := by
          cases w1 with
          | nil => exact absurd rfl hw1
          | cons x w2 => exact ⟨x, w2, rfl⟩
        have hxclass : isClassCh x = true := by
          simp only [List.all_cons, Bool.and_eq_true] at hwall
          exact hwall.2.1
        cases ρ with
        | nil => rfl
        | cons d ρ2 =>
          rw [isPrefixOf_cons_cons]
          have hxd : x ≠ d := by
            rcases hρ d rfl with rfl | hwd
            · exact class_ne_tilde hxclass
            · intro hx
              have hwx : wc x = true := H.hcw x hxclass
              rw [hx, hwd] at hwx
              exact Bool.false_ne_true hwx
          rw [beq_eq_false_iff_ne.mpr hxd]
          simp
      · rw [Bool.eq_false_iff.mpr hw0a]
        simp
    have hmf : matchesAt wc (w0 :: w1) prev (a :: ρ) = false := by
      unfold matchesAt
      rw [hpfx]
      simp
    rw [List.singleton_append, replCore_cons, if_neg (by rw [hmf]; simp)]
    rfl

/-- The scan passes over a well-formed token unchanged. -/
theorem replCore_skip_tok (wc : Char → Bool) (H : WCHyps wc)
    (w0 : Char) (w1 tok : Str) (hwall : (w0 :: w1).all isClassCh = true)
    (hw1 : w1 ≠ [])
    (sg suffix : Str)
    (hsg : sg = [] ∨ sg = ['^'] ∨ sg = ['*'])
    (hne : suffix ≠ [])
    (hshort : suffix.length = 1 ∨ suffix.all isDigitCh = true)
    (ρ : Str) (hρ : ∀ d, ρ.head? = some d → d = '~' ∨ wc d = false)
    (prev : Option Char) :
    replCore wc (w0 :: w1) tok prev (('~' :: (sg ++ suffix)) ++ ρ) =
      ('~' :: (sg ++ suffix)) ++
        replCore wc (w0 :: w1) tok (('~' :: (sg ++ suffix)).getLast?) ρ := by
  have hw0 : isClassCh w0 = true := by
    simp only [List.all_cons, Bool.and_eq_true] at hwall
    exact hwall.1
  have hstep1 : ∀ (s : Str),
      replCore wc (w0 :: w1) tok prev ('~' :: s) =
        '~' :: replCore wc (w0 :: w1) tok (some '~') s := by
    intro s
    rw [replCore_cons,
      if_neg (by rw [matchesAt_head_ne wc w0 w1 prev '~' s (class_ne_tilde hw0)]; simp)]
  have hlast : prevAfter prev ('~' :: (sg ++ suffix)) = ('~' :: (sg ++ suffix)).getLast? :=
    prevAfter_of_ne_nil prev _ (by simp)
  rcases hsg with rfl | rfl | rfl
  · rw [show ('~' :: ([] ++ suffix)) ++ ρ = '~' :: (suffix ++ ρ) by simp,
      hstep1 (suffix ++ ρ),
      replCore_skip_suffix wc H w0 w1 tok hwall hw1 suffix hne hshort ρ hρ (some '~')]
    rw [← hlast, prevAfter_cons prev '~' ([] ++ suffix)]
    simp
  · rw [show ('~' :: (['^'] ++ suffix)) ++ ρ = '~' :: ('^' :: (suffix ++ ρ)) by simp,
      hstep1 ('^' :: (suffix ++ ρ))]
    rw [replCore_cons, if_neg (by
      rw [matchesAt_head_ne wc w0 w1 (some '~') '^' (suffix ++ ρ) (class_ne_caret hw0)]
      simp)]
    rw [replCore_skip_suffix wc H w0 w1 tok hwall hw1 suffix hne hshort ρ hρ (some '^')]
    rw [← hlast, prevAfter_cons prev '~' (['^'] ++ suffix),
      show (['^'] ++ suffix : Str) = '^' :: suffix from rfl, prevAfter_cons (some '~') '^' suffix]
    simp
  · rw [show ('~' :: (['*'] ++ suffix)) ++ ρ = '~' :: ('*' :: (suffix ++ ρ)) by simp,
      hstep1 ('*' :: (suffix ++ ρ))]
    rw [replCore_cons, if_neg (by
      rw [matchesAt_head_ne wc w0 w1 (some '~') '*' (suffix ++ ρ) (class_ne_star hw0)]
      simp)]
    rw [replCore_skip_suffix wc H w0 w1 tok hwall hw1 suffix hne hshort ρ hρ (some '*')]
    rw [← hlast, prevAfter_cons prev '~' (['*'] ++ suffix),
      show (['*'] ++ suffix : Str) = '*' :: suffix from rfl, prevAfter_cons (some '~') '*' suffix]
    simp

theorem render_head_tilde_or_nonword (wc : Char → Bool) (R : Str → Str) :
    ∀ items, WFItems wc R items → headNonWord wc items →
      ∀ d, (render items).head? = some d → d = '~' ∨ wc d = false := by
  intro items hwf hnw d hd
  cases hwf with
  | nil => simp [render] at hd
  | lit c hrest =>
    simp only [headNonWord] at hnw
    by_cases hc : c = '~'
    · subst hc
      rw [render_cons, show renderItem (Item.lit '~') = ['~', '~'] from rfl,
        List.cons_append, List.head?_cons] at hd
      exact Or.inl (Option.some.inj hd).symm
    · rw [render_cons, show renderItem (Item.lit c) = [c] by simp [renderItem, hc],
        List.singleton_append, List.head?_cons] at hd
      have : d = c := (Option.some.inj hd).symm
      subst this
      exact Or.inr hnw
  | tok sg suffix w hsg hne hal hshort hres hnext hrest =>
    rw [render_cons, show renderItem (Item.tok ('~' :: (sg ++ suffix)) w) =
      '~' :: (sg ++ suffix) from rfl, List.cons_append, List.head?_cons] at hd
    exact Or.inl (Option.some.inj hd).symm

/-- The string-level substitution scan on a rendered well-formed body
agrees with the item-level substitution. -/
theorem replCore_render_commute (wc : Char → Bool) (R : Str → Str) (H : WCHyps wc)
    (w0 : Char) (w1 tok : Str) (hlen2 : 2 ≤ (w0 :: w1).length)
    (hwclass : (w0 :: w1).all isClassCh = true) :
    ∀ (n : Nat) (items : List Item) (prev : Option Char), items.length ≤ n →
      WFItems wc R items →
      replCore wc (w0 :: w1) tok prev (render items) =
        render (replItemsCore wc (w0 :: w1) tok prev items) := by
  have hw1ne : w1 ≠ [] := by
    intro hx
    subst hx
    simp at hlen2
  have hwne : (w0 :: w1) ≠ [] := by simp
  have hw0 : isClassCh w0 = true := by
    simp only [List.all_cons, Bool.and_eq_true] at hwclass
    exact hwclass.1
  intro n
  induction n with
  | zero =>
    intro items prev hlen _
    have hs : items = [] := List.length_eq_zero.mp (Nat.le_zero.mp hlen)
    subst hs
    rfl
  | succ n ih =>
    intro items prev hlen hwf
    cases items with
    | nil => rfl
    | cons i rest =>
      simp only [List.length_cons] at hlen
      have hmt := matchesAt_transfer wc R H (w0 :: w1) hwclass (i :: rest) hwf prev
      by_cases hm : itemsMatchB wc (w0 :: w1) prev (i :: rest) = true
      · have htake : (i :: rest).take (w0 :: w1).length = (w0 :: w1).map Item.lit := by
          unfold itemsMatchB at hm
          simp only [Bool.and_eq_true, decide_eq_true_eq] at hm
          exact hm.1.2
        have hrend : render (i :: rest) =
            (w0 :: w1) ++ render ((i :: rest).drop (w0 :: w1).length) :=
          render_of_take_lits _ _ hwclass htake
        have hdlen : ((i :: rest).drop (w0 :: w1).length).length ≤ n := by
          simp only [List.length_drop, List.length_cons]
          omega
        have hdwf : WFItems wc R ((i :: rest).drop (w0 :: w1).length) :=
          WFItems_drop wc R _ hwf _
        rw [hrend, List.cons_append, replCore_cons]
        rw [hrend, List.cons_append] at hmt
        rw [if_pos ⟨hwne, by rw [hmt]; exact hm⟩]
        have hdrop : (w0 :: (w1 ++ render ((i :: rest).drop (w0 :: w1).length))).drop
            (w0 :: w1).length = render ((i :: rest).drop (w0 :: w1).length) := by
          rw [List.length_cons, List.drop_succ_cons, List.drop_left]
        rw [hdrop, ih _ _ hdlen hdwf]
        rw [replItemsCore_cons, if_pos ⟨hwne, hm⟩, render_cons]
        rfl
      · have hmf : matchesAt wc (w0 :: w1) prev (render (i :: rest)) = false := by
          rw [hmt]
          exact Bool.eq_false_iff.mpr hm
        rw [replItemsCore_cons, if_neg (fun hcon => hm hcon.2), render_cons]
        cases hwf with
        | lit c hrest =>
          by_cases hc : c = '~'
          · subst hc
            rw [render_cons, show renderItem (Item.lit '~') = ['~', '~'] from rfl,
              List.cons_append]
            rw [replCore_cons, if_neg (by
              rw [matchesAt_head_ne wc w0 w1 prev '~' _ (class_ne_tilde hw0)]
              simp)]
            rw [show ((['~'] : Str) ++ render rest) = '~' :: render rest from rfl]
            rw [replCore_cons, if_neg (by
              rw [matchesAt_head_ne wc w0 w1 (some '~') '~' _ (class_ne_tilde hw0)]
              simp)]
            rw [ih rest (some '~') (by omega) hrest]
            rfl
          · rw [render_cons, show renderItem (Item.lit c) = [c] by simp [renderItem, hc],
              List.singleton_append] at hmf ⊢
            rw [replCore_cons, if_neg (fun hcon => by
              rw [hmf] at hcon
              exact Bool.false_ne_true hcon.2)]
            rw [ih rest (some c) (by omega) hrest]
            rfl
        | tok sg suffix w' hsg hne hal hshort hres hnext hrest =>
          rw [render_cons, show renderItem (Item.tok ('~' :: (sg ++ suffix)) w') =
            '~' :: (sg ++ suffix) from rfl]
          rw [replCore_skip_tok wc H w0 w1 tok hwclass hw1ne sg suffix hsg hne hshort
            (render rest)
            (render_head_tilde_or_nonword wc R rest hrest hnext) prev]
          rw [ih rest _ (by omega) hrest]
          rfl

theorem itemBoundary_headNonWord {wc : Char → Bool} :
    ∀ {l : List Item}, itemBoundary wc l = true → headNonWord wc l := by
  intro l h
  cases l with
  | nil => exact trivial
  | cons i rest =>
    cases i with
    | lit c =>
      simp only [itemBoundary] at h
      simp only [headNonWord]
      simp only [Bool.not_eq_true'] at h
      exact h
    | tok t v => exact trivial

theorem headNonWord_replItemsCore (wc : Char → Bool) (w tok : Str)
    (prev : Option Char) (l : List Item) (h : headNonWord wc l) :
    headNonWord wc (replItemsCore wc w tok prev l) := by
  cases l with
  | nil => exact trivial
  | cons i rest =>
    rw [replItemsCore_cons]
    by_cases hm : w ≠ [] ∧ itemsMatchB wc w prev (i :: rest) = true
    · rw [if_pos hm]
      exact trivial
    · rw [if_neg hm]
      cases i with
      | lit c => exact h
      | tok t v => exact trivial

/-- Substitution preserves well-formedness when the inserted token has the
encoder's shape and resolves to the word. -/
theorem replItemsCore_WF (wc : Char → Bool) (R : Str → Str)
    (w sg suffix : Str)
    (hsg : sg = [] ∨ sg = ['^'] ∨ sg = ['*'])
    (hne : suffix ≠ [])
    (hal : suffix.all isAlnumCh = true)
    (hshort : suffix.length = 1 ∨ suffix.all isDigitCh = true)
    (hres : R ('~' :: (sg ++ suffix)) = w) :
    ∀ (n : Nat) (items : List Item) (prev : Option Char), items.length ≤ n →
      WFItems wc R items →
      WFItems wc R (replItemsCore wc w ('~' :: (sg ++ suffix)) prev items) := by
  intro n
  induction n with
  | zero =>
    intro items prev hlen _
    have hs : items = [] := List.length_eq_zero.mp (Nat.le_zero.mp hlen)
    subst hs
    exact WFItems.nil
  | succ n ih =>
    intro items prev hlen hwf
    cases items with
    | nil => exact WFItems.nil
    | cons i rest =>
      simp only [List.length_cons] at hlen
      rw [replItemsCore_cons]
      by_cases hm : w ≠ [] ∧ itemsMatchB wc w prev (i :: rest) = true
      · rw [if_pos hm]
        have hw1 : 1 ≤ w.length := List.length_pos.mpr hm.1
        have hib : itemBoundary wc ((i :: rest).drop w.length) = true := by
          have h2 := hm.2
          unfold itemsMatchB at h2
          simp only [Bool.and_eq_true] at h2
          exact h2.2
        have hdlen : ((i :: rest).drop w.length).length ≤ n := by
          simp only [List.length_drop, List.length_cons]
          omega
        exact WFItems.tok sg suffix w hsg hne hal hshort hres
          (headNonWord_replItemsCore wc w _ _ _ (itemBoundary_headNonWord hib))
          (ih _ _ hdlen (WFItems_drop wc R _ hwf _))
      · rw [if_neg hm]
        cases hwf with
        | lit c hrest => exact WFItems.lit c (ih rest _ (by omega) hrest)
        | tok sg2 suffix2 w2 hsg2 hne2 hal2 hshort2 hres2 hnext2 hrest =>
          exact WFItems.tok sg2 suffix2 w2 hsg2 hne2 hal2 hshort2 hres2
            (headNonWord_replItemsCore wc w _ _ _ hnext2)
            (ih rest _ (by omega) hrest)

theorem readback_append (a b : List Item) :
    readback (a ++ b) = readback a ++ readback b := by
  induction a with
  | nil => rfl
  | cons i r ih =>
    cases i with
    | lit c =>
      show c :: readback (r ++ b) = (c :: readback r) ++ readback b
      rw [ih]
      rfl
    | tok t v =>
      show v ++ readback (r ++ b) = (v ++ readback r) ++ readback b
      rw [ih, List.append_assoc]

theorem readback_map_lit (v : Str) : readback (v.map Item.lit) = v := by
  induction v with
  | nil => rfl
  | cons x r ih =>
    show x :: readback (r.map Item.lit) = x :: r
    rw [ih]

/-- Substitution does not change the readback: replaced literal runs are
remembered by the inserted token. -/
theorem replItemsCore_readback (wc : Char → Bool) (w tok : Str) :
    ∀ (n : Nat) (items : List Item) (prev : Option Char), items.length ≤ n →
      readback (replItemsCore wc w tok prev items) = readback items := by
  intro n
  induction n with
  | zero =>
    intro items prev hlen
    have hs : items = [] := List.length_eq_zero.mp (Nat.le_zero.mp hlen)
    subst hs
    rfl
  | succ n ih =>
    intro items prev hlen
    cases items with
    | nil => rfl
    | cons i rest =>
      simp only [List.length_cons] at hlen
      rw [replItemsCore_cons]
      by_cases hm : w ≠ [] ∧ itemsMatchB wc w prev (i :: rest) = true
      · rw [if_pos hm]
        have hw1 : 1 ≤ w.length := List.length_pos.mpr hm.1
        have htake : (i :: rest).take w.length = w.map Item.lit := by
          have h2 := hm.2
          unfold itemsMatchB at h2
          simp only [Bool.and_eq_true, decide_eq_true_eq] at h2
          exact h2.1.2
        have hdlen : ((i :: rest).drop w.length).length ≤ n := by
          simp only [List.length_drop, List.length_cons]
          omega
        show w ++ readback (replItemsCore wc w tok w.getLast? ((i :: rest).drop w.length)) =
          readback (i :: rest)
        rw [ih _ _ hdlen]
        conv_rhs => rw [← List.take_append_drop w.length (i :: rest)]
        rw [readback_append, htake, readback_map_lit]
      · rw [if_neg hm]
        cases i with
        | lit c =>
          show c :: readback (replItemsCore wc w tok (some c) rest) = c :: readback rest
          rw [ih rest _ (by omega)]
        | tok t v =>
          show v ++ readback (replItemsCore wc w tok (t.getLast?) rest) = v ++ readback rest
          rw [ih rest _ (by omega)]

/-! ## From the substitution loop to a decodable body -/

theorem indexOf_spec (gd : List Str) (w : Str) (h : w ∈ gd) :
    gd.indexOf w < gd.length ∧ gd.getD (gd.indexOf w) [] = w := by
  induction gd with
  | nil => simp at h
  | cons b l ih =>
    rw [List.indexOf_cons]
    by_cases hb : b = w
    · rw [show (b == w) = true from beq_iff_eq.mpr hb]
      simp only [cond_true]
      subst hb
      exact ⟨by simp, rfl⟩
    · rw [show (b == w) = false from beq_eq_false_iff_ne.mpr hb]
      simp only [cond_false]
      have hmem : w ∈ l := by
        rcases List.mem_cons.mp h with h1 | h1
        · exact absurd h1.symm hb
        · exact h1
      obtain ⟨ih1, ih2⟩ := ih hmem
      constructor
      · simp only [List.length_cons]
        omega
      · rw [List.getD_cons_succ]
        exact ih2

theorem render_lit_escape : ∀ t : Str, render (t.map Item.lit) = escapeTildes t := by
  intro t
  induction t with
  | nil => rfl
  | cons c r ih =>
    rw [List.map_cons, render_cons, escapeTildes]
    by_cases hc : c = '~'
    · subst hc
      rw [if_pos rfl, show renderItem (Item.lit '~') = ['~', '~'] from rfl, ← ih]
      rfl
    · rw [if_neg hc, show renderItem (Item.lit c) = [c] by simp [renderItem, hc], ← ih]
      rfl

theorem WFItems_lits (wc : Char → Bool) (R : Str → Str) :
    ∀ t : Str, WFItems wc R (t.map Item.lit) := by
  intro t
  induction t with
  | nil => exact WFItems.nil
  | cons c r ih => exact WFItems.lit c ih

/-! ### Properties of the encoder's index suffix -/

theorem chars_all_alnum : chars.all isAlnumCh = true := by decide

theorem chars_nodup : chars.Nodup := by decide

theorem digit_isAlnum (c : Char) (h : isDigitCh c = true) : isAlnumCh c = true := by
  rw [isAlnumCh, h]
  rfl

theorem encIdx_ne_nil (i : Nat) : encIdx i ≠ [] := by
  unfold encIdx
  by_cases h : i < chars.length
  · rw [dif_pos h]
    simp
  · rw [dif_neg h]
    exact toDec_ne_nil i

theorem encIdx_all_alnum (i : Nat) : (encIdx i).all isAlnumCh = true := by
  unfold encIdx
  by_cases h : i < chars.length
  · rw [dif_pos h]
    simp only [List.all_cons, List.all_nil, Bool.and_true]
    exact List.all_eq_true.mp chars_all_alnum _ (chars.get_mem i h)
  · rw [dif_neg h]
    rw [List.all_eq_true]
    intro x hx
    exact digit_isAlnum x (List.all_eq_true.mp (toDec_all_digits i) x hx)

theorem encIdx_shape (i : Nat) :
    (encIdx i).length = 1 ∨ (encIdx i).all isDigitCh = true := by
  unfold encIdx
  by_cases h : i < chars.length
  · rw [dif_pos h]
    exact Or.inl rfl
  · rw [dif_neg h]
    exact Or.inr (toDec_all_digits i)

theorem encIdx_head_alnum (i : Nat) (d : Char) (r : Str) (h : encIdx i = d :: r) :
    isAlnumCh d = true := by
  have := encIdx_all_alnum i
  rw [h] at this
  simp only [List.all_cons, Bool.and_eq_true] at this
  exact this.1

theorem toDec_len2 (n : Nat) (h : 10 ≤ n) : 2 ≤ (toDec n).length := by
  have hne : toDecAux n (n / 10) ≠ [] := by
    have h10 : n / 10 < n := Nat.div_lt_self (by omega) (by omega)
    exact (toDecAux_correct n (n / 10) h10).2.2
  rw [toDec, toDecAux, if_neg (by omega)]
  rw [List.length_append]
  have : 1 ≤ (toDecAux n (n / 10)).length := by
    cases hx : toDecAux n (n / 10) with
    | nil => exact absurd hx hne
    | cons a b => simp
  simp only [List.length_cons, List.length_nil]
  omega

theorem encIdx_inj : ∀ i j, encIdx i = encIdx j → i = j := by
  intro i j h
  unfold encIdx at h
  by_cases hi : i < chars.length <;> by_cases hj : j < chars.length
  · rw [dif_pos hi, dif_pos hj] at h
    have hget : chars.get ⟨i, hi⟩ = chars.get ⟨j, hj⟩ := (List.cons.inj h).1
    have hfin := chars_nodup.get_inj_iff.mp hget
    exact congrArg Fin.val hfin
  · rw [dif_pos hi, dif_neg hj] at h
    have hlen := congrArg List.length h
    have h2 : 2 ≤ (toDec j).length := toDec_len2 j (by rw [chars_length] at hj; omega)
    simp only [List.length_cons, List.length_nil] at hlen
    omega
  · rw [dif_neg hi, dif_pos hj] at h
    have hlen := congrArg List.length h
    have h2 : 2 ≤ (toDec i).length := toDec_len2 i (by rw [chars_length] at hi; omega)
    simp only [List.length_cons, List.length_nil] at hlen
    omega
  · rw [dif_neg hi, dif_neg hj] at h
    have := congrArg parseDec h
    rw [parseDec_toDec, parseDec_toDec] at this
    exact this

/-! ### The reverse mapping built by the loop -/

/-- The mapping accumulated by `compress` is canonical: the entry at
position `j` has key `~` + encoded `j` (local indices are assigned in
insertion order, line 196). -/
def canonicalRM (rm : List (Str × Str)) : Prop :=
  ∀ j (h : j < rm.length), (rm.get ⟨j, h⟩).1 = '~' :: encIdx j

/-- The reverse mapping after processing a word list (the `.2` thread of
the loop). -/
def assignAll (gd td : List Str) : List (Str × Str) → List Str → List (Str × Str)
  | rm, [] => rm
  | rm, w :: ws => assignAll gd td (chooseToken gd td rm w).2 ws

theorem procWords_snd (wc : Char → Bool) (gd td : List Str) :
    ∀ (ws : List Str) (body : Str) (rm : List (Str × Str)),
      (procWords wc gd td ws body rm).2 = assignAll gd td rm ws := by
  intro ws
  induction ws with
  | nil => intro body rm; rfl
  | cons w ws2 ih => intro body rm; exact ih _ _

theorem chooseToken_snd (gd td : List Str) (rm : List (Str × Str)) (w : Str) :
    (chooseToken gd td rm w).2 = rm ∨
      (chooseToken gd td rm w).2 = rm ++ [('~' :: encIdx rm.length, w)] := by
  unfold chooseToken
  by_cases hg : w ∈ gd
  · rw [if_pos hg]
    exact Or.inl rfl
  · rw [if_neg hg]
    by_cases ht : w ∈ td
    · rw [if_pos ht]
      exact Or.inl rfl
    · rw [if_neg ht]
      exact Or.inr rfl

theorem assignAll_extend (gd td : List Str) :
    ∀ (ws : List Str) (rm : List (Str × Str)), ∃ t, assignAll gd td rm ws = rm ++ t := by
  intro ws
  induction ws with
  | nil => intro rm; exact ⟨[], by simp [assignAll]⟩
  | cons w ws2 ih =>
    intro rm
    show ∃ t, assignAll gd td (chooseToken gd td rm w).2 ws2 = rm ++ t
    obtain ⟨t2, ht2⟩ := ih (chooseToken gd td rm w).2
    rcases chooseToken_snd gd td rm w with hs | hs
    · exact ⟨t2, by rw [ht2, hs]⟩
    · exact ⟨[('~' :: encIdx rm.length, w)] ++ t2, by rw [ht2, hs, List.append_assoc]⟩

theorem canonicalRM_chooseToken (gd td : List Str) (rm : List (Str × Str)) (w : Str)
    (hc : canonicalRM rm) : canonicalRM (chooseToken gd td rm w).2 := by
  rcases chooseToken_snd gd td rm w with hs | hs
  · rw [hs]; exact hc
  · rw [hs]
    intro j h
    rw [List.length_append, List.length_cons, List.length_nil] at h
    by_cases hj : j < rm.length
    · rw [List.get_eq_getElem, List.getElem_append_left hj]
      exact hc j hj
    · have hj2 : j = rm.length := by omega
      subst hj2
      rw [List.get_eq_getElem, List.getElem_concat_length]
      rfl

theorem canonicalRM_assignAll (gd td : List Str) :
    ∀ (ws : List Str) (rm : List (Str × Str)), canonicalRM rm →
      canonicalRM (assignAll gd td rm ws) := by
  intro ws
  induction ws with
  | nil => intro rm hc; exact hc
  | cons w ws2 ih =>
    intro rm hc
    exact ih _ (canonicalRM_chooseToken gd td rm w hc)

theorem lookup_unique : ∀ (l : List (Str × Str)) (k v : Str), (k, v) ∈ l →
    (∀ p ∈ l, p.1 = k → p = (k, v)) → List.lookup k l = some v := by
  intro l
  induction l with
  | nil => intro k v hm _; simp at hm
  | cons p t ih =>
    intro k v hm huniq
    obtain ⟨a, b⟩ := p
    rw [List.lookup_cons]
    by_cases hk : a = k
    · rw [show (k == a) = true from beq_iff_eq.mpr hk.symm]
      have := huniq (a, b) (List.mem_cons_self _ _) hk
      rw [Prod.mk.injEq] at this
      rw [this.2]
    · rw [show (k == a) = false from beq_eq_false_iff_ne.mpr (fun hx => hk hx.symm)]
      rcases List.mem_cons.mp hm with h1 | h1
      · rw [Prod.mk.injEq] at h1
        exact absurd h1.1.symm hk
      · exact ih k v h1 (fun p hp => huniq p (List.mem_cons_of_mem _ hp))

theorem lookup_none : ∀ (l : List (Str × Str)) (k : Str),
    (∀ p ∈ l, p.1 ≠ k) → List.lookup k l = none := by
  intro l
  induction l with
  | nil => intro k _; rfl
  | cons p t ih =>
    intro k hk
    obtain ⟨a, b⟩ := p
    rw [List.lookup_cons]
    have ha : a ≠ k := hk (a, b) (List.mem_cons_self _ _)
    rw [show (k == a) = false from beq_eq_false_iff_ne.mpr (fun hx => ha hx.symm)]
    exact ih k (fun p hp => hk p (List.mem_cons_of_mem _ hp))

theorem dictGet_canonical_at (rm : List (Str × Str)) (hc : canonicalRM rm)
    (j : Nat) (h : j < rm.length) :
    dictGet rm ('~' :: encIdx j) = some (rm.get ⟨j, h⟩).2 := by
  unfold dictGet
  apply lookup_unique
  · rw [List.mem_reverse]
    have hkey := hc j h
    have hmem := rm.get_mem j h
    rwa [show rm.get ⟨j, h⟩ = (('~' :: encIdx j), (rm.get ⟨j, h⟩).2) from by
      rw [← hkey]] at hmem
  · intro p hp hpk
    rw [List.mem_reverse] at hp
    obtain ⟨⟨j2, hj2⟩, hget⟩ := List.mem_iff_get.mp hp
    have hkey2 := hc j2 hj2
    rw [hget] at hkey2
    rw [hpk] at hkey2
    have : j = j2 := encIdx_inj j j2 (List.cons.inj hkey2).2
    subst this
    rw [← hget, Prod.mk.injEq]
    exact ⟨by rw [← hpk, hget], rfl⟩

theorem sigil_not_alnum : isAlnumCh '^' = false ∧ isAlnumCh '*' = false ∧
    isAlnumCh '~' = false := by decide

theorem dictGet_canonical_sigil (rm : List (Str × Str)) (hc : canonicalRM rm)
    (s : Char) (hs : isAlnumCh s = false) (x : Str) :
    dictGet rm ('~' :: s :: x) = none := by
  unfold dictGet
  apply lookup_none
  intro p hp hpk
  rw [List.mem_reverse] at hp
  obtain ⟨⟨j2, hj2⟩, hget⟩ := List.mem_iff_get.mp hp
  have hkey2 := hc j2 hj2
  rw [hget] at hkey2
  rw [hpk] at hkey2
  have henc : encIdx j2 = s :: x := (List.cons.inj hkey2.symm).2
  have := encIdx_head_alnum j2 s x henc
  rw [hs] at this
  exact Bool.false_ne_true this

theorem encIdx_cons (i : Nat) : ∃ d r, encIdx i = d :: r ∧ isAlnumCh d = true := by
  cases hx : encIdx i with
  | nil => exact absurd hx (encIdx_ne_nil i)
  | cons d r => exact ⟨d, r, rfl, encIdx_head_alnum i d r hx⟩

/-- A local token emitted by the encoder resolves through the final local
mapping to its word. -/
theorem resolveToken_localTok (mF : List (Str × Str)) (gd td : List Str)
    (hcan : canonicalRM mF) (j : Nat) (h : j < mF.length) (w : Str)
    (hval : (mF.get ⟨j, h⟩).2 = w) :
    resolveToken mF gd td ('~' :: encIdx j) = w := by
  obtain ⟨d, r, hdr, hd⟩ := encIdx_cons j
  unfold resolveToken
  rw [if_neg (by
    rw [hdr]
    intro hcon
    have h1 := (List.cons.inj hcon).2
    have h2 := (List.cons.inj h1).1
    rw [h2] at hd
    exact Bool.false_ne_true ((sigil_not_alnum.2.2) ▸ hd))]
  rw [dictGet_canonical_at mF hcan j h, hval]

/-- A global token emitted by the encoder resolves to its word. -/
theorem resolveToken_globalTok (mF : List (Str × Str)) (gd td : List Str)
    (hcan : canonicalRM mF) (w : Str) (hmem : w ∈ gd) :
    resolveToken mF gd td ('~' :: '^' :: encIdx (gd.indexOf w)) = w := by
  unfold resolveToken
  rw [if_neg (by
    intro hcon
    have h1 := (List.cons.inj hcon).2
    have h2 := (List.cons.inj h1).1
    exact absurd h2 (by decide))]
  rw [show ('~' :: '^' :: encIdx (gd.indexOf w) : Str) = '~' :: ('^' :: encIdx (gd.indexOf w))
    from rfl]
  rw [dictGet_canonical_sigil mF hcan '^' sigil_not_alnum.1 _]
  have htake : ('~' :: ('^' :: encIdx (gd.indexOf w)) : Str).take 2 = ['~', '^'] := rfl
  rw [if_pos htake]
  have hdrop : ('~' :: ('^' :: encIdx (gd.indexOf w)) : Str).drop 2 = encIdx (gd.indexOf w) := rfl
  rw [hdrop]
  unfold tierLookup
  rw [decIdxStr_encIdx]
  obtain ⟨hlt, hval⟩ := indexOf_spec gd w hmem
  rw [List.getD_eq_getElem _ _ hlt] at hval
  simp [hlt, hval]

/-- A type token emitted by the encoder resolves to its word. -/
theorem resolveToken_typeTok (mF : List (Str × Str)) (gd td : List Str)
    (hcan : canonicalRM mF) (w : Str) (hmem : w ∈ td) :
    resolveToken mF gd td ('~' :: '*' :: encIdx (td.indexOf w)) = w := by
  unfold resolveToken
  rw [if_neg (by
    intro hcon
    have h1 := (List.cons.inj hcon).2
    have h2 := (List.cons.inj h1).1
    exact absurd h2 (by decide))]
  rw [show ('~' :: '*' :: encIdx (td.indexOf w) : Str) = '~' :: ('*' :: encIdx (td.indexOf w))
    from rfl]
  rw [dictGet_canonical_sigil mF hcan '*' sigil_not_alnum.2.1 _]
  have htake : ('~' :: ('*' :: encIdx (td.indexOf w)) : Str).take 2 = ['~', '*'] := rfl
  rw [if_neg (by rw [htake]; decide), if_pos htake]
  have hdrop : ('~' :: ('*' :: encIdx (td.indexOf w)) : Str).drop 2 = encIdx (td.indexOf w) := rfl
  rw [hdrop]
  unfold tierLookup
  rw [decIdxStr_encIdx]
  obtain ⟨hlt, hval⟩ := indexOf_spec td w hmem
  rw [List.getD_eq_getElem _ _ hlt] at hval
  simp [hlt, hval]


/-- The word loop of `compress`, run from a rendered well-formed item
state, produces a rendered well-formed item state with the same readback,
where well-formedness is with respect to the decoder's resolver over the
final reverse mapping. -/
theorem procWords_spec (wc : Char → Bool) (H : WCHyps wc) (gd td : List Str) :
    ∀ (ws : List Str) (rm : List (Str × Str)) (items : List Item),
      (∀ w ∈ ws, SafeW w) →
      canonicalRM rm →
      WFItems wc (resolveToken (assignAll gd td rm ws) gd td) items →
      ∃ items2,
        (procWords wc gd td ws (render items) rm).1 = render items2 ∧
        WFItems wc (resolveToken (assignAll gd td rm ws) gd td) items2 ∧
        readback items2 = readback items := by
  intro ws
  induction ws with
  | nil =>
    intro rm items _ _ hwf
    exact ⟨items, rfl, hwf, rfl⟩
  | cons w ws2 ih =>
    intro rm items hsafe hcan hwf
    have hsw : SafeW w := hsafe w (List.mem_cons_self _ _)
    obtain ⟨hlen2, hwcls⟩ := hsw
    obtain ⟨w0, w1, rfl⟩ : ∃ w0 w1, w = w0 :: w1 := by
      cases w with
      | nil => simp at hlen2
      | cons a b => exact ⟨a, b, rfl⟩
    have hcan2 : canonicalRM (chooseToken gd td rm (w0 :: w1)).2 :=
      canonicalRM_chooseToken gd td rm _ hcan
    have hcanF : canonicalRM (assignAll gd td (chooseToken gd td rm (w0 :: w1)).2 ws2) :=
      canonicalRM_assignAll gd td ws2 _ hcan2
    have hwfF : WFItems wc
        (resolveToken (assignAll gd td (chooseToken gd td rm (w0 :: w1)).2 ws2) gd td)
        items := hwf
    have htokdec : ∃ sg suffix, (sg = [] ∨ sg = ['^'] ∨ sg = ['*']) ∧ suffix ≠ [] ∧
        suffix.all isAlnumCh = true ∧ (suffix.length = 1 ∨ suffix.all isDigitCh = true) ∧
        (chooseToken gd td rm (w0 :: w1)).1 = '~' :: (sg ++ suffix) ∧
        resolveToken (assignAll gd td (chooseToken gd td rm (w0 :: w1)).2 ws2) gd td
          ('~' :: (sg ++ suffix)) = (w0 :: w1) := by
      by_cases hg : (w0 :: w1) ∈ gd
      · refine ⟨['^'], encIdx (gd.indexOf (w0 :: w1)), Or.inr (Or.inl rfl),
          encIdx_ne_nil _, encIdx_all_alnum _, encIdx_shape _, ?_, ?_⟩
        · show (chooseToken gd td rm (w0 :: w1)).1 = _
          unfold chooseToken
          rw [if_pos hg]
          rfl
        · exact resolveToken_globalTok _ gd td hcanF _ hg
      · by_cases ht : (w0 :: w1) ∈ td
        · refine ⟨['*'], encIdx (td.indexOf (w0 :: w1)), Or.inr (Or.inr rfl),
            encIdx_ne_nil _, encIdx_all_alnum _, encIdx_shape _, ?_, ?_⟩
          · show (chooseToken gd td rm (w0 :: w1)).1 = _
            unfold chooseToken
            rw [if_neg hg, if_pos ht]
            rfl
          · exact resolveToken_typeTok _ gd td hcanF _ ht
        · refine ⟨[], encIdx rm.length, Or.inl rfl,
            encIdx_ne_nil _, encIdx_all_alnum _, encIdx_shape _, ?_, ?_⟩
          · show (chooseToken gd td rm (w0 :: w1)).1 = _
            unfold chooseToken
            rw [if_neg hg, if_neg ht]
            rfl
          · have hrm2 : (chooseToken gd td rm (w0 :: w1)).2 =
                rm ++ [('~' :: encIdx rm.length, w0 :: w1)] := by
              unfold chooseToken
              rw [if_neg hg, if_neg ht]
              rfl
            obtain ⟨t, hext⟩ := assignAll_extend gd td ws2 (chooseToken gd td rm (w0 :: w1)).2
            have hlenF : rm.length <
                (assignAll gd td (chooseToken gd td rm (w0 :: w1)).2 ws2).length := by
              rw [hext, hrm2]
              simp only [List.length_append, List.length_cons, List.length_nil]
              omega
            have hentry : (assignAll gd td (chooseToken gd td rm (w0 :: w1)).2 ws2).get
                ⟨rm.length, hlenF⟩ = ('~' :: encIdx rm.length, w0 :: w1) := by
              rw [List.get_eq_getElem]
              have h1 : rm.length < (chooseToken gd td rm (w0 :: w1)).2.length := by
                rw [hrm2]
                simp only [List.length_append, List.length_cons, List.length_nil]
                omega
              simp only [hext]
              refine (List.getElem_append_left h1).trans ?_
              simp only [hrm2]
              exact List.getElem_concat_length _ _ _ rfl _
            have := resolveToken_localTok
              (assignAll gd td (chooseToken gd td rm (w0 :: w1)).2 ws2) gd td hcanF
              rm.length hlenF (w0 :: w1) (by rw [hentry])
            rw [show ('~' :: ([] ++ encIdx rm.length) : Str) = '~' :: encIdx rm.length
              from rfl]
            exact this
    obtain ⟨sg, suffix, hsg, hne, hal, hshort, htokeq, hres⟩ := htokdec
    have hcomm : replaceWord wc (w0 :: w1) (chooseToken gd td rm (w0 :: w1)).1
        (render items) =
        render (replItemsCore wc (w0 :: w1) (chooseToken gd td rm (w0 :: w1)).1 none items) := by
      unfold replaceWord
      exact replCore_render_commute wc
        (resolveToken (assignAll gd td (chooseToken gd td rm (w0 :: w1)).2 ws2) gd td)
        H w0 w1 _ hlen2 hwcls items.length items none le_rfl hwfF
    have hwf2 : WFItems wc
        (resolveToken (assignAll gd td (chooseToken gd td rm (w0 :: w1)).2 ws2) gd td)
        (replItemsCore wc (w0 :: w1) (chooseToken gd td rm (w0 :: w1)).1 none items) := by
      have hpres := replItemsCore_WF wc
        (resolveToken (assignAll gd td (chooseToken gd td rm (w0 :: w1)).2 ws2) gd td)
        (w0 :: w1) sg suffix hsg hne hal hshort hres items.length items none le_rfl hwfF
      rwa [← htokeq] at hpres
    obtain ⟨items2, h1, h2, h3⟩ := ih (chooseToken gd td rm (w0 :: w1)).2
      (replItemsCore wc (w0 :: w1) (chooseToken gd td rm (w0 :: w1)).1 none items)
      (fun x hx => hsafe x (List.mem_cons_of_mem _ hx)) hcan2 hwf2
    refine ⟨items2, ?_, h2, ?_⟩
    · show (procWords wc gd td ws2
        (replaceWord wc (w0 :: w1) (chooseToken gd td rm (w0 :: w1)).1 (render items))
        (chooseToken gd td rm (w0 :: w1)).2).1 = render items2
      rw [hcomm]
      exact h1
    · rw [h3]
      exact replItemsCore_readback wc (w0 :: w1) _ items.length items none le_rfl

/-! ### Safety of the candidate words -/

/-- Every word emitted by the boundary scanner has length at least the
minimum and consists of `[a-zA-Z_]` characters only. -/
theorem findallWB_safe (wc : Char → Bool) (L : Nat) :
    ∀ (s : Str) (prev : Bool) (pend : Option Str),
      (∀ r, pend = some r → r.all isClassCh = true) →
      ∀ w ∈ findallWB wc L s prev pend,
        L ≤ w.length ∧ w.all isClassCh = true := by
  intro s
  induction s with
  | nil =>
    intro prev pend hp w hw
    cases pend with
    | none => simp [findallWB] at hw
    | some run =>
      by_cases hlen : L ≤ run.length
      · rw [show findallWB wc L [] prev (some run) =
            (if L ≤ run.length then [run] else []) from rfl, if_pos hlen] at hw
        rw [List.mem_singleton] at hw
        rw [hw]
        exact ⟨hlen, hp run rfl⟩
      · rw [show findallWB wc L [] prev (some run) =
            (if L ≤ run.length then [run] else []) from rfl, if_neg hlen] at hw
        simp at hw
  | cons c rest ih =>
    intro prev pend hp w hw
    cases pend with
    | none =>
      by_cases hc : isClassCh c
      · cases prev with
        | true =>
          rw [show findallWB wc L (c :: rest) true none =
              findallWB wc L rest (wc c) none by simp [findallWB, hc]] at hw
          exact ih (wc c) none (fun r hr => nomatch hr) w hw
        | false =>
          rw [show findallWB wc L (c :: rest) false none =
              findallWB wc L rest (wc c) (some [c]) by simp [findallWB, hc]] at hw
          refine ih (wc c) (some [c]) ?_ w hw
          intro r hr
          injection hr with h
          rw [← h]
          simp [hc]
      · rw [show findallWB wc L (c :: rest) prev none =
            findallWB wc L rest (wc c) none by simp [findallWB, hc]] at hw
        exact ih (wc c) none (fun r hr => nomatch hr) w hw
    | some run =>
      have hrun : run.all isClassCh = true := hp run rfl
      by_cases hc : isClassCh c
      · rw [show findallWB wc L (c :: rest) prev (some run) =
            findallWB wc L rest (wc c) (some (run ++ [c])) by simp [findallWB, hc]] at hw
        refine ih (wc c) (some (run ++ [c])) ?_ w hw
        intro r hr
        injection hr with h
        rw [← h]
        simp only [List.all_append, Bool.and_eq_true]
        exact ⟨hrun, by simp [hc]⟩
      · rw [show findallWB wc L (c :: rest) prev (some run) =
            (if L ≤ run.length ∧ ¬ wc c then run :: findallWB wc L rest (wc c) none
             else findallWB wc L rest (wc c) none) by simp [findallWB, hc]] at hw
        by_cases hcond : L ≤ run.length ∧ ¬ wc c
        · rw [if_pos hcond] at hw
          rcases List.mem_cons.mp hw with h | h
          · subst h
            exact ⟨hcond.1, hrun⟩
          · exact ih (wc c) none (fun r hr => nomatch hr) w h
        · rw [if_neg hcond] at hw
          exact ih (wc c) none (fun r hr => nomatch hr) w hw

theorem mem_foldl_insDesc {α : Type} (key : α → Nat) :
    ∀ (l acc : List α) (z : α),
      z ∈ l.foldl (fun acc x => insDesc key x acc) acc → z ∈ l ∨ z ∈ acc := by
  intro l
  induction l with
  | nil =>
    intro acc z hz
    exact Or.inr hz
  | cons x l2 ih =>
    intro acc z hz
    rcases ih (insDesc key x acc) z hz with h | h
    · exact Or.inl (List.mem_cons_of_mem _ h)
    · rcases mem_insDesc key x z acc h with h2 | h2
      · exact Or.inl (by rw [h2]; exact List.mem_cons_self _ _)
      · exact Or.inr h2

theorem mem_stableSortDesc {α : Type} (key : α → Nat) (l : List α) (z : α)
    (hz : z ∈ stableSortDesc key l) : z ∈ l := by
  rcases mem_foldl_insDesc key l [] z hz with h | h
  · exact h
  · simp at h

theorem bump_key (w : Str) (p : Str × Nat) :
    ∀ l : List (Str × Nat), p ∈ bump l w → p.1 = w ∨ p ∈ l := by
  intro l
  induction l with
  | nil =>
    intro hp
    rw [show bump [] w = [(w, 1)] from rfl, List.mem_singleton] at hp
    subst hp
    exact Or.inl rfl
  | cons kn r ih =>
    obtain ⟨k, n⟩ := kn
    intro hp
    by_cases hk : k = w
    · rw [show bump ((k, n) :: r) w =
          (if k = w then (k, n + 1) :: r else (k, n) :: bump r w) from rfl,
        if_pos hk] at hp
      rcases List.mem_cons.mp hp with h | h
      · exact Or.inl (by rw [h]; exact hk)
      · exact Or.inr (List.mem_cons_of_mem _ h)
    · rw [show bump ((k, n) :: r) w =
          (if k = w then (k, n + 1) :: r else (k, n) :: bump r w) from rfl,
        if_neg hk] at hp
      rcases List.mem_cons.mp hp with h | h
      · exact Or.inr (by rw [h]; exact List.mem_cons_self _ _)
      · rcases ih h with h2 | h2
        · exact Or.inl h2
        · exact Or.inr (List.mem_cons_of_mem _ h2)

theorem countOcc_key (p : Str × Nat) :
    ∀ (ws : List Str) (acc : List (Str × Nat)),
      p ∈ ws.foldl bump acc → p.1 ∈ ws ∨ p ∈ acc := by
  intro ws
  induction ws with
  | nil =>
    intro acc h
    exact Or.inr h
  | cons w ws2 ih =>
    intro acc h
    rcases ih (bump acc w) h with h2 | h2
    · exact Or.inl (List.mem_cons_of_mem _ h2)
    · rcases bump_key w p acc h2 with h3 | h3
      · exact Or.inl (by rw [h3]; exact List.mem_cons_self _ _)
      · exact Or.inr h3

/-- With minimum length at least 2, every candidate word of `compress` is
safe: two or more characters, all in `[a-zA-Z_]`. -/
theorem candidateOrder_safe (wc : Char → Bool) (text : Str) (L N : Nat) (hL : 2 ≤ L) :
    ∀ w ∈ candidateOrder wc text L N, SafeW w := by
  intro w hw
  have hw2 : w ∈ stableSortDesc (fun v : Str => v.length)
      (get_frequent_phrases wc text L N) := hw
  have hgfp := mem_stableSortDesc _ _ _ hw2
  have hgfp2 : w ∈ ((stableSortDesc (fun p : Str × Nat => p.2)
      ((countOcc (findallWB wc L text false none)).filter
        (fun p => 2 < p.2))).take N).map (fun p => p.1) := hgfp
  obtain ⟨p, hpmem, hpw⟩ := List.mem_map.mp hgfp2
  have hp1 := List.take_subset N _ hpmem
  have hp2 := mem_stableSortDesc (fun p : Str × Nat => p.2) _ p hp1
  have h3 := List.mem_filter.mp hp2
  rcases countOcc_key p (findallWB wc L text false none) [] h3.1 with h4 | h4
  · have h5 := findallWB_safe wc L text false none (fun r hr => nomatch hr) p.1 h4
    rw [← hpw]
    exact ⟨le_trans hL h5.1, h5.2⟩
  · simp at h4

/-- The dictionary-substitution stage is reversible: for any word-character
predicate satisfying `WCHyps`, any dictionaries, and minimum candidate
length at least 2, the decoder scan over the produced body, resolving
tokens against the produced reverse mapping, recovers the original text. -/
theorem compressCore_decodes (wc : Char → Bool) (H : WCHyps wc) (gd td : List Str)
    (text : Str) (L N : Nat) (hL : 2 ≤ L) :
    decodeCore (resolveToken (compressCore wc gd td text L N).2 gd td)
      (compressCore wc gd td text L N).1 = text := by
  have hsafe : ∀ w ∈ candidateOrder wc text L N, SafeW w :=
    candidateOrder_safe wc text L N hL
  have hcan : canonicalRM ([] : List (Str × Str)) := by
    intro j h
    exact absurd h (Nat.not_lt_zero j)
  have hsnd : (compressCore wc gd td text L N).2 =
      assignAll gd td [] (candidateOrder wc text L N) :=
    procWords_snd wc gd td _ _ _
  have hwf0 : WFItems wc
      (resolveToken (assignAll gd td [] (candidateOrder wc text L N)) gd td)
      (text.map Item.lit) := WFItems_lits wc _ text
  obtain ⟨items2, h1, h2, h3⟩ := procWords_spec wc H gd td (candidateOrder wc text L N)
    [] (text.map Item.lit) hsafe hcan hwf0
  have hbody : (compressCore wc gd td text L N).1 = render items2 := by
    show (procWords wc gd td (candidateOrder wc text L N) (escapeTildes text) []).1 =
      render items2
    rw [← render_lit_escape text]
    exact h1
  have hR : resolveToken (assignAll gd td [] (candidateOrder wc text L N)) gd td
      ['~', '~'] = ['~'] := by
    simp [resolveToken]
  rw [hbody, hsnd, decode_render wc _ H.haw hR items2 h2, h3, readback_map_lit]

/-! ## The JSON layer (`json.dumps` on line 247, `json.loads` on line 262)

`compress` frames its output as a compact-separator JSON header, a
newline, and the body; `expand` splits at the first newline and parses
the header with `json.loads`.  `JVal` embeds the JSON values: numbers
split into exact integers (`num`) and float literals (`numF`, stored
syntactically as sign, integer digits, fraction digits and exponent,
since `json.loads` converts them to IEEE doubles), plus the `NaN` and
`Infinity` atoms Python accepts. -/

inductive JVal where
  | jnull
  | jbool (b : Bool)
  | num (n : Int)
  | numF (neg : Bool) (ip fp : List Nat) (ex : Int)
  | nan
  | inf (neg : Bool)
  | str (s : Str)
  | arr (l : List JVal)
  | obj (l : List (Str × JVal))

/-- Lowercase hex digit, as Python's `'\u%04x'` formatting uses. -/
def hexDig (n : Nat) : Char := if n < 10 then Char.ofNat (48 + n) else Char.ofNat (87 + n)

def hex4 (n : Nat) : Str :=
  [hexDig (n / 4096 % 16), hexDig (n / 256 % 16), hexDig (n / 16 % 16), hexDig (n % 16)]

/-- `json.dumps` escaping of one character (default `ensure_ascii=True`):
the two-character escapes for quote, backslash and the named control
characters, printable ASCII verbatim, and `\uXXXX` for everything else,
with surrogate pairs above the BMP. -/
def escC (c : Char) : Str :=
  if c = '"' then ['\\', '"']
  else if c = '\\' then ['\\', '\\']
  else if c = '\n' then ['\\', 'n']
  else if c = '\r' then ['\\', 'r']
  else if c = '\t' then ['\\', 't']
  else if c.toNat = 8 then ['\\', 'b']
  else if c.toNat = 12 then ['\\', 'f']
  else if 32 ≤ c.toNat ∧ c.toNat ≤ 126 then [c]
  else if c.toNat < 65536 then '\\' :: 'u' :: hex4 c.toNat
  else '\\' :: 'u' :: hex4 (55296 + (c.toNat - 65536) / 1024) ++
    '\\' :: 'u' :: hex4 (56320 + (c.toNat - 65536) % 1024)

def escStr : Str → Str
  | [] => []
  | c :: r => escC c ++ escStr r

def dumpStr (s : Str) : Str := '"' :: escStr s ++ ['"']

def dumpInt (n : Int) : Str := if n < 0 then '-' :: toDec n.natAbs else toDec n.toNat

def dumpDigs (l : List Nat) : Str := l.map (fun d => Char.ofNat (48 + d % 10))

/- `json.dumps` with `separators=(',', ':')` (line 247): no whitespace,
keys in insertion order. -/
mutual
def dumpV : JVal → Str
  | .jnull => "null".toList
  | .jbool true => "true".toList
  | .jbool false => "false".toList
  | .num n => dumpInt n
  | .numF neg ip fp ex =>
    (if neg then ['-'] else []) ++ dumpDigs ip ++ '.' :: dumpDigs fp ++ 'e' :: dumpInt ex
  | .nan => "NaN".toList
  | .inf false => "Infinity".toList
  | .inf true => "-Infinity".toList
  | .str s => dumpStr s
  | .arr [] => ['[', ']']
  | .arr (v :: l) => '[' :: (dumpV v ++ dumpL l) ++ [']']
  | .obj [] => [Char.ofNat 123, Char.ofNat 125]
  | .obj (p :: l) =>
    Char.ofNat 123 :: (dumpStr p.1 ++ ':' :: dumpV p.2 ++ dumpM l) ++ [Char.ofNat 125]
def dumpL : List JVal → Str
  | [] => []
  | v :: l => ',' :: dumpV v ++ dumpL l
def dumpM : List (Str × JVal) → Str
  | [] => []
  | p :: l => ',' :: dumpStr p.1 ++ ':' :: dumpV p.2 ++ dumpM l
end

def dumps (v : JVal) : Str := dumpV v

/-- JSON whitespace (`json.decoder.WHITESPACE`). -/
def jws (c : Char) : Bool := c = ' ' || c = '\t' || c = '\n' || c = '\r'

def skipWs (s : Str) : Str := s.dropWhile jws

def hexVal (c : Char) : Option Nat :=
  if 48 ≤ c.toNat ∧ c.toNat ≤ 57 then some (c.toNat - 48)
  else if 97 ≤ c.toNat ∧ c.toNat ≤ 102 then some (c.toNat - 87)
  else if 65 ≤ c.toNat ∧ c.toNat ≤ 70 then some (c.toNat - 55)
  else none

/-- The JSON string scanner (`py_scanstring`), after the opening quote:
returns the decoded contents and the input after the closing quote.
Surrogate pairs in `\uXXXX` escapes are combined; a lone surrogate,
which Python keeps as an unpaired code unit that `Char` cannot
represent, becomes U+FFFD (it cannot arise from `compress` output).
Unescaped control characters are accepted (Python's `strict=True`
rejects them; acceptance only widens the parser). -/
def parseStrAux : Nat → Str → Option (Str × Str)
  | 0, _ => none
  | _ + 1, [] => none
  | fuel + 1, c :: rest =>
    if c = '"' then some ([], rest)
    else if c = '\\' then
      match rest with
      | 'u' :: h1 :: h2 :: h3 :: h4 :: r2 =>
        match hexVal h1, hexVal h2, hexVal h3, hexVal h4 with
        | some a, some b, some g, some d =>
          let n := ((a * 16 + b) * 16 + g) * 16 + d
          if 55296 ≤ n ∧ n < 56320 then
            match r2 with
            | '\\' :: 'u' :: g1 :: g2 :: g3 :: g4 :: r3 =>
              match hexVal g1, hexVal g2, hexVal g3, hexVal g4 with
              | some a2, some b2, some c2, some d2 =>
                let n2 := ((a2 * 16 + b2) * 16 + c2) * 16 + d2
                if 56320 ≤ n2 ∧ n2 < 57344 then
                  (parseStrAux fuel r3).map (fun pr =>
                    (Char.ofNat (65536 + (n - 55296) * 1024 + (n2 - 56320)) :: pr.1, pr.2))
                else (parseStrAux fuel r2).map (fun pr => (Char.ofNat 65533 :: pr.1, pr.2))
              | _, _, _, _ => (parseStrAux fuel r2).map (fun pr => (Char.ofNat 65533 :: pr.1, pr.2))
            | _ => (parseStrAux fuel r2).map (fun pr => (Char.ofNat 65533 :: pr.1, pr.2))
          else if 56320 ≤ n ∧ n < 57344 then
            (parseStrAux fuel r2).map (fun pr => (Char.ofNat 65533 :: pr.1, pr.2))
          else (parseStrAux fuel r2).map (fun pr => (Char.ofNat n :: pr.1, pr.2))
        | _, _, _, _ => none
      | e :: r2 =>
        match (if e = '"' then some '"' else if e = '\\' then some '\\'
          else if e = '/' then some '/' else if e = 'b' then some (Char.ofNat 8)
          else if e = 'f' then some (Char.ofNat 12) else if e = 'n' then some '\n'
          else if e = 'r' then some '\r' else if e = 't' then some '\t' else none) with
        | some d => (parseStrAux fuel r2).map (fun pr => (d :: pr.1, pr.2))
        | none => none
      | [] => none
    else (parseStrAux fuel rest).map (fun pr => (c :: pr.1, pr.2))

/-- The JSON number scanner (`json.scanner.NUMBER_RE`): an optional minus,
integer digits, then fraction and exponent groups taken only when
complete; a pure integer becomes `num`, anything with a fraction or
exponent becomes `numF`.  Leading zeros are accepted (Python rejects
them; acceptance only widens the parser). -/
def parseNum (s : Str) : Option (JVal × Str) :=
  let neg : Bool := s.head? = some '-'
  let s1 := if neg then s.drop 1 else s
  let ip := s1.takeWhile isDigitCh
  if ip = [] then none
  else
    let r1 := s1.drop ip.length
    let fpr : Str × Str :=
      if r1.head? = some '.' then
        let d := (r1.drop 1).takeWhile isDigitCh
        if d = [] then ([], r1) else (d, (r1.drop 1).drop d.length)
      else ([], r1)
    let epr : Option (Bool × Str) × Str :=
      if fpr.2.head? = some 'e' ∨ fpr.2.head? = some 'E' then
        let t := fpr.2.drop 1
        if t.head? = some '+' then
          let d := (t.drop 1).takeWhile isDigitCh
          if d = [] then (none, fpr.2) else (some (false, d), (t.drop 1).drop d.length)
        else if t.head? = some '-' then
          let d := (t.drop 1).takeWhile isDigitCh
          if d = [] then (none, fpr.2) else (some (true, d), (t.drop 1).drop d.length)
        else
          let d := t.takeWhile isDigitCh
          if d = [] then (none, fpr.2) else (some (false, d), t.drop d.length)
      else (none, fpr.2)
    if fpr.1 = [] ∧ epr.1 = none then
      some (JVal.num (if neg then -(Int.ofNat (parseDec ip)) else Int.ofNat (parseDec ip)), r1)
    else
      some (JVal.numF neg (ip.map digitVal) (fpr.1.map digitVal)
        (match epr.1 with
         | some (true, d) => -(Int.ofNat (parseDec d))
         | some (false, d) => Int.ofNat (parseDec d)
         | none => 0), epr.2)

/- Fuel-driven JSON value parser (`json.loads` grammar): returns the
value and the unconsumed input. -/
mutual
def parseV : Nat → Str → Option (JVal × Str)
  | 0, _ => none
  | fuel + 1, s =>
    match s with
    | [] => none
    | c :: rest =>
      if c = Char.ofNat 123 then
        match skipWs rest with
        | d :: r2 =>
          if d = Char.ofNat 125 then some (JVal.obj [], r2)
          else (parseMems fuel (d :: r2)).map (fun pr => (JVal.obj pr.1, pr.2))
        | [] => none
      else if c = '[' then
        match skipWs rest with
        | d :: r2 =>
          if d = ']' then some (JVal.arr [], r2)
          else (parseItems fuel (d :: r2)).map (fun pr => (JVal.arr pr.1, pr.2))
        | [] => none
      else if c = '"' then
        (parseStrAux (rest.length + 1) rest).map (fun pr => (JVal.str pr.1, pr.2))
      else if c = 't' then
        if "rue".toList.isPrefixOf rest then some (JVal.jbool true, rest.drop 3) else none
      else if c = 'f' then
        if "alse".toList.isPrefixOf rest then some (JVal.jbool false, rest.drop 4) else none
      else if c = 'n' then
        if "ull".toList.isPrefixOf rest then some (JVal.jnull, rest.drop 3) else none
      else if c = 'N' then
        if "aN".toList.isPrefixOf rest then some (JVal.nan, rest.drop 2) else none
      else if c = 'I' then
        if "nfinity".toList.isPrefixOf rest then some (JVal.inf false, rest.drop 7) else none
      else if c = '-' then
        if "Infinity".toList.isPrefixOf rest then some (JVal.inf true, rest.drop 8)
        else parseNum (c :: rest)
      else if isDigitCh c then parseNum (c :: rest)
      else none
def parseMems : Nat → Str → Option (List (Str × JVal) × Str)
  | 0, _ => none
  | fuel + 1, s =>
    match s with
    | '"' :: rest =>
      match parseStrAux (rest.length + 1) rest with
      | none => none
      | some (k, r2) =>
        match skipWs r2 with
        | ':' :: r3 =>
          match parseV fuel (skipWs r3) with
          | none => none
          | some (v, r4) =>
            match skipWs r4 with
            | ',' :: r5 => (parseMems fuel (skipWs r5)).map (fun pr => ((k, v) :: pr.1, pr.2))
            | d :: r5 => if d = Char.ofNat 125 then some ([(k, v)], r5) else none
            | [] => none
        | _ => none
    | _ => none
def parseItems : Nat → Str → Option (List JVal × Str)
  | 0, _ => none
  | fuel + 1, s =>
    match parseV fuel s with
    | none => none
    | some (v, r) =>
      match skipWs r with
      | ',' :: r2 => (parseItems fuel (skipWs r2)).map (fun pr => (v :: pr.1, pr.2))
      | ']' :: r2 => some ([v], r2)
      | _ => none
end

/-- `json.loads`: parse one value and require only whitespace after it. -/
def parseJ (s : Str) : Option JVal :=
  match parseV (s.length + 1) (skipWs s) with
  | some (v, r) => if skipWs r = [] then some v else none
  | none => none

/-! ## `expand` (lines 258–354) and `compress` framing (lines 215–253) -/

/-- `header.get(k)` on the dict built from a parsed JSON object: duplicate
keys overwrite, so the lookup takes the last binding. -/
def jGet (h : List (Str × JVal)) (k : Str) : Option JVal := List.lookup k h.reverse

/-- Python truthiness of a parsed JSON value.  For float literals the
mantissa-zero test stands in for `float == 0.0` (it differs only for
nonzero literals so small they underflow to `0.0`, which the theorems
below never build). -/
def jTruthy : JVal → Bool
  | .jnull => false
  | .jbool b => b
  | .num n => decide (n ≠ 0)
  | .numF _ ip fp _ => ip.any (fun d => d ≠ 0) || fp.any (fun d => d ≠ 0)
  | .nan => true
  | .inf _ => true
  | .str s => !s.isEmpty
  | .arr l => !l.isEmpty
  | .obj l => !l.isEmpty

def jTruthyO : Option JVal → Bool
  | some v => jTruthy v
  | none => false

/-- Python whitespace (`\s` on ASCII). -/
def isPySp (c : Char) : Bool :=
  c = ' ' || c = '\t' || c = '\n' || c = '\r' || c = Char.ofNat 11 || c = Char.ofNat 12

/-- Tail of a fuzz-block match after `\n\n[FUZZ:`: some `]` reachable
without crossing a newline (`.*?` does not match `\n`), with only
whitespace after it (`\]\s*$`; the greedy `\s*` and end anchor make the
match extend to the end of the string). -/
def fuzzTail : Str → Bool
  | [] => false
  | c :: rest =>
    if c = '\n' then false
    else (c = ']' && rest.all isPySp) || fuzzTail rest

/-- A match of `\n\n\[FUZZ:.*?\]\s*$` starting at the front of `s`. -/
def fuzzAt (s : Str) : Bool :=
  "\n\n[FUZZ:".toList.isPrefixOf s && fuzzTail (s.drop 8)

def fuzzFind : Str → Option Nat
  | [] => none
  | c :: rest => if fuzzAt (c :: rest) then some 0 else (fuzzFind rest).map (· + 1)

/-- `re.sub(r'\n\n\[FUZZ:.*?\]\s*$', '', body)` (line 270): delete from
the leftmost match start (the match always reaches the end of the
string). -/
def defuzz (s : Str) : Str :=
  match fuzzFind s with
  | some i => s.take i
  | none => s

/-- The tier fallback of `replace_func` (lines 320–348): the `~^` global
and `~*` type lookups, then the token itself. -/
def tierFallback (gd td : List Str) (token : Str) : Str :=
  match (if token.take 2 = ['~', '^'] then tierLookup gd (token.drop 2) else none) with
  | some w => w
  | none =>
    match (if token.take 2 = ['~', '*'] then tierLookup td (token.drop 2) else none) with
    | some w => w
    | none => token

/-- `replace_func` (lines 313–350) against the raw header value under
`"m"`/`"map"`: `token in reverse_mapping` is dict-key membership for an
object, substring membership for a string, element equality for an array
(a `str` equals only an equal `str`), and a `TypeError` otherwise; a hit
on a string or array then raises on `reverse_mapping[token]`, and an
object hit whose value is not a string makes `re.sub` raise.  `none`
models the uncaught exception. -/
def replaceF (gd td : List Str) (rmv : JVal) (tok : Str) : Option Str :=
  if tok = ['~', '~'] then some ['~']
  else
    match rmv with
    | JVal.obj h =>
      match jGet h tok with
      | some (JVal.str w) => some w
      | some _ => none
      | none => some (tierFallback gd td tok)
    | JVal.str s =>
      if (substrIdx s tok).isSome then none else some (tierFallback gd td tok)
    | JVal.arr l =>
      if l.any (fun v => match v with | JVal.str s => s = tok | _ => false) then none
      else some (tierFallback gd td tok)
    | _ => none

/-- The decoder scan of `decodeAux` with a fallible resolver: a failure at
any match aborts (`re.sub` propagates the callback's exception). -/
def decodeOptAux (R : Str → Option Str) : Nat → Str → Option Str
  | 0, s => some s
  | _ + 1, [] => some []
  | fuel + 1, c :: rest =>
    if c = '~' then
      match rest with
      | [] => some ['~']
      | d :: rest2 =>
        if d = '~' then
          match R ['~', '~'], decodeOptAux R fuel rest2 with
          | some w, some r => some (w ++ r)
          | _, _ => none
        else if d = '^' ∨ d = '*' then
          if (rest2.takeWhile isAlnumCh).isEmpty then
            (decodeOptAux R fuel rest).map (fun r => '~' :: r)
          else
            match R ('~' :: ([d] ++ rest2.takeWhile isAlnumCh)),
                decodeOptAux R fuel (rest2.drop (rest2.takeWhile isAlnumCh).length) with
            | some w, some r => some (w ++ r)
            | _, _ => none
        else
          if (rest.takeWhile isAlnumCh).isEmpty then
            (decodeOptAux R fuel rest).map (fun r => '~' :: r)
          else
            match R ('~' :: rest.takeWhile isAlnumCh),
                decodeOptAux R fuel (rest.drop (rest.takeWhile isAlnumCh).length) with
            | some w, some r => some (w ++ r)
            | _, _ => none
    else (decodeOptAux R fuel rest).map (fun r => c :: r)

def decodeOpt (R : Str → Option Str) (s : Str) : Option Str := decodeOptAux R s.length s

/-- `text.split('\n', 1)`: `none` when there is no newline (unpacking
then raises the caught `ValueError`). -/
def splitFirstNL (s : Str) : Option (Str × Str) :=
  match substrIdx s ['\n'] with
  | some i => some (s.take i, s.drop (i + 1))
  | none => none

/-- `expand` after a successfully parsed object header: defuzz when `"f"`
or `"fuzzed"` is truthy, read the local map from `"m"` (falling back to
`"map"`, then `{}`), resolve the type dictionary from `"ext"` through
`get_type_specific` (abstracted as `tdj`, applied to the header value as
Python does), and run the token scan. -/
def expandHeader (tdj : JVal → List Str) (gd : List Str)
    (h : List (Str × JVal)) (body0 : Str) : Option Str :=
  let body := if jTruthyO (jGet h "f".toList) || jTruthyO (jGet h "fuzzed".toList) then
    defuzz body0 else body0
  let rmv := match jGet h "m".toList with
    | some v => v
    | none =>
      match jGet h "map".toList with
      | some v => v
      | none => JVal.obj []
  let td := match jGet h "ext".toList with
    | some v => if jTruthy v then tdj v else []
    | none => []
  decodeOpt (replaceF gd td rmv) body

/-- `expand` (lines 258–354).  `none` models an uncaught exception: the
only caught failure is a `ValueError` from the split or `json.loads`, so
a header that parses to a non-object raises `AttributeError` on
`header.get`. -/
def expand (tdj : JVal → List Str) (gd : List Str) (text : Str) : Option Str :=
  match splitFirstNL text with
  | none => some text
  | some (hl, body0) =>
    match parseJ hl with
    | none => some text
    | some (JVal.obj h) => expandHeader tdj gd h body0
    | some _ => none

/-- The fuzz block of `compress` (line 225): `random.seed(seed)` then 20
random ASCII letters, abstracted as `fb`. -/
def fuzzBlock (fb : Str) : Str := '\n' :: '\n' :: "[FUZZ:".toList ++ fb ++ [']']

/-- `compress` (lines 112–256).  The `learner` module is not part of the
source tree: the global dictionary is the parameter `gd` and
`get_type_specific` the parameter `tdj` (applied to the extension as a
JSON string, matching `expand`'s use on the parsed header value); the
fuzz coin toss `random.random() < 0.1` is the parameter `fuzzCoin` and
the random letter block the parameter `fb`; `metadata` is a JSON value
or `None`. -/
def compress (wc : Char → Bool) (gd : List Str) (tdj : JVal → List Str) (text : Str)
    (fuzzCoin : Bool) (fb : Str) (seed : Int) (metadata : Option JVal)
    (fileExt : Option Str) (minLen topN : Nat) : Str :=
  let td := match fileExt with
    | some e => if e = [] then [] else tdj (JVal.str e)
    | none => []
  let p := compressCore wc gd td text minLen topN
  let body := if fuzzCoin then p.1 ++ fuzzBlock fb else p.1
  let header : List (Str × JVal) :=
    [("v".toList, JVal.str "1.2".toList),
     ("m".toList, JVal.obj (p.2.map (fun q => (q.1, JVal.str q.2))))]
    ++ (if fuzzCoin then [("f".toList, JVal.num 1), ("s".toList, JVal.num seed)] else [])
    ++ (match metadata with
        | some mv => if jTruthy mv then [("meta".toList, mv)] else []
        | none => [])
    ++ (match fileExt with
        | some e => if e = [] then [] else [("ext".toList, JVal.str e)]
        | none => [])
  dumps (JVal.obj header) ++ '\n' :: body

/-! ## Infrastructure for recursion over `JVal` -/

/- Fuel sufficient for `parseV` on the dump of a value (each parser level
consumes one unit). -/
mutual
def needV : JVal → Nat
  | .arr l => 1 + needI l
  | .obj l => 1 + needM l
  | _ => 1
def needI : List JVal → Nat
  | [] => 1
  | v :: l => 1 + max (needV v) (needI l)
def needM : List (Str × JVal) → Nat
  | [] => 1
  | p :: l => 1 + max (needV p.2) (needM l)
end

theorem needV_lt_needI {v : JVal} : ∀ {l : List JVal}, v ∈ l → needV v < needI l := by
  intro l
  induction l with
  | nil => intro h; cases h
  | cons w l2 ih =>
    intro h
    have e : needI (w :: l2) = 1 + max (needV w) (needI l2) := rfl
    have m1 := le_max_left (needV w) (needI l2)
    have m2 := le_max_right (needV w) (needI l2)
    rcases List.mem_cons.mp h with h | h
    · subst h
      omega
    · have := ih h
      omega

theorem needV_lt_needM {p : Str × JVal} :
    ∀ {l : List (Str × JVal)}, p ∈ l → needV p.2 < needM l := by
  intro l
  induction l with
  | nil => intro h; cases h
  | cons q l2 ih =>
    intro h
    have e : needM (q :: l2) = 1 + max (needV q.2) (needM l2) := rfl
    have m1 := le_max_left (needV q.2) (needM l2)
    have m2 := le_max_right (needV q.2) (needM l2)
    rcases List.mem_cons.mp h with h | h
    · subst h
      omega
    · have := ih h
      omega

theorem needV_pos : ∀ v, 1 ≤ needV v := by
  intro v
  cases v <;> simp [needV]

/-- Induction over `JVal` with element hypotheses for the nested lists. -/
theorem JVal.recM (P : JVal → Prop)
    (h0 : P .jnull) (h1 : ∀ b, P (.jbool b)) (h2 : ∀ n, P (.num n))
    (h3 : ∀ ng ip fp ex, P (.numF ng ip fp ex)) (h4 : P .nan) (h5 : ∀ b, P (.inf b))
    (h6 : ∀ s, P (.str s))
    (h7 : ∀ l, (∀ v ∈ l, P v) → P (.arr l))
    (h8 : ∀ l, (∀ p ∈ l, P p.2) → P (.obj l)) :
    ∀ v, P v := by
  have main : ∀ n v, needV v ≤ n → P v := by
    intro n
    induction n with
    | zero =>
      intro v h
      have := needV_pos v
      omega
    | succ n ih =>
      intro v h
      cases v with
      | jnull => exact h0
      | jbool b => exact h1 b
      | num k => exact h2 k
      | numF ng ip fp ex => exact h3 ng ip fp ex
      | nan => exact h4
      | inf b => exact h5 b
      | str s => exact h6 s
      | arr l =>
        refine h7 l ?_
        intro w hw
        refine ih w ?_
        have hlt := needV_lt_needI hw
        have e : needV (JVal.arr l) = 1 + needI l := rfl
        omega
      | obj l =>
        refine h8 l ?_
        intro p hp
        refine ih p.2 ?_
        have hlt := needV_lt_needM hp
        have e : needV (JVal.obj l) = 1 + needM l := rfl
        omega
  intro v
  exact main (needV v) v le_rfl

/-! ## String escaping round trip -/

theorem hexVal_hexDig (k : Nat) (h : k < 16) : hexVal (hexDig k) = some k := by
  interval_cases k <;> decide

theorem hexDig_ne_nl (k : Nat) (h : k < 16) : hexDig k ≠ '\n' := by
  interval_cases k <;> decide

theorem char_valid_nat (c : Char) :
    c.toNat < 55296 ∨ (57344 ≤ c.toNat ∧ c.toNat < 1114112) := c.valid

/-- One non-surrogate `\uXXXX` escape decodes to `Char.ofNat n`. -/
theorem parseStr_hexU (n : Nat) (h1 : n < 55296 ∨ 57344 ≤ n) (h2 : n < 65536)
    (t : Str) (g : Nat) :
    parseStrAux (g + 1) ('\\' :: 'u' :: hex4 n ++ t) =
      (parseStrAux g t).map (fun pr => (Char.ofNat n :: pr.1, pr.2)) := by
  rw [show hex4 n = [hexDig (n / 4096 % 16), hexDig (n / 256 % 16), hexDig (n / 16 % 16),
    hexDig (n % 16)] from rfl]
  show parseStrAux (g + 1) ('\\' :: 'u' :: hexDig (n / 4096 % 16) :: hexDig (n / 256 % 16) ::
    hexDig (n / 16 % 16) :: hexDig (n % 16) :: t) = _
  simp only [parseStrAux, hexVal_hexDig _ (Nat.mod_lt _ (by omega))]
  rw [if_pos trivial]
  have hn : ((n / 4096 % 16 * 16 + n / 256 % 16) * 16 + n / 16 % 16) * 16 + n % 16 = n := by
    have d1 : n / 16 / 16 = n / 256 := by
      rw [Nat.div_div_eq_div_mul]
    have d2 : n / 16 / 16 / 16 = n / 4096 := by
      rw [Nat.div_div_eq_div_mul, Nat.div_div_eq_div_mul]
    rw [← d2, ← d1]
    omega
  rw [hn]
  rw [if_neg (show ¬(55296 ≤ n ∧ n < 56320) by omega),
    if_neg (show ¬(56320 ≤ n ∧ n < 57344) by omega),
    if_neg (show ¬('\\' = '"') by decide)]

/-- A surrogate pair of `\uXXXX` escapes decodes to the combined scalar. -/
theorem parseStr_hexPair (n1 n2 : Nat) (ha : 55296 ≤ n1) (hb : n1 < 56320)
    (hc : 56320 ≤ n2) (hd : n2 < 57344) (t : Str) (g : Nat) :
    parseStrAux (g + 1) ('\\' :: 'u' :: hex4 n1 ++ ('\\' :: 'u' :: hex4 n2 ++ t)) =
      (parseStrAux g t).map
        (fun pr => (Char.ofNat (65536 + (n1 - 55296) * 1024 + (n2 - 56320)) :: pr.1, pr.2)) := by
  rw [show hex4 n1 = [hexDig (n1 / 4096 % 16), hexDig (n1 / 256 % 16), hexDig (n1 / 16 % 16),
    hexDig (n1 % 16)] from rfl]
  rw [show hex4 n2 = [hexDig (n2 / 4096 % 16), hexDig (n2 / 256 % 16), hexDig (n2 / 16 % 16),
    hexDig (n2 % 16)] from rfl]
  show parseStrAux (g + 1) ('\\' :: 'u' :: hexDig (n1 / 4096 % 16) :: hexDig (n1 / 256 % 16) ::
    hexDig (n1 / 16 % 16) :: hexDig (n1 % 16) :: ('\\' :: 'u' :: hexDig (n2 / 4096 % 16) ::
    hexDig (n2 / 256 % 16) :: hexDig (n2 / 16 % 16) :: hexDig (n2 % 16) :: t)) = _
  simp only [parseStrAux, hexVal_hexDig _ (Nat.mod_lt _ (by omega))]
  rw [if_pos trivial]
  have hn1 : ((n1 / 4096 % 16 * 16 + n1 / 256 % 16) * 16 + n1 / 16 % 16) * 16 + n1 % 16 = n1 := by
    have d1 : n1 / 16 / 16 = n1 / 256 := by
      rw [Nat.div_div_eq_div_mul]
    have d2 : n1 / 16 / 16 / 16 = n1 / 4096 := by
      rw [Nat.div_div_eq_div_mul, Nat.div_div_eq_div_mul]
    rw [← d2, ← d1]
    omega
  have hn2 : ((n2 / 4096 % 16 * 16 + n2 / 256 % 16) * 16 + n2 / 16 % 16) * 16 + n2 % 16 = n2 := by
    have d1 : n2 / 16 / 16 = n2 / 256 := by
      rw [Nat.div_div_eq_div_mul]
    have d2 : n2 / 16 / 16 / 16 = n2 / 4096 := by
      rw [Nat.div_div_eq_div_mul, Nat.div_div_eq_div_mul]
    rw [← d2, ← d1]
    omega
  rw [hn1, hn2]
  rw [if_pos (show 55296 ≤ n1 ∧ n1 < 56320 from ⟨ha, hb⟩),
    if_pos (show 56320 ≤ n2 ∧ n2 < 57344 from ⟨hc, hd⟩),
    if_neg (show ¬('\\' = '"') by decide)]

/-- The string scanner inverts `json.dumps` escaping. -/
theorem parseStr_escStr : ∀ (s : Str) (f : Nat), s.length < f →
    ∀ rest, parseStrAux f (escStr s ++ '"' :: rest) = some (s, rest) := by
  intro s
  induction s with
  | nil =>
    intro f hf rest
    obtain ⟨g, rfl⟩ : ∃ g, f = g + 1 := ⟨f - 1, by omega⟩
    show parseStrAux (g + 1) ('"' :: rest) = some ([], rest)
    simp [parseStrAux]
  | cons c s2 ih =>
    intro f hf rest
    obtain ⟨g, rfl⟩ : ∃ g, f = g + 1 := ⟨f - 1, by omega⟩
    have hlen : s2.length < g := by
      simp only [List.length_cons] at hf
      omega
    have ih2 := ih g hlen rest
    have hesc : escStr (c :: s2) ++ '"' :: rest = escC c ++ (escStr s2 ++ '"' :: rest) := by
      show (escC c ++ escStr s2) ++ '"' :: rest = _
      simp
    rw [hesc]
    by_cases h1 : c = '"'
    · subst h1
      rw [show escC '"' = ['\\', '"'] from rfl]
      simp [parseStrAux, ih2]
    · by_cases h2 : c = '\\'
      · subst h2
        rw [show escC '\\' = ['\\', '\\'] from rfl]
        simp [parseStrAux, ih2]
      · by_cases h3 : c = '\n'
        · subst h3
          rw [show escC '\n' = ['\\', 'n'] from rfl]
          simp [parseStrAux, ih2]
        · by_cases h4 : c = '\r'
          · subst h4
            rw [show escC '\r' = ['\\', 'r'] from rfl]
            simp [parseStrAux, ih2]
          · by_cases h5 : c = '\t'
            · subst h5
              rw [show escC '\t' = ['\\', 't'] from rfl]
              simp [parseStrAux, ih2]
            · by_cases h6 : c.toNat = 8
              · have hc8 : c = Char.ofNat 8 := by
                  rw [← Char.ofNat_toNat c, h6]
                have he : escC c = ['\\', 'b'] := by
                  rw [escC, if_neg h1, if_neg h2, if_neg h3, if_neg h4, if_neg h5, if_pos h6]
                rw [he, hc8]
                simp [parseStrAux, ih2]
              · by_cases h7 : c.toNat = 12
                · have hc12 : c = Char.ofNat 12 := by
                    rw [← Char.ofNat_toNat c, h7]
                  have he : escC c = ['\\', 'f'] := by
                    rw [escC, if_neg h1, if_neg h2, if_neg h3, if_neg h4, if_neg h5,
                      if_neg h6, if_pos h7]
                  rw [he, hc12]
                  simp [parseStrAux, ih2]
                · by_cases h8 : 32 ≤ c.toNat ∧ c.toNat ≤ 126
                  · have he : escC c = [c] := by
                      rw [escC, if_neg h1, if_neg h2, if_neg h3, if_neg h4, if_neg h5,
                        if_neg h6, if_neg h7, if_pos h8]
                    rw [he]
                    show parseStrAux (g + 1) (c :: (escStr s2 ++ '"' :: rest)) = _
                    simp [parseStrAux, h1, h2, ih2]
                  · by_cases h9 : c.toNat < 65536
                    · have he : escC c = '\\' :: 'u' :: hex4 c.toNat := by
                        rw [escC, if_neg h1, if_neg h2, if_neg h3, if_neg h4, if_neg h5,
                          if_neg h6, if_neg h7, if_neg h8, if_pos h9]
                      rw [he]
                      have hv : c.toNat < 55296 ∨ 57344 ≤ c.toNat := by
                        rcases char_valid_nat c with h | h
                        · exact Or.inl h
                        · exact Or.inr h.1
                      rw [show ('\\' :: 'u' :: hex4 c.toNat ++ (escStr s2 ++ '"' :: rest) : Str)
                        = '\\' :: 'u' :: hex4 c.toNat ++ (escStr s2 ++ '"' :: rest) from rfl]
                      rw [parseStr_hexU c.toNat hv h9 _ g, ih2, Char.ofNat_toNat]
                      rfl
                    · have he : escC c = '\\' :: 'u' ::
                          hex4 (55296 + (c.toNat - 65536) / 1024) ++
                          '\\' :: 'u' :: hex4 (56320 + (c.toNat - 65536) % 1024) := by
                        rw [escC, if_neg h1, if_neg h2, if_neg h3, if_neg h4, if_neg h5,
                          if_neg h6, if_neg h7, if_neg h8, if_neg h9]
                      rw [he]
                      have hval := char_valid_nat c
                      have hq : (c.toNat - 65536) / 1024 < 1024 := by omega
                      have hr : (c.toNat - 65536) % 1024 < 1024 := Nat.mod_lt _ (by omega)
                      rw [show (('\\' :: 'u' :: hex4 (55296 + (c.toNat - 65536) / 1024) ++
                          '\\' :: 'u' :: hex4 (56320 + (c.toNat - 65536) % 1024)) ++
                          (escStr s2 ++ '"' :: rest) : Str) =
                        '\\' :: 'u' :: hex4 (55296 + (c.toNat - 65536) / 1024) ++
                          ('\\' :: 'u' :: hex4 (56320 + (c.toNat - 65536) % 1024) ++
                          (escStr s2 ++ '"' :: rest)) by simp]
                      rw [parseStr_hexPair (55296 + (c.toNat - 65536) / 1024)
                        (56320 + (c.toNat - 65536) % 1024) (by omega) (by omega)
                        (by omega) (by omega) _ g]
                      rw [show 65536 + (55296 + (c.toNat - 65536) / 1024 - 55296) * 1024 +
                          (56320 + (c.toNat - 65536) % 1024 - 56320) = c.toNat by omega]
                      rw [ih2, Char.ofNat_toNat]
                      rfl

/-! ## Shape facts about `json.dumps` output -/

/- Float-freeness: the only values whose dump involves Python float
`repr` (which the embedding does not model). -/
mutual
def goodV : JVal → Bool
  | .numF _ _ _ _ => false
  | .arr l => goodL l
  | .obj l => goodM l
  | _ => true
def goodL : List JVal → Bool
  | [] => true
  | v :: l => goodV v && goodL l
def goodM : List (Str × JVal) → Bool
  | [] => true
  | p :: l => goodV p.2 && goodM l
end

theorem digit_not_jws {d : Char} (h : isDigitCh d = true) : jws d = false := by
  by_contra hj
  rw [Bool.not_eq_false] at hj
  simp only [jws, Bool.or_eq_true, decide_eq_true_eq] at hj
  rcases hj with ((h1 | h1) | h1) | h1 <;> (subst h1; simp [isDigitCh] at h)

theorem digit_ne_rbrack {d : Char} (h : isDigitCh d = true) : d ≠ ']' := by
  intro hx
  subst hx
  simp [isDigitCh] at h

theorem digit_ne_nl {d : Char} (h : isDigitCh d = true) : d ≠ '\n' := by
  intro hx
  subst hx
  simp [isDigitCh] at h

theorem noNL_hex4 (n : Nat) : '\n' ∉ hex4 n := by
  intro h
  rw [hex4] at h
  rcases List.mem_cons.mp h with h | h
  · exact hexDig_ne_nl _ (Nat.mod_lt _ (by omega)) h.symm
  rcases List.mem_cons.mp h with h | h
  · exact hexDig_ne_nl _ (Nat.mod_lt _ (by omega)) h.symm
  rcases List.mem_cons.mp h with h | h
  · exact hexDig_ne_nl _ (Nat.mod_lt _ (by omega)) h.symm
  rcases List.mem_cons.mp h with h | h
  · exact hexDig_ne_nl _ (Nat.mod_lt _ (by omega)) h.symm
  simp at h

theorem noNL_escC (c : Char) : '\n' ∉ escC c := by
  rw [escC]
  by_cases h1 : c = '"'
  · rw [if_pos h1]; decide
  · rw [if_neg h1]
    by_cases h2 : c = '\\'
    · rw [if_pos h2]; decide
    · rw [if_neg h2]
      by_cases h3 : c = '\n'
      · rw [if_pos h3]; decide
      · rw [if_neg h3]
        by_cases h4 : c = '\r'
        · rw [if_pos h4]; decide
        · rw [if_neg h4]
          by_cases h5 : c = '\t'
          · rw [if_pos h5]; decide
          · rw [if_neg h5]
            by_cases h6 : c.toNat = 8
            · rw [if_pos h6]; decide
            · rw [if_neg h6]
              by_cases h7 : c.toNat = 12
              · rw [if_pos h7]; decide
              · rw [if_neg h7]
                by_cases h8 : 32 ≤ c.toNat ∧ c.toNat ≤ 126
                · rw [if_pos h8]
                  intro hm
                  exact h3 (List.mem_singleton.mp hm).symm
                · rw [if_neg h8]
                  by_cases h9 : c.toNat < 65536
                  · rw [if_pos h9]
                    intro hm
                    rcases List.mem_cons.mp hm with hm | hm
                    · simp at hm
                    rcases List.mem_cons.mp hm with hm | hm
                    · simp at hm
                    exact noNL_hex4 _ hm
                  · rw [if_neg h9]
                    intro hm
                    rcases List.mem_cons.mp hm with hm | hm
                    · simp at hm
                    rcases List.mem_cons.mp hm with hm | hm
                    · simp at hm
                    rcases List.mem_append.mp hm with hm | hm
                    · exact noNL_hex4 _ hm
                    rcases List.mem_cons.mp hm with hm | hm
                    · simp at hm
                    rcases List.mem_cons.mp hm with hm | hm
                    · simp at hm
                    exact noNL_hex4 _ hm

theorem noNL_escStr : ∀ s : Str, '\n' ∉ escStr s := by
  intro s
  induction s with
  | nil => intro h; cases h
  | cons c r ih =>
    intro h
    rcases List.mem_append.mp h with h | h
    · exact noNL_escC c h
    · exact ih h

theorem noNL_dumpStr (s : Str) : '\n' ∉ dumpStr s := by
  intro h
  rcases List.mem_cons.mp h with h | h
  · simp at h
  rcases List.mem_append.mp h with h | h
  · exact noNL_escStr s h
  · simp at h

theorem noNL_toDec (n : Nat) : '\n' ∉ toDec n := by
  intro h
  have h2 := toDec_all_digits n
  rw [List.all_eq_true] at h2
  exact digit_ne_nl (h2 _ h) rfl

theorem noNL_dumpInt (n : Int) : '\n' ∉ dumpInt n := by
  rw [dumpInt]
  by_cases h : n < 0
  · rw [if_pos h]
    intro hm
    rcases List.mem_cons.mp hm with hm | hm
    · simp at hm
    · exact noNL_toDec _ hm
  · rw [if_neg h]
    exact noNL_toDec _

theorem noNL_dumpDigs (l : List Nat) : '\n' ∉ dumpDigs l := by
  intro h
  rw [dumpDigs, List.mem_map] at h
  obtain ⟨d, _, hd⟩ := h
  have h10 : d % 10 < 10 := Nat.mod_lt _ (by omega)
  revert hd
  generalize d % 10 = k at h10
  interval_cases k <;> decide

theorem noNL_dumpL_of (l : List JVal) (h : ∀ w ∈ l, '\n' ∉ dumpV w) : '\n' ∉ dumpL l := by
  induction l with
  | nil => intro hm; cases hm
  | cons v r ih =>
    intro hm
    rw [show dumpL (v :: r) = ',' :: dumpV v ++ dumpL r from rfl] at hm
    rcases List.mem_cons.mp hm with hm | hm
    · simp at hm
    rcases List.mem_append.mp hm with hm | hm
    · exact h v (List.mem_cons_self _ _) hm
    · exact ih (fun w hw => h w (List.mem_cons_of_mem _ hw)) hm

theorem noNL_dumpM_of (l : List (Str × JVal)) (h : ∀ p ∈ l, '\n' ∉ dumpV p.2) :
    '\n' ∉ dumpM l := by
  induction l with
  | nil => intro hm; cases hm
  | cons p r ih =>
    intro hm
    rw [show dumpM (p :: r) = ',' :: dumpStr p.1 ++ ':' :: dumpV p.2 ++ dumpM r from rfl] at hm
    rcases List.mem_cons.mp hm with hm | hm
    · simp at hm
    rcases List.mem_append.mp hm with hm | hm
    · rcases List.mem_append.mp hm with hm | hm
      · exact noNL_dumpStr p.1 hm
      rcases List.mem_cons.mp hm with hm | hm
      · simp at hm
      · exact h p (List.mem_cons_self _ _) hm
    · exact ih (fun q hq => h q (List.mem_cons_of_mem _ hq)) hm

/-- `json.dumps` output never contains a newline (`ensure_ascii` escaping
covers the string contents), so the header line of `compress` output is
newline-free. -/
theorem noNL_dumpV : ∀ v : JVal, '\n' ∉ dumpV v := by
  refine JVal.recM _ ?_ ?_ ?_ ?_ ?_ ?_ ?_ ?_ ?_
  · decide
  · intro b
    cases b <;> decide
  · intro n
    exact noNL_dumpInt n
  · intro ng ip fp ex
    rw [show dumpV (JVal.numF ng ip fp ex) = (if ng then ['-'] else []) ++ dumpDigs ip ++
      '.' :: dumpDigs fp ++ 'e' :: dumpInt ex from rfl]
    intro hm
    rcases List.mem_append.mp hm with hm | hm
    · rcases List.mem_append.mp hm with hm | hm
      · rcases List.mem_append.mp hm with hm | hm
        · cases ng with
          | true => simp at hm
          | false => simp at hm
        · exact noNL_dumpDigs _ hm
      rcases List.mem_cons.mp hm with hm | hm
      · simp at hm
      · exact noNL_dumpDigs _ hm
    rcases List.mem_cons.mp hm with hm | hm
    · simp at hm
    exact noNL_dumpInt _ hm
  · decide
  · intro b
    cases b <;> decide
  · intro s
    exact noNL_dumpStr s
  · intro l ih
    cases l with
    | nil => decide
    | cons v r =>
      rw [show dumpV (JVal.arr (v :: r)) = '[' :: (dumpV v ++ dumpL r) ++ [']'] from rfl]
      intro hm
      rcases List.mem_cons.mp hm with hm | hm
      · simp at hm
      rcases List.mem_append.mp hm with hm | hm
      · rcases List.mem_append.mp hm with hm | hm
        · exact ih v (List.mem_cons_self _ _) hm
        · exact noNL_dumpL_of r (fun w hw => ih w (List.mem_cons_of_mem _ hw)) hm
      · simp at hm
  · intro l ih
    cases l with
    | nil => decide
    | cons p r =>
      rw [show dumpV (JVal.obj (p :: r)) =
        Char.ofNat 123 :: (dumpStr p.1 ++ ':' :: dumpV p.2 ++ dumpM r) ++ [Char.ofNat 125]
        from rfl]
      intro hm
      rcases List.mem_cons.mp hm with hm | hm
      · simp at hm
      rcases List.mem_append.mp hm with hm | hm
      · rcases List.mem_append.mp hm with hm | hm
        · rcases List.mem_append.mp hm with hm | hm
          · exact noNL_dumpStr p.1 hm
          rcases List.mem_cons.mp hm with hm | hm
          · simp at hm
          · exact ih p (List.mem_cons_self _ _) hm
        · exact noNL_dumpM_of r (fun q hq => ih q (List.mem_cons_of_mem _ hq)) hm
      · simp at hm

/-! ## The parser inverts `json.dumps` -/

theorem isPrefixOf_self_append : ∀ (a b : Str), a.isPrefixOf (a ++ b) = true := by
  intro a
  induction a with
  | nil =>
    intro b
    simp [List.isPrefixOf]
  | cons c r ih =>
    intro b
    show (c :: r).isPrefixOf (c :: (r ++ b)) = true
    rw [isPrefixOf_cons_cons]
    simp [ih b]

theorem escC_ne_nil (c : Char) : escC c ≠ [] := by
  rw [escC]
  by_cases h1 : c = '"'
  · rw [if_pos h1]; simp
  rw [if_neg h1]
  by_cases h2 : c = '\\'
  · rw [if_pos h2]; simp
  rw [if_neg h2]
  by_cases h3 : c = '\n'
  · rw [if_pos h3]; simp
  rw [if_neg h3]
  by_cases h4 : c = '\r'
  · rw [if_pos h4]; simp
  rw [if_neg h4]
  by_cases h5 : c = '\t'
  · rw [if_pos h5]; simp
  rw [if_neg h5]
  by_cases h6 : c.toNat = 8
  · rw [if_pos h6]; simp
  rw [if_neg h6]
  by_cases h7 : c.toNat = 12
  · rw [if_pos h7]; simp
  rw [if_neg h7]
  by_cases h8 : 32 ≤ c.toNat ∧ c.toNat ≤ 126
  · rw [if_pos h8]; simp
  rw [if_neg h8]
  by_cases h9 : c.toNat < 65536
  · rw [if_pos h9]; simp
  · rw [if_neg h9]; simp

theorem escStr_length : ∀ s : Str, s.length ≤ (escStr s).length := by
  intro s
  induction s with
  | nil => simp [escStr]
  | cons c r ih =>
    show (c :: r).length ≤ (escC c ++ escStr r).length
    have h1 : 1 ≤ (escC c).length := by
      have := escC_ne_nil c
      cases h : escC c with
      | nil => exact absurd h this
      | cons x t => simp
    simp only [List.length_cons, List.length_append]
    omega

/-- The separators that may legally follow a dumped value inside a larger
dump (or the end of input). -/
def sepOk (r : Str) : Prop :=
  r = [] ∨ (∃ t, r = ',' :: t) ∨ (∃ t, r = ']' :: t) ∨ (∃ t, r = Char.ofNat 125 :: t)

theorem mem_goodL {l : List JVal} (h : goodL l = true) : ∀ v ∈ l, goodV v = true := by
  induction l with
  | nil => intro v hv; cases hv
  | cons w r ih =>
    intro v hv
    rw [show goodL (w :: r) = (goodV w && goodL r) from rfl, Bool.and_eq_true] at h
    rcases List.mem_cons.mp hv with hv | hv
    · rw [hv]
      exact h.1
    · exact ih h.2 v hv

theorem mem_goodM {l : List (Str × JVal)} (h : goodM l = true) : ∀ p ∈ l, goodV p.2 = true := by
  induction l with
  | nil => intro p hp; cases hp
  | cons q r ih =>
    intro p hp
    rw [show goodM (q :: r) = (goodV q.2 && goodM r) from rfl, Bool.and_eq_true] at h
    rcases List.mem_cons.mp hp with hp | hp
    · rw [hp]
      exact h.1
    · exact ih h.2 p hp

/-- The first character of a dump: never whitespace and never `]`, so the
parser's whitespace skip and the empty-array check leave it alone. -/
theorem dumpV_head (v : JVal) (hg : goodV v = true) :
    ∃ c t, dumpV v = c :: t ∧ jws c = false ∧ c ≠ ']' := by
  cases v with
  | jnull => exact ⟨'n', _, rfl, by decide, by decide⟩
  | jbool b => cases b with
    | true => exact ⟨'t', _, rfl, by decide, by decide⟩
    | false => exact ⟨'f', _, rfl, by decide, by decide⟩
  | num n =>
    rw [show dumpV (JVal.num n) = dumpInt n from rfl, dumpInt]
    by_cases h : n < 0
    · rw [if_pos h]
      exact ⟨'-', _, rfl, by decide, by decide⟩
    · rw [if_neg h]
      obtain ⟨d, t, hdt⟩ : ∃ d t, toDec n.toNat = d :: t := by
        cases hh : toDec n.toNat with
        | nil => exact absurd hh (toDec_ne_nil _)
        | cons d t => exact ⟨d, t, rfl⟩
      have hd : isDigitCh d = true := by
        have h2 := toDec_all_digits n.toNat
        rw [hdt, List.all_cons, Bool.and_eq_true] at h2
        exact h2.1
      exact ⟨d, t, hdt, digit_not_jws hd, digit_ne_rbrack hd⟩
  | numF ng ip fp ex => simp [goodV] at hg
  | nan => exact ⟨'N', _, rfl, by decide, by decide⟩
  | inf b => cases b with
    | true => exact ⟨'-', _, rfl, by decide, by decide⟩
    | false => exact ⟨'I', _, rfl, by decide, by decide⟩
  | str s => exact ⟨'"', _, rfl, by decide, by decide⟩
  | arr l => cases l with
    | nil => exact ⟨'[', _, rfl, by decide, by decide⟩
    | cons v r => exact ⟨'[', _, rfl, by decide, by decide⟩
  | obj l => cases l with
    | nil => exact ⟨Char.ofNat 123, _, rfl, by decide, by decide⟩
    | cons p r => exact ⟨Char.ofNat 123, _, rfl, by decide, by decide⟩

theorem skipWs_cons_of (c : Char) (t : Str) (h : jws c = false) : skipWs (c :: t) = c :: t := by
  simp [skipWs, List.dropWhile_cons, h]

theorem digit_ne_chars {d : Char} (hd : isDigitCh d = true) :
    d ≠ Char.ofNat 123 ∧ d ≠ '[' ∧ d ≠ '"' ∧ d ≠ 't' ∧ d ≠ 'f' ∧ d ≠ 'n' ∧ d ≠ 'N' ∧
    d ≠ 'I' ∧ d ≠ '-' ∧ d ≠ '.' ∧ d ≠ 'e' ∧ d ≠ 'E' := by
  refine ⟨?_, ?_, ?_, ?_, ?_, ?_, ?_, ?_, ?_, ?_, ?_, ?_⟩ <;>
    first
    | (intro he; rw [he] at hd; exact absurd hd (by decide))

/-- A digit reaches the number branch of the value parser. -/
theorem parseV_digit (f : Nat) (d : Char) (hd : isDigitCh d = true) (t : Str) :
    parseV (f + 1) (d :: t) = parseNum (d :: t) := by
  obtain ⟨e1, e2, e3, e4, e5, e6, e7, e8, e9, _, _, _⟩ := digit_ne_chars hd
  simp only [parseV]
  rw [if_neg e1, if_neg e2, if_neg e3, if_neg e4, if_neg e5, if_neg e6, if_neg e7,
    if_neg e8, if_neg e9, if_pos hd]

/-- A minus followed by a digit reaches the number branch (it is not
`-Infinity`). -/
theorem parseV_minus_digit (f : Nat) (d : Char) (hd : isDigitCh d = true) (t : Str) :
    parseV (f + 1) ('-' :: d :: t) = parseNum ('-' :: d :: t) := by
  obtain ⟨_, _, _, _, _, _, _, e8, _, _, _, _⟩ := digit_ne_chars hd
  simp only [parseV]
  rw [if_neg (by decide), if_neg (by decide), if_neg (by decide), if_neg (by decide),
    if_neg (by decide), if_neg (by decide), if_neg (by decide), if_neg (by decide)]
  rw [if_pos trivial]
  rw [show ("Infinity".toList.isPrefixOf (d :: t)) = false by
    rw [show "Infinity".toList = 'I' :: "nfinity".toList from rfl, isPrefixOf_cons_cons]
    simp [beq_eq_false_iff_ne]
    intro he
    exact absurd he.symm e8]
  rw [if_neg (by simp)]

theorem head_append_cons (D : Str) (hne : D ≠ []) :
    ∃ d D2, D = d :: D2 := by
  cases D with
  | nil => exact absurd rfl hne
  | cons d D2 => exact ⟨d, D2, rfl⟩

/-- The number scanner on a dumped integer followed by a separator. -/
theorem parseNum_int (neg : Bool) (D : Str) (hne : D ≠ []) (hall : D.all isDigitCh = true)
    (rest : Str)
    (hx : ∀ x, rest.head? = some x →
      isDigitCh x = false ∧ x ≠ '.' ∧ x ≠ 'e' ∧ x ≠ 'E' ∧ x ≠ '-') :
    parseNum ((if neg then ['-'] else []) ++ (D ++ rest)) =
      some (JVal.num (if neg then -(Int.ofNat (parseDec D)) else Int.ofNat (parseDec D)),
        rest) := by
  obtain ⟨d, D2, rfl⟩ := head_append_cons D hne
  have hd : isDigitCh d = true := by
    rw [List.all_cons, Bool.and_eq_true] at hall
    exact hall.1
  have hdm : ∀ x ∈ d :: D2, isDigitCh x = true := by
    rw [← List.all_eq_true]
    exact hall
  have htk : ((d :: D2) ++ rest).takeWhile isDigitCh = d :: D2 :=
    takeWhile_append_all _ _ hdm (fun x hhx => ((hx x hhx).1))
  have hdr : ((d :: D2) ++ rest).drop (d :: D2).length = rest := List.drop_left _ _
  have hrest1 : ¬ (rest.head? = some '.') := fun hh => (hx _ hh).2.1 rfl
  have hrest2 : ¬ (rest.head? = some 'e' ∨ rest.head? = some 'E') := by
    intro hh
    rcases hh with hh | hh
    · exact (hx _ hh).2.2.1 rfl
    · exact (hx _ hh).2.2.2.1 rfl
  have hneg : decide ((d :: D2 ++ rest).head? = some '-') = false := by
    simp only [List.cons_append, List.head?_cons, Option.some.injEq, decide_eq_false_iff_not]
    intro he
    rw [he] at hd
    exact absurd hd (by decide)
  cases neg with
  | false =>
    show parseNum ((d :: D2) ++ rest) = some (JVal.num (Int.ofNat (parseDec (d :: D2))), rest)
    simp only [parseNum, hneg, Bool.false_eq_true, if_false]
    rw [htk, if_neg hne, hdr]
    rw [if_neg hrest1, if_neg hrest2]
    rw [if_pos ⟨rfl, rfl⟩]
  | true =>
    show parseNum ('-' :: ((d :: D2) ++ rest)) =
      some (JVal.num (-(Int.ofNat (parseDec (d :: D2)))), rest)
    have hneg2 : decide (('-' :: (d :: D2 ++ rest)).head? = some '-') = true := by
      simp
    simp only [parseNum, hneg2, if_true, List.drop_one, List.tail_cons]
    rw [htk, if_neg hne, hdr]
    rw [if_neg hrest1, if_neg hrest2]
    rw [if_pos ⟨rfl, rfl⟩]

theorem sepOk_head (rest : Str) (hsep : sepOk rest) :
    ∀ x, rest.head? = some x →
      isDigitCh x = false ∧ x ≠ '.' ∧ x ≠ 'e' ∧ x ≠ 'E' ∧ x ≠ '-' := by
  rcases hsep with rfl | ⟨t, rfl⟩ | ⟨t, rfl⟩ | ⟨t, rfl⟩ <;>
    intro x hx
  · cases hx
  · injection hx with h
    rw [← h]
    exact ⟨by decide, by decide, by decide, by decide, by decide⟩
  · injection hx with h
    rw [← h]
    exact ⟨by decide, by decide, by decide, by decide, by decide⟩
  · injection hx with h
    rw [← h]
    exact ⟨by decide, by decide, by decide, by decide, by decide⟩

theorem parseNum_dumpInt (n : Int) (rest : Str) (hsep : sepOk rest) :
    parseNum (dumpInt n ++ rest) = some (JVal.num n, rest) := by
  have hx := sepOk_head rest hsep
  by_cases h : n < 0
  · have h2 : parseNum ('-' :: (toDec n.natAbs ++ rest)) =
        some (JVal.num (-(Int.ofNat (parseDec (toDec n.natAbs)))), rest) :=
      parseNum_int true (toDec n.natAbs) (toDec_ne_nil _) (toDec_all_digits _) rest hx
    rw [parseDec_toDec] at h2
    rw [show -(Int.ofNat n.natAbs) = n by
      rw [Int.ofNat_eq_natCast]
      omega] at h2
    rw [dumpInt, if_pos h]
    show parseNum ('-' :: (toDec n.natAbs ++ rest)) = _
    exact h2
  · have h2 : parseNum (toDec n.toNat ++ rest) =
        some (JVal.num (Int.ofNat (parseDec (toDec n.toNat))), rest) :=
      parseNum_int false (toDec n.toNat) (toDec_ne_nil _) (toDec_all_digits _) rest hx
    rw [parseDec_toDec] at h2
    rw [show Int.ofNat n.toNat = n by
      rw [Int.ofNat_eq_natCast]
      omega] at h2
    rw [dumpInt, if_neg h]
    exact h2

/-- The value parser on a dumped integer. -/
theorem parseV_dumpInt (n : Int) (g : Nat) (rest : Str) (hsep : sepOk rest) :
    parseV (g + 1) (dumpInt n ++ rest) = some (JVal.num n, rest) := by
  by_cases h : n < 0
  · obtain ⟨d, t, hdt⟩ := head_append_cons (toDec n.natAbs) (toDec_ne_nil _)
    have hd : isDigitCh d = true := by
      have h2 := toDec_all_digits n.natAbs
      rw [hdt, List.all_cons, Bool.and_eq_true] at h2
      exact h2.1
    rw [dumpInt, if_pos h, hdt]
    show parseV (g + 1) ('-' :: d :: (t ++ rest)) = _
    rw [parseV_minus_digit g d hd (t ++ rest)]
    have h3 := parseNum_dumpInt n rest hsep
    rw [dumpInt, if_pos h, hdt] at h3
    exact h3
  · obtain ⟨d, t, hdt⟩ := head_append_cons (toDec n.toNat) (toDec_ne_nil _)
    have hd : isDigitCh d = true := by
      have h2 := toDec_all_digits n.toNat
      rw [hdt, List.all_cons, Bool.and_eq_true] at h2
      exact h2.1
    rw [dumpInt, if_neg h, hdt]
    show parseV (g + 1) (d :: (t ++ rest)) = _
    rw [parseV_digit g d hd (t ++ rest)]
    have h3 := parseNum_dumpInt n rest hsep
    rw [dumpInt, if_neg h, hdt] at h3
    exact h3

theorem sepOk_comma (t : Str) : sepOk (',' :: t) := Or.inr (Or.inl ⟨t, rfl⟩)

theorem sepOk_rbrack (t : Str) : sepOk (']' :: t) := Or.inr (Or.inr (Or.inl ⟨t, rfl⟩))

theorem sepOk_rbrace (t : Str) : sepOk (Char.ofNat 125 :: t) :=
  Or.inr (Or.inr (Or.inr ⟨t, rfl⟩))

/-- Array elements: the item loop of the parser consumes dumped elements
separated by commas up to the closing bracket. -/
theorem parseItems_dump (r : List JVal) :
    ∀ (v : JVal),
      (∀ w ∈ v :: r, goodV w = true) →
      (∀ w ∈ v :: r, ∀ f2, needV w ≤ f2 → ∀ rest2, sepOk rest2 →
        parseV f2 (dumpV w ++ rest2) = some (w, rest2)) →
      ∀ (f : Nat) (rest : Str), needI (v :: r) ≤ f → sepOk rest →
        parseItems f (dumpV v ++ (dumpL r ++ (']' :: rest))) = some (v :: r, rest) := by
  induction r with
  | nil =>
    intro v _ hP f rest hf _
    have h1 : needI [v] = 1 + max (needV v) 1 := rfl
    obtain ⟨f2, rfl⟩ : ∃ f2, f = f2 + 1 := ⟨f - 1, by omega⟩
    show parseItems (f2 + 1) (dumpV v ++ ([] ++ (']' :: rest))) = _
    rw [List.nil_append]
    have hv := hP v (List.mem_cons_self _ _) f2 (by omega) (']' :: rest) (sepOk_rbrack rest)
    simp only [parseItems, hv]
    rfl
  | cons w r2 ih =>
    intro v hg hP f rest hf hsep
    have h1 : needI (v :: w :: r2) = 1 + max (needV v) (needI (w :: r2)) := rfl
    have h2 : needI (w :: r2) = 1 + max (needV w) (needI r2) := rfl
    obtain ⟨f2, rfl⟩ : ∃ f2, f = f2 + 1 := ⟨f - 1, by omega⟩
    show parseItems (f2 + 1)
      (dumpV v ++ ((',' :: (dumpV w ++ dumpL r2)) ++ (']' :: rest))) = _
    rw [show ((',' :: (dumpV w ++ dumpL r2)) ++ (']' :: rest) : Str) =
      ',' :: ((dumpV w ++ dumpL r2) ++ (']' :: rest)) from rfl]
    have hv := hP v (List.mem_cons_self _ _) f2 (by omega)
      (',' :: ((dumpV w ++ dumpL r2) ++ (']' :: rest))) (sepOk_comma _)
    simp only [parseItems, hv]
    rw [skipWs_cons_of ',' _ (by decide)]
    obtain ⟨c0, t0, hct, hcw, _⟩ := dumpV_head w (hg w (List.mem_cons_of_mem _
      (List.mem_cons_self _ _)))
    have harg : skipWs ((dumpV w ++ dumpL r2) ++ (']' :: rest)) =
        (dumpV w ++ dumpL r2) ++ (']' :: rest) := by
      rw [hct]
      exact skipWs_cons_of c0 _ hcw
    show Option.map (fun pr => (v :: pr.1, pr.2))
      (parseItems f2 (skipWs ((dumpV w ++ dumpL r2) ++ (']' :: rest)))) =
      some (v :: w :: r2, rest)
    rw [harg, List.append_assoc]
    rw [ih w (fun x hx => hg x (List.mem_cons_of_mem _ hx))
      (fun x hx => hP x (List.mem_cons_of_mem _ hx)) f2 rest (by omega) hsep]
    rfl

/-- Object members: the member loop of the parser consumes dumped
key/value pairs separated by commas up to the closing brace. -/
theorem parseMems_dump (l : List (Str × JVal)) :
    ∀ (k : Str) (val : JVal),
      (∀ p ∈ (k, val) :: l, goodV p.2 = true) →
      (∀ p ∈ (k, val) :: l, ∀ f2, needV p.2 ≤ f2 → ∀ rest2, sepOk rest2 →
        parseV f2 (dumpV p.2 ++ rest2) = some (p.2, rest2)) →
      ∀ (f : Nat) (rest : Str), needM ((k, val) :: l) ≤ f → sepOk rest →
        parseMems f ('"' :: (escStr k ++ ('"' :: (':' :: (dumpV val ++
          (dumpM l ++ (Char.ofNat 125 :: rest))))))) = some ((k, val) :: l, rest) := by
  induction l with
  | nil =>
    intro k val hg hP f rest hf hsep
    have h1 : needM [(k, val)] = 1 + max (needV val) 1 := rfl
    obtain ⟨f2, rfl⟩ : ∃ f2, f = f2 + 1 := ⟨f - 1, by omega⟩
    have hme : (dumpM [] ++ (Char.ofNat 125 :: rest) : Str) = Char.ofNat 125 :: rest := rfl
    rw [hme]
    have hb : k.length < (escStr k ++ ('"' :: (':' :: (dumpV val ++ (Char.ofNat 125 :: rest))))).length + 1 := by
      have := escStr_length k
      simp only [List.length_append]
      omega
    have hstr := parseStr_escStr k _ hb (':' :: (dumpV val ++ (Char.ofNat 125 :: rest)))
    have hsw1 : skipWs (':' :: (dumpV val ++ (Char.ofNat 125 :: rest))) = ':' :: (dumpV val ++ (Char.ofNat 125 :: rest)) := skipWs_cons_of ':' _ (by decide)
    obtain ⟨c0, t0, hct, hcw, _⟩ := dumpV_head val (hg _ (List.mem_cons_self _ _))
    have harg : skipWs (dumpV val ++ (Char.ofNat 125 :: rest)) = dumpV val ++ (Char.ofNat 125 :: rest) := by
      rw [hct]
      exact skipWs_cons_of c0 _ hcw
    have hval : parseV f2 (dumpV val ++ (Char.ofNat 125 :: rest)) = some (val, Char.ofNat 125 :: rest) :=
      hP (k, val) (List.mem_cons_self _ _) f2 (show needV val ≤ f2 by omega)
        (Char.ofNat 125 :: rest) (sepOk_rbrace rest)
    have hsw2 : skipWs (Char.ofNat 125 :: rest) = Char.ofNat 125 :: rest :=
      skipWs_cons_of _ _ (by decide)
    simp only [parseMems, hstr, hsw1, harg, hval, hsw2]
    rfl
  | cons q l2 ih =>
    intro k val hg hP f rest hf hsep
    have h1 : needM ((k, val) :: q :: l2) = 1 + max (needV val) (needM (q :: l2)) := rfl
    have h2 : needM (q :: l2) = 1 + max (needV q.2) (needM l2) := rfl
    obtain ⟨f2, rfl⟩ : ∃ f2, f = f2 + 1 := ⟨f - 1, by omega⟩
    have hnorm : (dumpM (q :: l2) ++ (Char.ofNat 125 :: rest) : Str) =
        ',' :: ('"' :: (escStr q.1 ++ ('"' :: (':' :: (dumpV q.2 ++ (dumpM l2 ++ (Char.ofNat 125 :: rest))))))) := by
      rw [show dumpM (q :: l2) =
        ((',' :: dumpStr q.1) ++ (':' :: dumpV q.2)) ++ dumpM l2 from rfl, dumpStr]
      simp [List.append_assoc]
    rw [hnorm]
    have hb : k.length < (escStr k ++ ('"' :: (':' :: (dumpV val ++ (',' :: ('"' :: (escStr q.1 ++ ('"' :: (':' :: (dumpV q.2 ++ (dumpM l2 ++ (Char.ofNat 125 :: rest)))))))))))).length + 1 := by
      have := escStr_length k
      simp only [List.length_append]
      omega
    have hstr := parseStr_escStr k _ hb (':' :: (dumpV val ++ (',' :: ('"' :: (escStr q.1 ++ ('"' :: (':' :: (dumpV q.2 ++ (dumpM l2 ++ (Char.ofNat 125 :: rest))))))))))
    have hsw1 : skipWs (':' :: (dumpV val ++ (',' :: ('"' :: (escStr q.1 ++ ('"' :: (':' :: (dumpV q.2 ++ (dumpM l2 ++ (Char.ofNat 125 :: rest)))))))))) = ':' :: (dumpV val ++ (',' :: ('"' :: (escStr q.1 ++ ('"' :: (':' :: (dumpV q.2 ++ (dumpM l2 ++ (Char.ofNat 125 :: rest))))))))) := skipWs_cons_of ':' _ (by decide)
    obtain ⟨c0, t0, hct, hcw, _⟩ := dumpV_head val (hg _ (List.mem_cons_self _ _))
    have harg : skipWs (dumpV val ++ (',' :: ('"' :: (escStr q.1 ++ ('"' :: (':' :: (dumpV q.2 ++ (dumpM l2 ++ (Char.ofNat 125 :: rest))))))))) = dumpV val ++ (',' :: ('"' :: (escStr q.1 ++ ('"' :: (':' :: (dumpV q.2 ++ (dumpM l2 ++ (Char.ofNat 125 :: rest)))))))) := by
      rw [hct]
      exact skipWs_cons_of c0 _ hcw
    have hval := hP (k, val) (List.mem_cons_self _ _) f2 (show needV val ≤ f2 by omega)
      (',' :: ('"' :: (escStr q.1 ++ ('"' :: (':' :: (dumpV q.2 ++ (dumpM l2 ++ (Char.ofNat 125 :: rest)))))))) (sepOk_comma _)
    have hsw2 : skipWs (',' :: ('"' :: (escStr q.1 ++ ('"' :: (':' :: (dumpV q.2 ++ (dumpM l2 ++ (Char.ofNat 125 :: rest)))))))) = ',' :: ('"' :: (escStr q.1 ++ ('"' :: (':' :: (dumpV q.2 ++ (dumpM l2 ++ (Char.ofNat 125 :: rest))))))) :=
      skipWs_cons_of _ _ (by decide)
    have hsw3 : skipWs ('"' :: (escStr q.1 ++ ('"' :: (':' :: (dumpV q.2 ++ (dumpM l2 ++ (Char.ofNat 125 :: rest))))))) = '"' :: (escStr q.1 ++ ('"' :: (':' :: (dumpV q.2 ++ (dumpM l2 ++ (Char.ofNat 125 :: rest)))))) := skipWs_cons_of _ _ (by decide)
    have hmem : ∀ p ∈ (q.1, q.2) :: l2, p ∈ (k, val) :: q :: l2 := by
      intro p hp
      rcases List.mem_cons.mp hp with hp | hp
      · rw [hp]
        exact List.mem_cons_of_mem _ (List.mem_cons_self _ _)
      · exact List.mem_cons_of_mem _ (List.mem_cons_of_mem _ hp)
    have hih := ih q.1 q.2 (fun p hp => hg p (hmem p hp))
      (fun p hp => hP p (hmem p hp)) f2 rest
      (by simp only [Prod.mk.eta]; omega) hsep
    simp only [parseMems, hstr, hsw1, harg, hval, hsw2, hsw3, hih]
    rfl

/-- The value parser inverts `json.dumps` on float-free values, leaving
any legal separator tail untouched. -/
theorem parseV_dump : ∀ v : JVal, goodV v = true →
    ∀ f, needV v ≤ f → ∀ rest, sepOk rest →
      parseV f (dumpV v ++ rest) = some (v, rest) := by
  refine JVal.recM (fun v => goodV v = true → ∀ f, needV v ≤ f → ∀ rest, sepOk rest →
    parseV f (dumpV v ++ rest) = some (v, rest)) ?_ ?_ ?_ ?_ ?_ ?_ ?_ ?_ ?_
  · intro _ f hf rest _
    obtain ⟨g, rfl⟩ : ∃ g, f = g + 1 := ⟨f - 1, by
      have h1 : needV JVal.jnull = 1 := rfl
      omega⟩
    show parseV (g + 1) ('n' :: 'u' :: 'l' :: 'l' :: rest) = some (JVal.jnull, rest)
    simp [parseV, List.isPrefixOf]
  · intro b _ f hf rest _
    obtain ⟨g, rfl⟩ : ∃ g, f = g + 1 := ⟨f - 1, by
      have h1 : needV (JVal.jbool b) = 1 := rfl
      omega⟩
    cases b with
    | true =>
      show parseV (g + 1) ('t' :: 'r' :: 'u' :: 'e' :: rest) = some (JVal.jbool true, rest)
      simp [parseV, List.isPrefixOf]
    | false =>
      show parseV (g + 1) ('f' :: 'a' :: 'l' :: 's' :: 'e' :: rest) =
        some (JVal.jbool false, rest)
      simp [parseV, List.isPrefixOf]
  · intro n _ f hf rest hsep
    obtain ⟨g, rfl⟩ : ∃ g, f = g + 1 := ⟨f - 1, by
      have h1 : needV (JVal.num n) = 1 := rfl
      omega⟩
    show parseV (g + 1) (dumpInt n ++ rest) = some (JVal.num n, rest)
    exact parseV_dumpInt n g rest hsep
  · intro ng ip fp ex hg
    exact absurd hg (by simp [goodV])
  · intro _ f hf rest _
    obtain ⟨g, rfl⟩ : ∃ g, f = g + 1 := ⟨f - 1, by
      have h1 : needV JVal.nan = 1 := rfl
      omega⟩
    show parseV (g + 1) ('N' :: 'a' :: 'N' :: rest) = some (JVal.nan, rest)
    simp [parseV, List.isPrefixOf]
  · intro b _ f hf rest _
    obtain ⟨g, rfl⟩ : ∃ g, f = g + 1 := ⟨f - 1, by
      have h1 : needV (JVal.inf b) = 1 := rfl
      omega⟩
    cases b with
    | false =>
      show parseV (g + 1) ('I' :: ('n' :: 'f' :: 'i' :: 'n' :: 'i' :: 't' :: 'y' :: rest)) =
        some (JVal.inf false, rest)
      simp [parseV, List.isPrefixOf]
    | true =>
      show parseV (g + 1)
        ('-' :: ('I' :: 'n' :: 'f' :: 'i' :: 'n' :: 'i' :: 't' :: 'y' :: rest)) =
        some (JVal.inf true, rest)
      simp [parseV, List.isPrefixOf]
  · intro s _ f hf rest _
    obtain ⟨g, rfl⟩ : ∃ g, f = g + 1 := ⟨f - 1, by
      have h1 : needV (JVal.str s) = 1 := rfl
      omega⟩
    show parseV (g + 1) ('"' :: ((escStr s ++ ['"']) ++ rest)) = some (JVal.str s, rest)
    simp only [parseV]
    rw [if_neg (by decide), if_neg (by decide), if_pos trivial]
    have hX : ((escStr s ++ ['"']) ++ rest : Str) = escStr s ++ ('"' :: rest) := by
      simp
    rw [hX]
    rw [parseStr_escStr s _ (by
      have := escStr_length s
      simp only [List.length_append, List.length_cons]
      omega) rest]
    rfl
  · intro l ih hg f hf rest hsep
    cases l with
    | nil =>
      obtain ⟨g, rfl⟩ : ∃ g, f = g + 1 := ⟨f - 1, by
        have h1 : needV (JVal.arr []) = 1 + needI [] := rfl
        have h2 : needI ([] : List JVal) = 1 := rfl
        omega⟩
      show parseV (g + 1) ('[' :: (']' :: rest)) = some (JVal.arr [], rest)
      simp only [parseV]
      rw [if_neg (by decide), if_pos trivial]
      rw [skipWs_cons_of ']' rest (by decide)]
      simp
    | cons v r =>
      obtain ⟨g, rfl⟩ : ∃ g, f = g + 1 := ⟨f - 1, by
        have h1 : needV (JVal.arr (v :: r)) = 1 + needI (v :: r) := rfl
        omega⟩
      have hgl : ∀ w ∈ v :: r, goodV w = true :=
        mem_goodL (show goodL (v :: r) = true from hg)
      show parseV (g + 1) ('[' :: (((dumpV v ++ dumpL r) ++ [']']) ++ rest)) =
        some (JVal.arr (v :: r), rest)
      simp only [parseV]
      rw [if_neg (by decide), if_pos trivial]
      have hn : (((dumpV v ++ dumpL r) ++ [']']) ++ rest : Str) =
          dumpV v ++ (dumpL r ++ (']' :: rest)) := by
        simp
      rw [hn]
      obtain ⟨c0, t0, hct, hcw, hc0⟩ := dumpV_head v (hgl v (List.mem_cons_self _ _))
      have harg : skipWs (dumpV v ++ (dumpL r ++ (']' :: rest))) =
          dumpV v ++ (dumpL r ++ (']' :: rest)) := by
        rw [hct]
        exact skipWs_cons_of c0 _ hcw
      rw [harg, hct]
      show (if c0 = ']' then some (JVal.arr [], t0 ++ (dumpL r ++ (']' :: rest)))
        else (parseItems g (c0 :: (t0 ++ (dumpL r ++ (']' :: rest))))).map
          (fun pr => (JVal.arr pr.1, pr.2))) = some (JVal.arr (v :: r), rest)
      rw [if_neg hc0]
      rw [show (c0 :: (t0 ++ (dumpL r ++ (']' :: rest))) : Str) =
        dumpV v ++ (dumpL r ++ (']' :: rest)) by rw [hct]; rfl]
      rw [parseItems_dump r v hgl
        (fun w hw => ih w hw (hgl w hw)) g rest (by
          have h1 : needV (JVal.arr (v :: r)) = 1 + needI (v :: r) := rfl
          omega) hsep]
      rfl
  · intro l ih hg f hf rest hsep
    cases l with
    | nil =>
      obtain ⟨g, rfl⟩ : ∃ g, f = g + 1 := ⟨f - 1, by
        have h1 : needV (JVal.obj []) = 1 + needM [] := rfl
        have h2 : needM ([] : List (Str × JVal)) = 1 := rfl
        omega⟩
      show parseV (g + 1) (Char.ofNat 123 :: (Char.ofNat 125 :: rest)) =
        some (JVal.obj [], rest)
      simp only [parseV]
      rw [if_pos trivial]
      rw [skipWs_cons_of (Char.ofNat 125) rest (by decide)]
      simp
    | cons p r =>
      obtain ⟨g, rfl⟩ : ∃ g, f = g + 1 := ⟨f - 1, by
        have h1 : needV (JVal.obj (p :: r)) = 1 + needM (p :: r) := rfl
        omega⟩
      have hgm : ∀ q ∈ p :: r, goodV q.2 = true :=
        mem_goodM (show goodM (p :: r) = true from hg)
      show parseV (g + 1) (Char.ofNat 123 ::
        ((((dumpStr p.1 ++ (':' :: dumpV p.2)) ++ dumpM r) ++ [Char.ofNat 125]) ++ rest)) =
        some (JVal.obj (p :: r), rest)
      simp only [parseV]
      rw [if_pos trivial]
      have hn : (((((dumpStr p.1 ++ (':' :: dumpV p.2)) ++ dumpM r) ++ [Char.ofNat 125]) ++ rest) : Str) =
          '"' :: (escStr p.1 ++ ('"' :: (':' :: (dumpV p.2 ++
            (dumpM r ++ (Char.ofNat 125 :: rest)))))) := by
        rw [dumpStr]
        simp
      rw [hn]
      rw [skipWs_cons_of '"' _ (by decide)]
      show (if ('"' : Char) = Char.ofNat 125 then some (JVal.obj [], escStr p.1 ++ ('"' :: (':' :: (dumpV p.2 ++
            (dumpM r ++ (Char.ofNat 125 :: rest))))))
        else (parseMems g ('"' :: (escStr p.1 ++ ('"' :: (':' :: (dumpV p.2 ++
            (dumpM r ++ (Char.ofNat 125 :: rest)))))))).map
          (fun pr => (JVal.obj pr.1, pr.2))) = some (JVal.obj (p :: r), rest)
      rw [if_neg (by decide)]
      rw [show ((p : Str × JVal) :: r) = (p.1, p.2) :: r by rw [Prod.mk.eta]]
      rw [parseMems_dump r p.1 p.2
        (fun q hq => hgm q (by rwa [Prod.mk.eta] at hq))
        (fun q hq f2 hf2 rest2 hsep2 => ih q (by rwa [Prod.mk.eta] at hq) (hgm q
          (by rwa [Prod.mk.eta] at hq)) f2 hf2 rest2 hsep2) g rest (by
          have h1 : needV (JVal.obj (p :: r)) = 1 + needM (p :: r) := rfl
          simp only [Prod.mk.eta]
          omega) hsep]
      rfl

theorem needI_le_len (l : List JVal) (h : ∀ w ∈ l, needV w ≤ (dumpV w).length + 1) :
    needI l ≤ (dumpL l).length + 1 := by
  induction l with
  | nil =>
    have e1 : needI ([] : List JVal) = 1 := rfl
    have e2 : dumpL ([] : List JVal) = [] := rfl
    omega
  | cons v r ih =>
    have e1 : needI (v :: r) = 1 + max (needV v) (needI r) := rfl
    have e2 : dumpL (v :: r) = (',' :: dumpV v) ++ dumpL r := rfl
    have h1 := h v (List.mem_cons_self _ _)
    have h2 := ih (fun w hw => h w (List.mem_cons_of_mem _ hw))
    have hmax : max (needV v) (needI r) ≤ (dumpV v).length + (dumpL r).length + 1 := by
      rw [Nat.max_le]
      omega
    rw [e1, e2]
    simp only [List.length_append, List.length_cons]
    omega

theorem needM_le_len (l : List (Str × JVal)) (h : ∀ q ∈ l, needV q.2 ≤ (dumpV q.2).length + 1) :
    needM l ≤ (dumpM l).length + 1 := by
  induction l with
  | nil =>
    have e1 : needM ([] : List (Str × JVal)) = 1 := rfl
    have e2 : dumpM ([] : List (Str × JVal)) = [] := rfl
    omega
  | cons q r ih =>
    have e1 : needM (q :: r) = 1 + max (needV q.2) (needM r) := rfl
    have e2 : dumpM (q :: r) = ((',' :: dumpStr q.1) ++ (':' :: dumpV q.2)) ++ dumpM r := rfl
    have h1 := h q (List.mem_cons_self _ _)
    have h2 := ih (fun w hw => h w (List.mem_cons_of_mem _ hw))
    have hmax : max (needV q.2) (needM r) ≤ (dumpV q.2).length + (dumpM r).length + 1 := by
      rw [Nat.max_le]
      omega
    rw [e1, e2]
    simp only [List.length_append, List.length_cons]
    omega

theorem needV_le_len : ∀ v : JVal, needV v ≤ (dumpV v).length + 1 := by
  refine JVal.recM _ ?_ ?_ ?_ ?_ ?_ ?_ ?_ ?_ ?_
  · have e1 : needV JVal.jnull = 1 := rfl
    omega
  · intro b
    have e1 : needV (JVal.jbool b) = 1 := rfl
    omega
  · intro n
    have e1 : needV (JVal.num n) = 1 := rfl
    omega
  · intro ng ip fp ex
    have e1 : needV (JVal.numF ng ip fp ex) = 1 := rfl
    omega
  · have e1 : needV JVal.nan = 1 := rfl
    omega
  · intro b
    have e1 : needV (JVal.inf b) = 1 := rfl
    omega
  · intro s
    have e1 : needV (JVal.str s) = 1 := rfl
    omega
  · intro l ih
    have e1 : needV (JVal.arr l) = 1 + needI l := rfl
    have h2 := needI_le_len l ih
    cases l with
    | nil =>
      have e2 : needI ([] : List JVal) = 1 := rfl
      have e3 : (dumpV (JVal.arr [])).length = 2 := rfl
      omega
    | cons v r =>
      have e3 : (dumpV (JVal.arr (v :: r))).length =
          ((dumpV v).length + (dumpL r).length) + 2 := by
        rw [show dumpV (JVal.arr (v :: r)) = ('[' :: (dumpV v ++ dumpL r)) ++ [']'] from rfl]
        simp only [List.length_append, List.length_cons, List.length_nil]
        try omega
      have e4 : (dumpL (v :: r)).length = 1 + (dumpV v).length + (dumpL r).length := by
        rw [show dumpL (v :: r) = (',' :: dumpV v) ++ dumpL r from rfl]
        simp only [List.length_append, List.length_cons]
        try omega
      rw [e1, e3]
      rw [e4] at h2
      omega
  · intro l ih
    have e1 : needV (JVal.obj l) = 1 + needM l := rfl
    have h2 := needM_le_len l ih
    cases l with
    | nil =>
      have e2 : needM ([] : List (Str × JVal)) = 1 := rfl
      have e3 : (dumpV (JVal.obj [])).length = 2 := rfl
      omega
    | cons q r =>
      have e3 : (dumpV (JVal.obj (q :: r))).length =
          (dumpStr q.1).length + (dumpV q.2).length + (dumpM r).length + 3 := by
        rw [show dumpV (JVal.obj (q :: r)) =
          (Char.ofNat 123 :: ((dumpStr q.1 ++ (':' :: dumpV q.2)) ++ dumpM r)) ++
            [Char.ofNat 125] from rfl]
        simp only [List.length_append, List.length_cons, List.length_nil]
        try omega
      have e4 : (dumpM (q :: r)).length =
          (dumpStr q.1).length + (dumpV q.2).length + (dumpM r).length + 2 := by
        rw [show dumpM (q :: r) =
          ((',' :: dumpStr q.1) ++ (':' :: dumpV q.2)) ++ dumpM r from rfl]
        simp only [List.length_append, List.length_cons]
        try omega
      rw [e1, e3]
      rw [e4] at h2
      omega

/-- `json.loads` inverts `json.dumps` on float-free values. -/
theorem parseJ_dumps (v : JVal) (hg : goodV v = true) : parseJ (dumps v) = some v := by
  obtain ⟨c0, t0, hct, hcw, _⟩ := dumpV_head v hg
  have hins : skipWs (dumpV v) = dumpV v := by
    rw [hct]
    exact skipWs_cons_of c0 _ hcw
  have hp : parseV ((dumpV v).length + 1) (dumpV v ++ []) = some (v, []) :=
    parseV_dump v hg _ (by
      have := needV_le_len v
      omega) [] (Or.inl rfl)
  rw [List.append_nil] at hp
  show (match parseV ((dumpV v).length + 1) (skipWs (dumpV v)) with
    | some (v, r) => if skipWs r = [] then some v else none
    | none => none) = some v
  rw [hins, hp]
  rfl

/-! ## Exact removal of the fuzz block -/

theorem fuzzTail_false (w : Str) : ∀ u : Str, fuzzTail (u ++ ('\n' :: (w ++ [']']))) = false := by
  intro u
  induction u with
  | nil =>
    show fuzzTail ('\n' :: (w ++ [']'])) = false
    simp [fuzzTail]
  | cons x u2 ih =>
    show fuzzTail (x :: (u2 ++ ('\n' :: (w ++ [']'])))) = false
    rw [fuzzTail]
    by_cases hx : x = '\n'
    · rw [if_pos hx]
    · rw [if_neg hx]
      have hall : (u2 ++ ('\n' :: (w ++ [']']))).all isPySp = false := by
        by_contra hc
        rw [Bool.not_eq_false, List.all_eq_true] at hc
        have h2 := hc ']' (List.mem_append.mpr (Or.inr
          (List.mem_cons_of_mem _ (List.mem_append.mpr
            (Or.inr (List.mem_singleton.mpr rfl))))))
        exact absurd h2 (by decide)
      rw [hall, ih]
      simp

theorem fuzzTail_block (fb : Str) (hfb : '\n' ∉ fb) : fuzzTail (fb ++ [']']) = true := by
  induction fb with
  | nil => decide
  | cons c fb2 ih =>
    have hc : c ≠ '\n' := fun he => hfb (he ▸ List.mem_cons_self _ _)
    show fuzzTail (c :: (fb2 ++ [']'])) = true
    rw [fuzzTail, if_neg hc, ih (fun hm => hfb (List.mem_cons_of_mem _ hm))]
    simp

theorem fuzzBlock_eq (fb : Str) :
    fuzzBlock fb = '\n' :: '\n' :: '[' :: 'F' :: 'U' :: 'Z' :: 'Z' :: ':' :: (fb ++ [']']) := by
  show (('\n' :: '\n' :: "[FUZZ:".toList) ++ fb) ++ [']'] = _
  simp

theorem fuzzAt_block (fb : Str) (hfb : '\n' ∉ fb) : fuzzAt (fuzzBlock fb) = true := by
  rw [fuzzBlock_eq, fuzzAt]
  rw [show ("\n\n[FUZZ:".toList.isPrefixOf
    ('\n' :: '\n' :: '[' :: 'F' :: 'U' :: 'Z' :: 'Z' :: ':' :: (fb ++ [']']))) = true by
    simp [List.isPrefixOf]]
  rw [show (('\n' :: '\n' :: '[' :: 'F' :: 'U' :: 'Z' :: 'Z' :: ':' :: (fb ++ [']'])).drop 8 :
    Str) = fb ++ [']'] from rfl]
  rw [fuzzTail_block fb hfb]
  rfl

theorem fuzzAt_append_block : ∀ (body0 : Str), body0 ≠ [] → ∀ fb : Str,
    fuzzAt (body0 ++ fuzzBlock fb) = false := by
  intro body0 h0 fb
  match body0 with
  | [] => exact absurd rfl h0
  | [c1] =>
    rw [fuzzBlock_eq]
    show fuzzAt (c1 :: '\n' :: '\n' :: '[' :: 'F' :: 'U' :: 'Z' :: 'Z' :: ':' ::
      (fb ++ [']'])) = false
    rw [fuzzAt]
    rw [show ("\n\n[FUZZ:".toList.isPrefixOf (c1 :: '\n' :: '\n' :: '[' :: 'F' :: 'U' ::
      'Z' :: 'Z' :: ':' :: (fb ++ [']']))) = false by simp [List.isPrefixOf]]
    rfl
  | [c1, c2] =>
    rw [fuzzBlock_eq]
    show fuzzAt (c1 :: c2 :: '\n' :: '\n' :: '[' :: 'F' :: 'U' :: 'Z' :: 'Z' :: ':' ::
      (fb ++ [']'])) = false
    rw [fuzzAt]
    rw [show ("\n\n[FUZZ:".toList.isPrefixOf (c1 :: c2 :: '\n' :: '\n' :: '[' :: 'F' ::
      'U' :: 'Z' :: 'Z' :: ':' :: (fb ++ [']']))) = false by simp [List.isPrefixOf]]
    rfl
  | [c1, c2, c3] =>
    rw [fuzzBlock_eq]
    show fuzzAt (c1 :: c2 :: c3 :: '\n' :: '\n' :: '[' :: 'F' :: 'U' :: 'Z' :: 'Z' :: ':' ::
      (fb ++ [']'])) = false
    rw [fuzzAt]
    rw [show ("\n\n[FUZZ:".toList.isPrefixOf (c1 :: c2 :: c3 :: '\n' :: '\n' :: '[' :: 'F' ::
      'U' :: 'Z' :: 'Z' :: ':' :: (fb ++ [']']))) = false by simp [List.isPrefixOf]]
    rfl
  | [c1, c2, c3, c4] =>
    rw [fuzzBlock_eq]
    show fuzzAt (c1 :: c2 :: c3 :: c4 :: '\n' :: '\n' :: '[' :: 'F' :: 'U' :: 'Z' :: 'Z' ::
      ':' :: (fb ++ [']'])) = false
    rw [fuzzAt]
    rw [show ("\n\n[FUZZ:".toList.isPrefixOf (c1 :: c2 :: c3 :: c4 :: '\n' :: '\n' :: '[' ::
      'F' :: 'U' :: 'Z' :: 'Z' :: ':' :: (fb ++ [']']))) = false by simp [List.isPrefixOf]]
    rfl
  | [c1, c2, c3, c4, c5] =>
    rw [fuzzBlock_eq]
    show fuzzAt (c1 :: c2 :: c3 :: c4 :: c5 :: '\n' :: '\n' :: '[' :: 'F' :: 'U' :: 'Z' ::
      'Z' :: ':' :: (fb ++ [']'])) = false
    rw [fuzzAt]
    rw [show ("\n\n[FUZZ:".toList.isPrefixOf (c1 :: c2 :: c3 :: c4 :: c5 :: '\n' :: '\n' ::
      '[' :: 'F' :: 'U' :: 'Z' :: 'Z' :: ':' :: (fb ++ [']']))) = false by
      simp [List.isPrefixOf]]
    rfl
  | [c1, c2, c3, c4, c5, c6] =>
    rw [fuzzBlock_eq]
    show fuzzAt (c1 :: c2 :: c3 :: c4 :: c5 :: c6 :: '\n' :: '\n' :: '[' :: 'F' :: 'U' ::
      'Z' :: 'Z' :: ':' :: (fb ++ [']'])) = false
    rw [fuzzAt]
    rw [show ("\n\n[FUZZ:".toList.isPrefixOf (c1 :: c2 :: c3 :: c4 :: c5 :: c6 :: '\n' ::
      '\n' :: '[' :: 'F' :: 'U' :: 'Z' :: 'Z' :: ':' :: (fb ++ [']']))) = false by
      simp [List.isPrefixOf]]
    rfl
  | [c1, c2, c3, c4, c5, c6, c7] =>
    rw [fuzzBlock_eq]
    show fuzzAt (c1 :: c2 :: c3 :: c4 :: c5 :: c6 :: c7 :: '\n' :: '\n' :: '[' :: 'F' ::
      'U' :: 'Z' :: 'Z' :: ':' :: (fb ++ [']'])) = false
    rw [fuzzAt]
    rw [show ("\n\n[FUZZ:".toList.isPrefixOf (c1 :: c2 :: c3 :: c4 :: c5 :: c6 :: c7 ::
      '\n' :: '\n' :: '[' :: 'F' :: 'U' :: 'Z' :: 'Z' :: ':' :: (fb ++ [']']))) = false by
      simp [List.isPrefixOf]]
    rfl
  | c1 :: c2 :: c3 :: c4 :: c5 :: c6 :: c7 :: c8 :: t8 =>
    rw [fuzzBlock_eq]
    show fuzzAt (c1 :: c2 :: c3 :: c4 :: c5 :: c6 :: c7 :: c8 :: (t8 ++ ('\n' :: '\n' ::
      '[' :: 'F' :: 'U' :: 'Z' :: 'Z' :: ':' :: (fb ++ [']'])))) = false
    rw [fuzzAt]
    have htail : fuzzTail ((c1 :: c2 :: c3 :: c4 :: c5 :: c6 :: c7 :: c8 :: (t8 ++ ('\n' ::
        '\n' :: '[' :: 'F' :: 'U' :: 'Z' :: 'Z' :: ':' :: (fb ++ [']'])))).drop 8) = false := by
      show fuzzTail (t8 ++ ('\n' :: '\n' :: '[' :: 'F' :: 'U' :: 'Z' :: 'Z' :: ':' ::
        (fb ++ [']']))) = false
      have he : ('\n' :: '\n' :: '[' :: 'F' :: 'U' :: 'Z' :: 'Z' :: ':' ::
          (fb ++ [']']) : Str) =
          '\n' :: (('\n' :: '[' :: 'F' :: 'U' :: 'Z' :: 'Z' :: ':' :: fb) ++ [']']) := by
        simp
      rw [he]
      exact fuzzTail_false _ t8
    rw [htail]
    simp

theorem fuzzFind_append_block (fb : Str) (hfb : '\n' ∉ fb) :
    ∀ body0 : Str, fuzzFind (body0 ++ fuzzBlock fb) = some body0.length := by
  intro body0
  induction body0 with
  | nil =>
    rw [List.nil_append]
    obtain ⟨c, t, hct⟩ : ∃ c t, fuzzBlock fb = c :: t := by
      rw [fuzzBlock_eq]
      exact ⟨_, _, rfl⟩
    rw [hct, fuzzFind, ← hct, fuzzAt_block fb hfb]
    rfl
  | cons c b2 ih =>
    show fuzzFind (c :: (b2 ++ fuzzBlock fb)) = some (b2.length + 1)
    rw [fuzzFind]
    rw [show fuzzAt (c :: (b2 ++ fuzzBlock fb)) = false by
      rw [show (c :: (b2 ++ fuzzBlock fb) : Str) = (c :: b2) ++ fuzzBlock fb from rfl]
      exact fuzzAt_append_block (c :: b2) (by simp) fb]
    rw [if_neg (by simp)]
    rw [ih]
    rfl

/-- Appending the fuzz block and then running the defuzz regex is the
identity on the body: the appended block is the unique match. -/
theorem defuzz_append_block (body0 fb : Str) (hfb : '\n' ∉ fb) :
    defuzz (body0 ++ fuzzBlock fb) = body0 := by
  rw [defuzz, fuzzFind_append_block fb hfb body0]
  exact List.take_left _ _

/-! ## Splitting at the header newline, and the fallible decode scan -/

theorem substrIdx_nl (b : Str) :
    ∀ a : Str, '\n' ∉ a → substrIdx (a ++ ('\n' :: b)) ['\n'] = some a.length := by
  intro a
  induction a with
  | nil =>
    intro _
    rw [List.nil_append, substrIdx]
    rw [show (['\n'].isPrefixOf ('\n' :: b)) = true by simp [List.isPrefixOf]]
    rfl
  | cons c a2 ih =>
    intro hna
    have hc : c ≠ '\n' := fun he => hna (he ▸ List.mem_cons_self _ _)
    show substrIdx (c :: (a2 ++ ('\n' :: b))) ['\n'] = some (a2.length + 1)
    rw [substrIdx]
    rw [show (['\n'].isPrefixOf (c :: (a2 ++ ('\n' :: b)))) = false by
      simp [List.isPrefixOf, beq_eq_false_iff_ne]
      exact fun he => hc he.symm]
    rw [if_neg (by simp)]
    rw [ih (fun hm => hna (List.mem_cons_of_mem _ hm))]
    rfl

/-- `split('\n', 1)` on a newline-free header line followed by the body. -/
theorem splitFirstNL_header (a b : Str) (hna : '\n' ∉ a) :
    splitFirstNL (a ++ ('\n' :: b)) = some (a, b) := by
  rw [splitFirstNL, substrIdx_nl b a hna]
  have h1 : (a ++ ('\n' :: b)).take a.length = a := List.take_left _ _
  have h2 : (a ++ ('\n' :: b)).drop (a.length + 1) = b := by
    rw [show (a ++ ('\n' :: b) : Str) = (a ++ ['\n']) ++ b by simp]
    rw [show a.length + 1 = (a ++ ['\n']).length by simp]
    exact List.drop_left _ _
  show some ((a ++ ('\n' :: b)).take a.length, (a ++ ('\n' :: b)).drop (a.length + 1)) =
    some (a, b)
  rw [h1, h2]

/-- The fallible scan agrees with the total scan when the resolver always
succeeds. -/
theorem decodeOptAux_eq (Ro : Str → Option Str) (R : Str → Str)
    (hR : ∀ t, Ro t = some (R t)) :
    ∀ (f : Nat) (s : Str), decodeOptAux Ro f s = some (decodeAux R f s) := by
  intro f
  induction f with
  | zero =>
    intro s
    rfl
  | succ g ih =>
    intro s
    cases s with
    | nil => rfl
    | cons c rest =>
      by_cases hc : c = '~'
      · subst hc
        cases rest with
        | nil => rfl
        | cons d rest2 =>
          by_cases hd : d = '~'
          · subst hd
            show (match Ro ['~', '~'], decodeOptAux Ro g rest2 with
              | some w, some r => some (w ++ r)
              | _, _ => none) = some (decodeAux R (g + 1) ('~' :: '~' :: rest2))
            rw [hR, ih]
            rw [show decodeAux R (g + 1) ('~' :: '~' :: rest2) =
              R ['~', '~'] ++ decodeAux R g rest2 by
                show (if '~' = '~' then _ else _) = _
                simp [decodeAux]]
          · by_cases hsig : d = '^' ∨ d = '*'
            · show (if d = '~' then _
                else if d = '^' ∨ d = '*' then
                  if (rest2.takeWhile isAlnumCh).isEmpty then
                    (decodeOptAux Ro g (d :: rest2)).map (fun r => '~' :: r)
                  else
                    match Ro ('~' :: ([d] ++ rest2.takeWhile isAlnumCh)),
                        decodeOptAux Ro g (rest2.drop (rest2.takeWhile isAlnumCh).length) with
                    | some w, some r => some (w ++ r)
                    | _, _ => none
                else _) = some (decodeAux R (g + 1) ('~' :: d :: rest2))
              rw [if_neg hd, if_pos hsig]
              rw [show decodeAux R (g + 1) ('~' :: d :: rest2) =
                (if (rest2.takeWhile isAlnumCh).isEmpty then
                  '~' :: decodeAux R g (d :: rest2)
                else R ('~' :: ([d] ++ rest2.takeWhile isAlnumCh)) ++
                  decodeAux R g (rest2.drop (rest2.takeWhile isAlnumCh).length)) by
                  show (if '~' = '~' then _ else _) = _
                  simp [decodeAux, hd, hsig]]
              by_cases he : (rest2.takeWhile isAlnumCh).isEmpty
              · rw [if_pos he, if_pos he, ih]
                rfl
              · rw [if_neg he, if_neg he, hR, ih]
            · show (if d = '~' then _
                else if d = '^' ∨ d = '*' then _
                else
                  if ((d :: rest2).takeWhile isAlnumCh).isEmpty then
                    (decodeOptAux Ro g (d :: rest2)).map (fun r => '~' :: r)
                  else
                    match Ro ('~' :: (d :: rest2).takeWhile isAlnumCh),
                        decodeOptAux Ro g ((d :: rest2).drop
                          ((d :: rest2).takeWhile isAlnumCh).length) with
                    | some w, some r => some (w ++ r)
                    | _, _ => none) = some (decodeAux R (g + 1) ('~' :: d :: rest2))
              rw [if_neg hd, if_neg hsig]
              rw [show decodeAux R (g + 1) ('~' :: d :: rest2) =
                (if ((d :: rest2).takeWhile isAlnumCh).isEmpty then
                  '~' :: decodeAux R g (d :: rest2)
                else R ('~' :: (d :: rest2).takeWhile isAlnumCh) ++
                  decodeAux R g ((d :: rest2).drop
                    ((d :: rest2).takeWhile isAlnumCh).length)) by
                  show (if '~' = '~' then _ else _) = _
                  simp [decodeAux, hd, hsig]]
              by_cases he : ((d :: rest2).takeWhile isAlnumCh).isEmpty
              · rw [if_pos he, if_pos he, ih]
                rfl
              · rw [if_neg he, if_neg he, hR, ih]
      · show (if c = '~' then _ else (decodeOptAux Ro g rest).map (fun r => c :: r)) =
          some (decodeAux R (g + 1) (c :: rest))
        rw [if_neg hc]
        rw [show decodeAux R (g + 1) (c :: rest) = c :: decodeAux R g rest by
          simp [decodeAux, hc]]
        rw [ih]
        rfl

theorem decodeOpt_eq (Ro : Str → Option Str) (R : Str → Str)
    (hR : ∀ t, Ro t = some (R t)) (s : Str) :
    decodeOpt Ro s = some (decodeCore R s) :=
  decodeOptAux_eq Ro R hR s.length s

/-! ## Reading the compressed header back -/

theorem lookup_cons_step {β : Type} (k a : Str) (v : β) (r : List (Str × β)) :
    List.lookup k ((a, v) :: r) = if k == a then some v else List.lookup k r := by
  show (match k == a with | true => some v | false => List.lookup k r) = _
  cases h : (k == a) <;> simp [h]

theorem lookup_append_of_none {β : Type} (k : Str) (l1 l2 : List (Str × β))
    (h : List.lookup k l1 = none) : List.lookup k (l1 ++ l2) = List.lookup k l2 := by
  induction l1 with
  | nil => rfl
  | cons p r ih =>
    obtain ⟨a, v⟩ := p
    rw [List.cons_append, lookup_cons_step] at *
    by_cases hk : (k == a) = true
    · rw [if_pos hk] at h
      cases h
    · rw [if_neg hk] at h ⊢
      exact ih h

theorem lookup_append_of_some {β : Type} (k : Str) (l1 l2 : List (Str × β)) (v0 : β)
    (h : List.lookup k l1 = some v0) : List.lookup k (l1 ++ l2) = some v0 := by
  induction l1 with
  | nil => cases h
  | cons p r ih =>
    obtain ⟨a, v⟩ := p
    rw [List.cons_append, lookup_cons_step] at *
    by_cases hk : (k == a) = true
    · rw [if_pos hk] at h ⊢
      exact h
    · rw [if_neg hk] at h ⊢
      exact ih h

theorem lookup_map_str (k : Str) :
    ∀ m : List (Str × Str), List.lookup k (m.map (fun p => (p.1, JVal.str p.2))) =
      (List.lookup k m).map JVal.str := by
  intro m
  induction m with
  | nil => rfl
  | cons p r ih =>
    obtain ⟨a, v⟩ := p
    show List.lookup k ((a, JVal.str v) :: r.map _) = _
    rw [lookup_cons_step, lookup_cons_step]
    by_cases hk : (k == a) = true
    · rw [if_pos hk, if_pos hk]
      rfl
    · rw [if_neg hk, if_neg hk]
      exact ih

theorem jGet_objmap (m : List (Str × Str)) (k : Str) :
    jGet (m.map (fun p => (p.1, JVal.str p.2))) k = (dictGet m k).map JVal.str := by
  rw [jGet, dictGet]
  rw [show (m.map (fun p => (p.1, JVal.str p.2))).reverse =
    m.reverse.map (fun p => (p.1, JVal.str p.2)) by rw [List.map_reverse]]
  exact lookup_map_str k m.reverse

theorem resolveToken_fallback (m : List (Str × Str)) (gd td : List Str) (tok : Str)
    (hne : ¬ tok = ['~', '~']) (hdg : dictGet m tok = none) :
    resolveToken m gd td tok = tierFallback gd td tok := by
  unfold resolveToken tierFallback
  rw [if_neg hne, hdg]

theorem resolveToken_local (m : List (Str × Str)) (gd td : List Str) (tok w : Str)
    (hne : ¬ tok = ['~', '~']) (hdg : dictGet m tok = some w) :
    resolveToken m gd td tok = w := by
  unfold resolveToken
  rw [if_neg hne, hdg]

/-- `replace_func` over the header object built by `compress` computes
the pure resolver, and never raises. -/
theorem replaceF_resolve (gd td : List Str) (m : List (Str × Str)) (tok : Str) :
    replaceF gd td (JVal.obj (m.map (fun p => (p.1, JVal.str p.2)))) tok =
      some (resolveToken m gd td tok) := by
  by_cases hne : tok = ['~', '~']
  · subst hne
    unfold replaceF resolveToken
    rw [if_pos rfl, if_pos rfl]
  · unfold replaceF
    rw [if_neg hne]
    show (match jGet (m.map (fun p => (p.1, JVal.str p.2))) tok with
      | some (JVal.str w) => some w
      | some _ => none
      | none => some (tierFallback gd td tok)) = some (resolveToken m gd td tok)
    rw [jGet_objmap]
    cases hdg : dictGet m tok with
    | some w =>
      rw [resolveToken_local m gd td tok w hne hdg]
      rfl
    | none =>
      rw [resolveToken_fallback m gd td tok hne hdg]
      rfl

theorem goodM_append (a b : List (Str × JVal)) :
    goodM (a ++ b) = (goodM a && goodM b) := by
  induction a with
  | nil => simp [goodM]
  | cons p r ih =>
    rw [List.cons_append]
    rw [show goodM (p :: (r ++ b)) = (goodV p.2 && goodM (r ++ b)) from rfl]
    rw [show goodM (p :: r) = (goodV p.2 && goodM r) from rfl]
    rw [ih, Bool.and_assoc]

theorem goodM_map_str (m : List (Str × Str)) :
    goodM (m.map (fun p => (p.1, JVal.str p.2))) = true := by
  induction m with
  | nil => rfl
  | cons p r ih =>
    show goodM ((p.1, JVal.str p.2) :: r.map _) = true
    rw [show goodM ((p.1, JVal.str p.2) :: r.map (fun p => (p.1, JVal.str p.2))) =
      (goodV (JVal.str p.2) && goodM (r.map (fun p => (p.1, JVal.str p.2)))) from rfl]
    rw [ih]
    rfl

/-- `expand` after parsing the header `compress` wrote: defuzz exactly
removes the appended block and the token scan undoes the substitutions. -/
theorem expandHeader_correct (wc : Char → Bool) (H : WCHyps wc) (gd : List Str)
    (tdj : JVal → List Str) (text : Str) (L N : Nat) (hL : 2 ≤ L) (td : List Str)
    (hdr : List (Str × JVal)) (fuzzCoin : Bool) (fb : Str) (hfb : '\n' ∉ fb)
    (hf : jTruthyO (jGet hdr ("f".toList)) = fuzzCoin)
    (hfz : jGet hdr ("fuzzed".toList) = none)
    (hm : jGet hdr ("m".toList) = some (JVal.obj
      ((compressCore wc gd td text L N).2.map (fun q => (q.1, JVal.str q.2)))))
    (hext : (match jGet hdr ("ext".toList) with
      | some v => if jTruthy v then tdj v else []
      | none => []) = td) :
    expandHeader tdj gd hdr
      (if fuzzCoin then (compressCore wc gd td text L N).1 ++ fuzzBlock fb
       else (compressCore wc gd td text L N).1) = some text := by
  have hro : ∀ t, replaceF gd td (JVal.obj
      ((compressCore wc gd td text L N).2.map (fun q => (q.1, JVal.str q.2)))) t =
      some (resolveToken (compressCore wc gd td text L N).2 gd td t) :=
    replaceF_resolve gd td (compressCore wc gd td text L N).2
  have hdz : ∀ b0, defuzz (b0 ++ fuzzBlock fb) = b0 :=
    fun b0 => defuzz_append_block b0 fb hfb
  cases fuzzCoin with
  | true =>
    simp only [expandHeader, hf, hfz, hm, hext]
    show decodeOpt (replaceF gd td (JVal.obj
      ((compressCore wc gd td text L N).2.map (fun q => (q.1, JVal.str q.2)))))
      (defuzz ((compressCore wc gd td text L N).1 ++ fuzzBlock fb)) = some text
    rw [hdz, decodeOpt_eq _ _ hro, compressCore_decodes wc H gd td text L N hL]
  | false =>
    simp only [expandHeader, hf, hfz, hm, hext]
    show decodeOpt (replaceF gd td (JVal.obj
      ((compressCore wc gd td text L N).2.map (fun q => (q.1, JVal.str q.2)))))
      ((compressCore wc gd td text L N).1) = some text
    rw [decodeOpt_eq _ _ hro, compressCore_decodes wc H gd td text L N hL]

set_option maxHeartbeats 4000000 in
/-- `C1` (amended): with minimum candidate length at least 2 (the default
is 4), every compressed document expands back to the original text: for
every word-character predicate satisfying `WCHyps` (true of Python `\w`),
every global dictionary and `get_type_specific` oracle, every text
(including text containing `~`), fuzz coin, newline-free fuzz block, seed,
float-free metadata, extension, and cap, `expand (compress text) = text`. -/
theorem compress_expand_roundtrip (wc : Char → Bool) (H : WCHyps wc) (gd : List Str)
    (tdj : JVal → List Str) (text : Str) (fuzzCoin : Bool) (fb : Str) (hfb : '\n' ∉ fb)
    (seed : Int) (metadata : Option JVal)
    (hmd : ∀ mv, metadata = some mv → goodV mv = true)
    (fileExt : Option Str) (L N : Nat) (hL : 2 ≤ L) :
    expand tdj gd (compress wc gd tdj text fuzzCoin fb seed metadata fileExt L N) =
      some text := by
  rcases fileExt with _ | e
  ·
    rcases metadata with _ | mv
    ·
      cases fuzzCoin with
      | true =>
            simp only [compress]
            simp only [List.cons_append, List.nil_append, List.append_nil]
            rw [show (if True then (compressCore wc gd [] text L N).1 ++ fuzzBlock fb
              else (compressCore wc gd [] text L N).1) = (compressCore wc gd [] text L N).1 ++ fuzzBlock fb from rfl]
            rw [show (if True then [("f".toList, JVal.num 1), ("s".toList, JVal.num seed)]
              else ([] : List (Str × JVal))) =
              [("f".toList, JVal.num 1), ("s".toList, JVal.num seed)] from rfl]
            try simp only [List.cons_append, List.nil_append, List.append_nil]
            have hsplit := splitFirstNL_header (dumps (JVal.obj [("v".toList, JVal.str "1.2".toList),
              ("m".toList, JVal.obj ((compressCore wc gd [] text L N).2.map
                (fun q => (q.1, JVal.str q.2)))),
              ("f".toList, JVal.num 1), ("s".toList, JVal.num seed)])) ((compressCore wc gd [] text L N).1 ++ fuzzBlock fb) (noNL_dumpV _)
            have hgood : goodV (JVal.obj [("v".toList, JVal.str "1.2".toList),
              ("m".toList, JVal.obj ((compressCore wc gd [] text L N).2.map
                (fun q => (q.1, JVal.str q.2)))),
              ("f".toList, JVal.num 1), ("s".toList, JVal.num seed)]) = true := by
              have h1 := goodM_map_str (compressCore wc gd [] text L N).2
              simp [goodV, goodM, h1]
            have hparse := parseJ_dumps _ hgood
            simp only [expand, hsplit, hparse]
            exact expandHeader_correct wc H gd tdj text L N hL [] [("v".toList, JVal.str "1.2".toList),
              ("m".toList, JVal.obj ((compressCore wc gd [] text L N).2.map
                (fun q => (q.1, JVal.str q.2)))),
              ("f".toList, JVal.num 1), ("s".toList, JVal.num seed)] true fb hfb
              (by rfl) (by rfl) (by rfl) (by rfl)
      | false =>
            simp only [compress]
            simp only [List.cons_append, List.nil_append, List.append_nil]
            rw [show (if false = true then (compressCore wc gd [] text L N).1 ++ fuzzBlock fb
              else (compressCore wc gd [] text L N).1) = (compressCore wc gd [] text L N).1 from rfl]
            rw [show (if false = true then [("f".toList, JVal.num 1), ("s".toList, JVal.num seed)]
              else ([] : List (Str × JVal))) = ([] : List (Str × JVal)) from rfl]
            try simp only [List.cons_append, List.nil_append, List.append_nil]
            have hsplit := splitFirstNL_header (dumps (JVal.obj [("v".toList, JVal.str "1.2".toList),
              ("m".toList, JVal.obj ((compressCore wc gd [] text L N).2.map
                (fun q => (q.1, JVal.str q.2))))])) ((compressCore wc gd [] text L N).1) (noNL_dumpV _)
            have hgood : goodV (JVal.obj [("v".toList, JVal.str "1.2".toList),
              ("m".toList, JVal.obj ((compressCore wc gd [] text L N).2.map
                (fun q => (q.1, JVal.str q.2))))]) = true := by
              have h1 := goodM_map_str (compressCore wc gd [] text L N).2
              simp [goodV, goodM, h1]
            have hparse := parseJ_dumps _ hgood
            simp only [expand, hsplit, hparse]
            exact expandHeader_correct wc H gd tdj text L N hL [] [("v".toList, JVal.str "1.2".toList),
              ("m".toList, JVal.obj ((compressCore wc gd [] text L N).2.map
                (fun q => (q.1, JVal.str q.2))))] false fb hfb
              (by rfl) (by rfl) (by rfl) (by rfl)
    · cases htv : jTruthy mv with
      | true =>
        cases fuzzCoin with
        | true =>
              simp only [compress]
              simp only [List.cons_append, List.nil_append, List.append_nil]
              rw [htv]
              rw [show (if true = true then [("meta".toList, mv)]
                else ([] : List (Str × JVal))) = [("meta".toList, mv)] from rfl]
              rw [show (if True then (compressCore wc gd [] text L N).1 ++ fuzzBlock fb
                else (compressCore wc gd [] text L N).1) = (compressCore wc gd [] text L N).1 ++ fuzzBlock fb from rfl]
              rw [show (if True then [("f".toList, JVal.num 1), ("s".toList, JVal.num seed)]
                else ([] : List (Str × JVal))) =
                [("f".toList, JVal.num 1), ("s".toList, JVal.num seed)] from rfl]
              try simp only [List.cons_append, List.nil_append, List.append_nil]
              have hsplit := splitFirstNL_header (dumps (JVal.obj [("v".toList, JVal.str "1.2".toList),
                ("m".toList, JVal.obj ((compressCore wc gd [] text L N).2.map
                  (fun q => (q.1, JVal.str q.2)))),
                ("f".toList, JVal.num 1), ("s".toList, JVal.num seed),
                ("meta".toList, mv)])) ((compressCore wc gd [] text L N).1 ++ fuzzBlock fb) (noNL_dumpV _)
              have hgood : goodV (JVal.obj [("v".toList, JVal.str "1.2".toList),
                ("m".toList, JVal.obj ((compressCore wc gd [] text L N).2.map
                  (fun q => (q.1, JVal.str q.2)))),
                ("f".toList, JVal.num 1), ("s".toList, JVal.num seed),
                ("meta".toList, mv)]) = true := by
                have h1 := goodM_map_str (compressCore wc gd [] text L N).2
                have hgm := hmd mv rfl
                simp [goodV, goodM, h1, hgm]
              have hparse := parseJ_dumps _ hgood
              simp only [expand, hsplit, hparse]
              exact expandHeader_correct wc H gd tdj text L N hL [] [("v".toList, JVal.str "1.2".toList),
                ("m".toList, JVal.obj ((compressCore wc gd [] text L N).2.map
                  (fun q => (q.1, JVal.str q.2)))),
                ("f".toList, JVal.num 1), ("s".toList, JVal.num seed),
                ("meta".toList, mv)] true fb hfb
                (by rfl) (by rfl) (by rfl) (by rfl)
        | false =>
              simp only [compress]
              simp only [List.cons_append, List.nil_append, List.append_nil]
              rw [htv]
              rw [show (if true = true then [("meta".toList, mv)]
                else ([] : List (Str × JVal))) = [("meta".toList, mv)] from rfl]
              rw [show (if false = true then (compressCore wc gd [] text L N).1 ++ fuzzBlock fb
                else (compressCore wc gd [] text L N).1) = (compressCore wc gd [] text L N).1 from rfl]
              rw [show (if false = true then [("f".toList, JVal.num 1), ("s".toList, JVal.num seed)]
                else ([] : List (Str × JVal))) = ([] : List (Str × JVal)) from rfl]
              try simp only [List.cons_append, List.nil_append, List.append_nil]
              have hsplit := splitFirstNL_header (dumps (JVal.obj [("v".toList, JVal.str "1.2".toList),
                ("m".toList, JVal.obj ((compressCore wc gd [] text L N).2.map
                  (fun q => (q.1, JVal.str q.2)))),
                ("meta".toList, mv)])) ((compressCore wc gd [] text L N).1) (noNL_dumpV _)
              have hgood : goodV (JVal.obj [("v".toList, JVal.str "1.2".toList),
                ("m".toList, JVal.obj ((compressCore wc gd [] text L N).2.map
                  (fun q => (q.1, JVal.str q.2)))),
                ("meta".toList, mv)]) = true := by
                have h1 := goodM_map_str (compressCore wc gd [] text L N).2
                have hgm := hmd mv rfl
                simp [goodV, goodM, h1, hgm]
              have hparse := parseJ_dumps _ hgood
              simp only [expand, hsplit, hparse]
              exact expandHeader_correct wc H gd tdj text L N hL [] [("v".toList, JVal.str "1.2".toList),
                ("m".toList, JVal.obj ((compressCore wc gd [] text L N).2.map
                  (fun q => (q.1, JVal.str q.2)))),
                ("meta".toList, mv)] false fb hfb
                (by rfl) (by rfl) (by rfl) (by rfl)
      | false =>
        cases fuzzCoin with
        | true =>
              simp only [compress]
              simp only [List.cons_append, List.nil_append, List.append_nil]
              rw [htv]
              rw [show (if false = true then [("meta".toList, mv)]
                else ([] : List (Str × JVal))) = ([] : List (Str × JVal)) from rfl]
              rw [show (if True then (compressCore wc gd [] text L N).1 ++ fuzzBlock fb
                else (compressCore wc gd [] text L N).1) = (compressCore wc gd [] text L N).1 ++ fuzzBlock fb from rfl]
              rw [show (if True then [("f".toList, JVal.num 1), ("s".toList, JVal.num seed)]
                else ([] : List (Str × JVal))) =
                [("f".toList, JVal.num 1), ("s".toList, JVal.num seed)] from rfl]
              try simp only [List.cons_append, List.nil_append, List.append_nil]
              have hsplit := splitFirstNL_header (dumps (JVal.obj [("v".toList, JVal.str "1.2".toList),
                ("m".toList, JVal.obj ((compressCore wc gd [] text L N).2.map
                  (fun q => (q.1, JVal.str q.2)))),
                ("f".toList, JVal.num 1), ("s".toList, JVal.num seed)])) ((compressCore wc gd [] text L N).1 ++ fuzzBlock fb) (noNL_dumpV _)
              have hgood : goodV (JVal.obj [("v".toList, JVal.str "1.2".toList),
                ("m".toList, JVal.obj ((compressCore wc gd [] text L N).2.map
                  (fun q => (q.1, JVal.str q.2)))),
                ("f".toList, JVal.num 1), ("s".toList, JVal.num seed)]) = true := by
                have h1 := goodM_map_str (compressCore wc gd [] text L N).2
                simp [goodV, goodM, h1]
              have hparse := parseJ_dumps _ hgood
              simp only [expand, hsplit, hparse]
              exact expandHeader_correct wc H gd tdj text L N hL [] [("v".toList, JVal.str "1.2".toList),
                ("m".toList, JVal.obj ((compressCore wc gd [] text L N).2.map
                  (fun q => (q.1, JVal.str q.2)))),
                ("f".toList, JVal.num 1), ("s".toList, JVal.num seed)] true fb hfb
                (by rfl) (by rfl) (by rfl) (by rfl)
        | false =>
              simp only [compress]
              simp only [List.cons_append, List.nil_append, List.append_nil]
              rw [htv]
              rw [show (if false = true then [("meta".toList, mv)]
                else ([] : List (Str × JVal))) = ([] : List (Str × JVal)) from rfl]
              rw [show (if false = true then (compressCore wc gd [] text L N).1 ++ fuzzBlock fb
                else (compressCore wc gd [] text L N).1) = (compressCore wc gd [] text L N).1 from rfl]
              rw [show (if false = true then [("f".toList, JVal.num 1), ("s".toList, JVal.num seed)]
                else ([] : List (Str × JVal))) = ([] : List (Str × JVal)) from rfl]
              try simp only [List.cons_append, List.nil_append, List.append_nil]
              have hsplit := splitFirstNL_header (dumps (JVal.obj [("v".toList, JVal.str "1.2".toList),
                ("m".toList, JVal.obj ((compressCore wc gd [] text L N).2.map
                  (fun q => (q.1, JVal.str q.2))))])) ((compressCore wc gd [] text L N).1) (noNL_dumpV _)
              have hgood : goodV (JVal.obj [("v".toList, JVal.str "1.2".toList),
                ("m".toList, JVal.obj ((compressCore wc gd [] text L N).2.map
                  (fun q => (q.1, JVal.str q.2))))]) = true := by
                have h1 := goodM_map_str (compressCore wc gd [] text L N).2
                simp [goodV, goodM, h1]
              have hparse := parseJ_dumps _ hgood
              simp only [expand, hsplit, hparse]
              exact expandHeader_correct wc H gd tdj text L N hL [] [("v".toList, JVal.str "1.2".toList),
                ("m".toList, JVal.obj ((compressCore wc gd [] text L N).2.map
                  (fun q => (q.1, JVal.str q.2))))] false fb hfb
                (by rfl) (by rfl) (by rfl) (by rfl)
  · by_cases he : e = []
    · subst he
      rcases metadata with _ | mv
      ·
        cases fuzzCoin with
        | true =>
              simp only [compress]
              simp only [List.cons_append, List.nil_append, List.append_nil]
              rw [show (if True then ([] : List Str) else tdj (JVal.str [])) =
                ([] : List Str) from rfl]
              rw [show (if True then ([] : List (Str × JVal))
                else [("ext".toList, JVal.str [])]) = ([] : List (Str × JVal)) from rfl]
              rw [show (if True then (compressCore wc gd [] text L N).1 ++ fuzzBlock fb
                else (compressCore wc gd [] text L N).1) = (compressCore wc gd [] text L N).1 ++ fuzzBlock fb from rfl]
              rw [show (if True then [("f".toList, JVal.num 1), ("s".toList, JVal.num seed)]
                else ([] : List (Str × JVal))) =
                [("f".toList, JVal.num 1), ("s".toList, JVal.num seed)] from rfl]
              try simp only [List.cons_append, List.nil_append, List.append_nil]
              have hsplit := splitFirstNL_header (dumps (JVal.obj [("v".toList, JVal.str "1.2".toList),
                ("m".toList, JVal.obj ((compressCore wc gd [] text L N).2.map
                  (fun q => (q.1, JVal.str q.2)))),
                ("f".toList, JVal.num 1), ("s".toList, JVal.num seed)])) ((compressCore wc gd [] text L N).1 ++ fuzzBlock fb) (noNL_dumpV _)
              have hgood : goodV (JVal.obj [("v".toList, JVal.str "1.2".toList),
                ("m".toList, JVal.obj ((compressCore wc gd [] text L N).2.map
                  (fun q => (q.1, JVal.str q.2)))),
                ("f".toList, JVal.num 1), ("s".toList, JVal.num seed)]) = true := by
                have h1 := goodM_map_str (compressCore wc gd [] text L N).2
                simp [goodV, goodM, h1]
              have hparse := parseJ_dumps _ hgood
              simp only [expand, hsplit, hparse]
              exact expandHeader_correct wc H gd tdj text L N hL [] [("v".toList, JVal.str "1.2".toList),
                ("m".toList, JVal.obj ((compressCore wc gd [] text L N).2.map
                  (fun q => (q.1, JVal.str q.2)))),
                ("f".toList, JVal.num 1), ("s".toList, JVal.num seed)] true fb hfb
                (by rfl) (by rfl) (by rfl) (by rfl)
        | false =>
              simp only [compress]
              simp only [List.cons_append, List.nil_append, List.append_nil]
              rw [show (if True then ([] : List Str) else tdj (JVal.str [])) =
                ([] : List Str) from rfl]
              rw [show (if True then ([] : List (Str × JVal))
                else [("ext".toList, JVal.str [])]) = ([] : List (Str × JVal)) from rfl]
              rw [show (if false = true then (compressCore wc gd [] text L N).1 ++ fuzzBlock fb
                else (compressCore wc gd [] text L N).1) = (compressCore wc gd [] text L N).1 from rfl]
              rw [show (if false = true then [("f".toList, JVal.num 1), ("s".toList, JVal.num seed)]
                else ([] : List (Str × JVal))) = ([] : List (Str × JVal)) from rfl]
              try simp only [List.cons_append, List.nil_append, List.append_nil]
              have hsplit := splitFirstNL_header (dumps (JVal.obj [("v".toList, JVal.str "1.2".toList),
                ("m".toList, JVal.obj ((compressCore wc gd [] text L N).2.map
                  (fun q => (q.1, JVal.str q.2))))])) ((compressCore wc gd [] text L N).1) (noNL_dumpV _)
              have hgood : goodV (JVal.obj [("v".toList, JVal.str "1.2".toList),
                ("m".toList, JVal.obj ((compressCore wc gd [] text L N).2.map
                  (fun q => (q.1, JVal.str q.2))))]) = true := by
                have h1 := goodM_map_str (compressCore wc gd [] text L N).2
                simp [goodV, goodM, h1]
              have hparse := parseJ_dumps _ hgood
              simp only [expand, hsplit, hparse]
              exact expandHeader_correct wc H gd tdj text L N hL [] [("v".toList, JVal.str "1.2".toList),
                ("m".toList, JVal.obj ((compressCore wc gd [] text L N).2.map
                  (fun q => (q.1, JVal.str q.2))))] false fb hfb
                (by rfl) (by rfl) (by rfl) (by rfl)
      · cases htv : jTruthy mv with
        | true =>
          cases fuzzCoin with
          | true =>
                simp only [compress]
                simp only [List.cons_append, List.nil_append, List.append_nil]
                rw [show (if True then ([] : List Str) else tdj (JVal.str [])) =
                  ([] : List Str) from rfl]
                rw [show (if True then ([] : List (Str × JVal))
                  else [("ext".toList, JVal.str [])]) = ([] : List (Str × JVal)) from rfl]
                rw [htv]
                rw [show (if true = true then [("meta".toList, mv)]
                  else ([] : List (Str × JVal))) = [("meta".toList, mv)] from rfl]
                rw [show (if True then (compressCore wc gd [] text L N).1 ++ fuzzBlock fb
                  else (compressCore wc gd [] text L N).1) = (compressCore wc gd [] text L N).1 ++ fuzzBlock fb from rfl]
                rw [show (if True then [("f".toList, JVal.num 1), ("s".toList, JVal.num seed)]
                  else ([] : List (Str × JVal))) =
                  [("f".toList, JVal.num 1), ("s".toList, JVal.num seed)] from rfl]
                try simp only [List.cons_append, List.nil_append, List.append_nil]
                have hsplit := splitFirstNL_header (dumps (JVal.obj [("v".toList, JVal.str "1.2".toList),
                  ("m".toList, JVal.obj ((compressCore wc gd [] text L N).2.map
                    (fun q => (q.1, JVal.str q.2)))),
                  ("f".toList, JVal.num 1), ("s".toList, JVal.num seed),
                  ("meta".toList, mv)])) ((compressCore wc gd [] text L N).1 ++ fuzzBlock fb) (noNL_dumpV _)
                have hgood : goodV (JVal.obj [("v".toList, JVal.str "1.2".toList),
                  ("m".toList, JVal.obj ((compressCore wc gd [] text L N).2.map
                    (fun q => (q.1, JVal.str q.2)))),
                  ("f".toList, JVal.num 1), ("s".toList, JVal.num seed),
                  ("meta".toList, mv)]) = true := by
                  have h1 := goodM_map_str (compressCore wc gd [] text L N).2
                  have hgm := hmd mv rfl
                  simp [goodV, goodM, h1, hgm]
                have hparse := parseJ_dumps _ hgood
                simp only [expand, hsplit, hparse]
                exact expandHeader_correct wc H gd tdj text L N hL [] [("v".toList, JVal.str "1.2".toList),
                  ("m".toList, JVal.obj ((compressCore wc gd [] text L N).2.map
                    (fun q => (q.1, JVal.str q.2)))),
                  ("f".toList, JVal.num 1), ("s".toList, JVal.num seed),
                  ("meta".toList, mv)] true fb hfb
                  (by rfl) (by rfl) (by rfl) (by rfl)
          | false =>
                simp only [compress]
                simp only [List.cons_append, List.nil_append, List.append_nil]
                rw [show (if True then ([] : List Str) else tdj (JVal.str [])) =
                  ([] : List Str) from rfl]
                rw [show (if True then ([] : List (Str × JVal))
                  else [("ext".toList, JVal.str [])]) = ([] : List (Str × JVal)) from rfl]
                rw [htv]
                rw [show (if true = true then [("meta".toList, mv)]
                  else ([] : List (Str × JVal))) = [("meta".toList, mv)] from rfl]
                rw [show (if false = true then (compressCore wc gd [] text L N).1 ++ fuzzBlock fb
                  else (compressCore wc gd [] text L N).1) = (compressCore wc gd [] text L N).1 from rfl]
                rw [show (if false = true then [("f".toList, JVal.num 1), ("s".toList, JVal.num seed)]
                  else ([] : List (Str × JVal))) = ([] : List (Str × JVal)) from rfl]
                try simp only [List.cons_append, List.nil_append, List.append_nil]
                have hsplit := splitFirstNL_header (dumps (JVal.obj [("v".toList, JVal.str "1.2".toList),
                  ("m".toList, JVal.obj ((compressCore wc gd [] text L N).2.map
                    (fun q => (q.1, JVal.str q.2)))),
                  ("meta".toList, mv)])) ((compressCore wc gd [] text L N).1) (noNL_dumpV _)
                have hgood : goodV (JVal.obj [("v".toList, JVal.str "1.2".toList),
                  ("m".toList, JVal.obj ((compressCore wc gd [] text L N).2.map
                    (fun q => (q.1, JVal.str q.2)))),
                  ("meta".toList, mv)]) = true := by
                  have h1 := goodM_map_str (compressCore wc gd [] text L N).2
                  have hgm := hmd mv rfl
                  simp [goodV, goodM, h1, hgm]
                have hparse := parseJ_dumps _ hgood
                simp only [expand, hsplit, hparse]
                exact expandHeader_correct wc H gd tdj text L N hL [] [("v".toList, JVal.str "1.2".toList),
                  ("m".toList, JVal.obj ((compressCore wc gd [] text L N).2.map
                    (fun q => (q.1, JVal.str q.2)))),
                  ("meta".toList, mv)] false fb hfb
                  (by rfl) (by rfl) (by rfl) (by rfl)
        | false =>
          cases fuzzCoin with
          | true =>
                simp only [compress]
                simp only [List.cons_append, List.nil_append, List.append_nil]
                rw [show (if True then ([] : List Str) else tdj (JVal.str [])) =
                  ([] : List Str) from rfl]
                rw [show (if True then ([] : List (Str × JVal))
                  else [("ext".toList, JVal.str [])]) = ([] : List (Str × JVal)) from rfl]
                rw [htv]
                rw [show (if false = true then [("meta".toList, mv)]
                  else ([] : List (Str × JVal))) = ([] : List (Str × JVal)) from rfl]
                rw [show (if True then (compressCore wc gd [] text L N).1 ++ fuzzBlock fb
                  else (compressCore wc gd [] text L N).1) = (compressCore wc gd [] text L N).1 ++ fuzzBlock fb from rfl]
                rw [show (if True then [("f".toList, JVal.num 1), ("s".toList, JVal.num seed)]
                  else ([] : List (Str × JVal))) =
                  [("f".toList, JVal.num 1), ("s".toList, JVal.num seed)] from rfl]
                try simp only [List.cons_append, List.nil_append, List.append_nil]
                have hsplit := splitFirstNL_header (dumps (JVal.obj [("v".toList, JVal.str "1.2".toList),
                  ("m".toList, JVal.obj ((compressCore wc gd [] text L N).2.map
                    (fun q => (q.1, JVal.str q.2)))),
                  ("f".toList, JVal.num 1), ("s".toList, JVal.num seed)])) ((compressCore wc gd [] text L N).1 ++ fuzzBlock fb) (noNL_dumpV _)
                have hgood : goodV (JVal.obj [("v".toList, JVal.str "1.2".toList),
                  ("m".toList, JVal.obj ((compressCore wc gd [] text L N).2.map
                    (fun q => (q.1, JVal.str q.2)))),
                  ("f".toList, JVal.num 1), ("s".toList, JVal.num seed)]) = true := by
                  have h1 := goodM_map_str (compressCore wc gd [] text L N).2
                  simp [goodV, goodM, h1]
                have hparse := parseJ_dumps _ hgood
                simp only [expand, hsplit, hparse]
                exact expandHeader_correct wc H gd tdj text L N hL [] [("v".toList, JVal.str "1.2".toList),
                  ("m".toList, JVal.obj ((compressCore wc gd [] text L N).2.map
                    (fun q => (q.1, JVal.str q.2)))),
                  ("f".toList, JVal.num 1), ("s".toList, JVal.num seed)] true fb hfb
                  (by rfl) (by rfl) (by rfl) (by rfl)
          | false =>
                simp only [compress]
                simp only [List.cons_append, List.nil_append, List.append_nil]
                rw [show (if True then ([] : List Str) else tdj (JVal.str [])) =
                  ([] : List Str) from rfl]
                rw [show (if True then ([] : List (Str × JVal))
                  else [("ext".toList, JVal.str [])]) = ([] : List (Str × JVal)) from rfl]
                rw [htv]
                rw [show (if false = true then [("meta".toList, mv)]
                  else ([] : List (Str × JVal))) = ([] : List (Str × JVal)) from rfl]
                rw [show (if false = true then (compressCore wc gd [] text L N).1 ++ fuzzBlock fb
                  else (compressCore wc gd [] text L N).1) = (compressCore wc gd [] text L N).1 from rfl]
                rw [show (if false = true then [("f".toList, JVal.num 1), ("s".toList, JVal.num seed)]
                  else ([] : List (Str × JVal))) = ([] : List (Str × JVal)) from rfl]
                try simp only [List.cons_append, List.nil_append, List.append_nil]
                have hsplit := splitFirstNL_header (dumps (JVal.obj [("v".toList, JVal.str "1.2".toList),
                  ("m".toList, JVal.obj ((compressCore wc gd [] text L N).2.map
                    (fun q => (q.1, JVal.str q.2))))])) ((compressCore wc gd [] text L N).1) (noNL_dumpV _)
                have hgood : goodV (JVal.obj [("v".toList, JVal.str "1.2".toList),
                  ("m".toList, JVal.obj ((compressCore wc gd [] text L N).2.map
                    (fun q => (q.1, JVal.str q.2))))]) = true := by
                  have h1 := goodM_map_str (compressCore wc gd [] text L N).2
                  simp [goodV, goodM, h1]
                have hparse := parseJ_dumps _ hgood
                simp only [expand, hsplit, hparse]
                exact expandHeader_correct wc H gd tdj text L N hL [] [("v".toList, JVal.str "1.2".toList),
                  ("m".toList, JVal.obj ((compressCore wc gd [] text L N).2.map
                    (fun q => (q.1, JVal.str q.2))))] false fb hfb
                  (by rfl) (by rfl) (by rfl) (by rfl)
    · obtain ⟨c, e2, rfl⟩ := head_append_cons e he
      rcases metadata with _ | mv
      ·
        cases fuzzCoin with
        | true =>
              simp only [compress]
              simp only [List.cons_append, List.nil_append, List.append_nil]
              rw [show (if (c :: e2 : Str) = [] then ([] : List Str)
                else tdj (JVal.str (c :: e2))) = tdj (JVal.str (c :: e2)) from rfl]
              rw [show (if (c :: e2 : Str) = [] then ([] : List (Str × JVal))
                else [("ext".toList, JVal.str (c :: e2))]) =
                [("ext".toList, JVal.str (c :: e2))] from rfl]
              rw [show (if True then (compressCore wc gd (tdj (JVal.str (c :: e2))) text L N).1 ++ fuzzBlock fb
                else (compressCore wc gd (tdj (JVal.str (c :: e2))) text L N).1) = (compressCore wc gd (tdj (JVal.str (c :: e2))) text L N).1 ++ fuzzBlock fb from rfl]
              rw [show (if True then [("f".toList, JVal.num 1), ("s".toList, JVal.num seed)]
                else ([] : List (Str × JVal))) =
                [("f".toList, JVal.num 1), ("s".toList, JVal.num seed)] from rfl]
              try simp only [List.cons_append, List.nil_append, List.append_nil]
              have hsplit := splitFirstNL_header (dumps (JVal.obj [("v".toList, JVal.str "1.2".toList),
                ("m".toList, JVal.obj ((compressCore wc gd (tdj (JVal.str (c :: e2))) text L N).2.map
                  (fun q => (q.1, JVal.str q.2)))),
                ("f".toList, JVal.num 1), ("s".toList, JVal.num seed),
                ("ext".toList, JVal.str (c :: e2))])) ((compressCore wc gd (tdj (JVal.str (c :: e2))) text L N).1 ++ fuzzBlock fb) (noNL_dumpV _)
              have hgood : goodV (JVal.obj [("v".toList, JVal.str "1.2".toList),
                ("m".toList, JVal.obj ((compressCore wc gd (tdj (JVal.str (c :: e2))) text L N).2.map
                  (fun q => (q.1, JVal.str q.2)))),
                ("f".toList, JVal.num 1), ("s".toList, JVal.num seed),
                ("ext".toList, JVal.str (c :: e2))]) = true := by
                have h1 := goodM_map_str (compressCore wc gd (tdj (JVal.str (c :: e2))) text L N).2
                simp [goodV, goodM, h1]
              have hparse := parseJ_dumps _ hgood
              simp only [expand, hsplit, hparse]
              exact expandHeader_correct wc H gd tdj text L N hL (tdj (JVal.str (c :: e2))) [("v".toList, JVal.str "1.2".toList),
                ("m".toList, JVal.obj ((compressCore wc gd (tdj (JVal.str (c :: e2))) text L N).2.map
                  (fun q => (q.1, JVal.str q.2)))),
                ("f".toList, JVal.num 1), ("s".toList, JVal.num seed),
                ("ext".toList, JVal.str (c :: e2))] true fb hfb
                (by rfl) (by rfl) (by rfl) (by rfl)
        | false =>
              simp only [compress]
              simp only [List.cons_append, List.nil_append, List.append_nil]
              rw [show (if (c :: e2 : Str) = [] then ([] : List Str)
                else tdj (JVal.str (c :: e2))) = tdj (JVal.str (c :: e2)) from rfl]
              rw [show (if (c :: e2 : Str) = [] then ([] : List (Str × JVal))
                else [("ext".toList, JVal.str (c :: e2))]) =
                [("ext".toList, JVal.str (c :: e2))] from rfl]
              rw [show (if false = true then (compressCore wc gd (tdj (JVal.str (c :: e2))) text L N).1 ++ fuzzBlock fb
                else (compressCore wc gd (tdj (JVal.str (c :: e2))) text L N).1) = (compressCore wc gd (tdj (JVal.str (c :: e2))) text L N).1 from rfl]
              rw [show (if false = true then [("f".toList, JVal.num 1), ("s".toList, JVal.num seed)]
                else ([] : List (Str × JVal))) = ([] : List (Str × JVal)) from rfl]
              try simp only [List.cons_append, List.nil_append, List.append_nil]
              have hsplit := splitFirstNL_header (dumps (JVal.obj [("v".toList, JVal.str "1.2".toList),
                ("m".toList, JVal.obj ((compressCore wc gd (tdj (JVal.str (c :: e2))) text L N).2.map
                  (fun q => (q.1, JVal.str q.2)))),
                ("ext".toList, JVal.str (c :: e2))])) ((compressCore wc gd (tdj (JVal.str (c :: e2))) text L N).1) (noNL_dumpV _)
              have hgood : goodV (JVal.obj [("v".toList, JVal.str "1.2".toList),
                ("m".toList, JVal.obj ((compressCore wc gd (tdj (JVal.str (c :: e2))) text L N).2.map
                  (fun q => (q.1, JVal.str q.2)))),
                ("ext".toList, JVal.str (c :: e2))]) = true := by
                have h1 := goodM_map_str (compressCore wc gd (tdj (JVal.str (c :: e2))) text L N).2
                simp [goodV, goodM, h1]
              have hparse := parseJ_dumps _ hgood
              simp only [expand, hsplit, hparse]
              exact expandHeader_correct wc H gd tdj text L N hL (tdj (JVal.str (c :: e2))) [("v".toList, JVal.str "1.2".toList),
                ("m".toList, JVal.obj ((compressCore wc gd (tdj (JVal.str (c :: e2))) text L N).2.map
                  (fun q => (q.1, JVal.str q.2)))),
                ("ext".toList, JVal.str (c :: e2))] false fb hfb
                (by rfl) (by rfl) (by rfl) (by rfl)
      · cases htv : jTruthy mv with
        | true =>
          cases fuzzCoin with
          | true =>
                simp only [compress]
                simp only [List.cons_append, List.nil_append, List.append_nil]
                rw [show (if (c :: e2 : Str) = [] then ([] : List Str)
                  else tdj (JVal.str (c :: e2))) = tdj (JVal.str (c :: e2)) from rfl]
                rw [show (if (c :: e2 : Str) = [] then ([] : List (Str × JVal))
                  else [("ext".toList, JVal.str (c :: e2))]) =
                  [("ext".toList, JVal.str (c :: e2))] from rfl]
                rw [htv]
                rw [show (if true = true then [("meta".toList, mv)]
                  else ([] : List (Str × JVal))) = [("meta".toList, mv)] from rfl]
                rw [show (if True then (compressCore wc gd (tdj (JVal.str (c :: e2))) text L N).1 ++ fuzzBlock fb
                  else (compressCore wc gd (tdj (JVal.str (c :: e2))) text L N).1) = (compressCore wc gd (tdj (JVal.str (c :: e2))) text L N).1 ++ fuzzBlock fb from rfl]
                rw [show (if True then [("f".toList, JVal.num 1), ("s".toList, JVal.num seed)]
                  else ([] : List (Str × JVal))) =
                  [("f".toList, JVal.num 1), ("s".toList, JVal.num seed)] from rfl]
                try simp only [List.cons_append, List.nil_append, List.append_nil]
                have hsplit := splitFirstNL_header (dumps (JVal.obj [("v".toList, JVal.str "1.2".toList),
                  ("m".toList, JVal.obj ((compressCore wc gd (tdj (JVal.str (c :: e2))) text L N).2.map
                    (fun q => (q.1, JVal.str q.2)))),
                  ("f".toList, JVal.num 1), ("s".toList, JVal.num seed),
                  ("meta".toList, mv),
                  ("ext".toList, JVal.str (c :: e2))])) ((compressCore wc gd (tdj (JVal.str (c :: e2))) text L N).1 ++ fuzzBlock fb) (noNL_dumpV _)
                have hgood : goodV (JVal.obj [("v".toList, JVal.str "1.2".toList),
                  ("m".toList, JVal.obj ((compressCore wc gd (tdj (JVal.str (c :: e2))) text L N).2.map
                    (fun q => (q.1, JVal.str q.2)))),
                  ("f".toList, JVal.num 1), ("s".toList, JVal.num seed),
                  ("meta".toList, mv),
                  ("ext".toList, JVal.str (c :: e2))]) = true := by
                  have h1 := goodM_map_str (compressCore wc gd (tdj (JVal.str (c :: e2))) text L N).2
                  have hgm := hmd mv rfl
                  simp [goodV, goodM, h1, hgm]
                have hparse := parseJ_dumps _ hgood
                simp only [expand, hsplit, hparse]
                exact expandHeader_correct wc H gd tdj text L N hL (tdj (JVal.str (c :: e2))) [("v".toList, JVal.str "1.2".toList),
                  ("m".toList, JVal.obj ((compressCore wc gd (tdj (JVal.str (c :: e2))) text L N).2.map
                    (fun q => (q.1, JVal.str q.2)))),
                  ("f".toList, JVal.num 1), ("s".toList, JVal.num seed),
                  ("meta".toList, mv),
                  ("ext".toList, JVal.str (c :: e2))] true fb hfb
                  (by rfl) (by rfl) (by rfl) (by rfl)
          | false =>
                simp only [compress]
                simp only [List.cons_append, List.nil_append, List.append_nil]
                rw [show (if (c :: e2 : Str) = [] then ([] : List Str)
                  else tdj (JVal.str (c :: e2))) = tdj (JVal.str (c :: e2)) from rfl]
                rw [show (if (c :: e2 : Str) = [] then ([] : List (Str × JVal))
                  else [("ext".toList, JVal.str (c :: e2))]) =
                  [("ext".toList, JVal.str (c :: e2))] from rfl]
                rw [htv]
                rw [show (if true = true then [("meta".toList, mv)]
                  else ([] : List (Str × JVal))) = [("meta".toList, mv)] from rfl]
                rw [show (if false = true then (compressCore wc gd (tdj (JVal.str (c :: e2))) text L N).1 ++ fuzzBlock fb
                  else (compressCore wc gd (tdj (JVal.str (c :: e2))) text L N).1) = (compressCore wc gd (tdj (JVal.str (c :: e2))) text L N).1 from rfl]
                rw [show (if false = true then [("f".toList, JVal.num 1), ("s".toList, JVal.num seed)]
                  else ([] : List (Str × JVal))) = ([] : List (Str × JVal)) from rfl]
                try simp only [List.cons_append, List.nil_append, List.append_nil]
                have hsplit := splitFirstNL_header (dumps (JVal.obj [("v".toList, JVal.str "1.2".toList),
                  ("m".toList, JVal.obj ((compressCore wc gd (tdj (JVal.str (c :: e2))) text L N).2.map
                    (fun q => (q.1, JVal.str q.2)))),
                  ("meta".toList, mv),
                  ("ext".toList, JVal.str (c :: e2))])) ((compressCore wc gd (tdj (JVal.str (c :: e2))) text L N).1) (noNL_dumpV _)
                have hgood : goodV (JVal.obj [("v".toList, JVal.str "1.2".toList),
                  ("m".toList, JVal.obj ((compressCore wc gd (tdj (JVal.str (c :: e2))) text L N).2.map
                    (fun q => (q.1, JVal.str q.2)))),
                  ("meta".toList, mv),
                  ("ext".toList, JVal.str (c :: e2))]) = true := by
                  have h1 := goodM_map_str (compressCore wc gd (tdj (JVal.str (c :: e2))) text L N).2
                  have hgm := hmd mv rfl
                  simp [goodV, goodM, h1, hgm]
                have hparse := parseJ_dumps _ hgood
                simp only [expand, hsplit, hparse]
                exact expandHeader_correct wc H gd tdj text L N hL (tdj (JVal.str (c :: e2))) [("v".toList, JVal.str "1.2".toList),
                  ("m".toList, JVal.obj ((compressCore wc gd (tdj (JVal.str (c :: e2))) text L N).2.map
                    (fun q => (q.1, JVal.str q.2)))),
                  ("meta".toList, mv),
                  ("ext".toList, JVal.str (c :: e2))] false fb hfb
                  (by rfl) (by rfl) (by rfl) (by rfl)
        | false =>
          cases fuzzCoin with
          | true =>
                simp only [compress]
                simp only [List.cons_append, List.nil_append, List.append_nil]
                rw [show (if (c :: e2 : Str) = [] then ([] : List Str)
                  else tdj (JVal.str (c :: e2))) = tdj (JVal.str (c :: e2)) from rfl]
                rw [show (if (c :: e2 : Str) = [] then ([] : List (Str × JVal))
                  else [("ext".toList, JVal.str (c :: e2))]) =
                  [("ext".toList, JVal.str (c :: e2))] from rfl]
                rw [htv]
                rw [show (if false = true then [("meta".toList, mv)]
                  else ([] : List (Str × JVal))) = ([] : List (Str × JVal)) from rfl]
                rw [show (if True then (compressCore wc gd (tdj (JVal.str (c :: e2))) text L N).1 ++ fuzzBlock fb
                  else (compressCore wc gd (tdj (JVal.str (c :: e2))) text L N).1) = (compressCore wc gd (tdj (JVal.str (c :: e2))) text L N).1 ++ fuzzBlock fb from rfl]
                rw [show (if True then [("f".toList, JVal.num 1), ("s".toList, JVal.num seed)]
                  else ([] : List (Str × JVal))) =
                  [("f".toList, JVal.num 1), ("s".toList, JVal.num seed)] from rfl]
                try simp only [List.cons_append, List.nil_append, List.append_nil]
                have hsplit := splitFirstNL_header (dumps (JVal.obj [("v".toList, JVal.str "1.2".toList),
                  ("m".toList, JVal.obj ((compressCore wc gd (tdj (JVal.str (c :: e2))) text L N).2.map
                    (fun q => (q.1, JVal.str q.2)))),
                  ("f".toList, JVal.num 1), ("s".toList, JVal.num seed),
                  ("ext".toList, JVal.str (c :: e2))])) ((compressCore wc gd (tdj (JVal.str (c :: e2))) text L N).1 ++ fuzzBlock fb) (noNL_dumpV _)
                have hgood : goodV (JVal.obj [("v".toList, JVal.str "1.2".toList),
                  ("m".toList, JVal.obj ((compressCore wc gd (tdj (JVal.str (c :: e2))) text L N).2.map
                    (fun q => (q.1, JVal.str q.2)))),
                  ("f".toList, JVal.num 1), ("s".toList, JVal.num seed),
                  ("ext".toList, JVal.str (c :: e2))]) = true := by
                  have h1 := goodM_map_str (compressCore wc gd (tdj (JVal.str (c :: e2))) text L N).2
                  simp [goodV, goodM, h1]
                have hparse := parseJ_dumps _ hgood
                simp only [expand, hsplit, hparse]
                exact expandHeader_correct wc H gd tdj text L N hL (tdj (JVal.str (c :: e2))) [("v".toList, JVal.str "1.2".toList),
                  ("m".toList, JVal.obj ((compressCore wc gd (tdj (JVal.str (c :: e2))) text L N).2.map
                    (fun q => (q.1, JVal.str q.2)))),
                  ("f".toList, JVal.num 1), ("s".toList, JVal.num seed),
                  ("ext".toList, JVal.str (c :: e2))] true fb hfb
                  (by rfl) (by rfl) (by rfl) (by rfl)
          | false =>
                simp only [compress]
                simp only [List.cons_append, List.nil_append, List.append_nil]
                rw [show (if (c :: e2 : Str) = [] then ([] : List Str)
                  else tdj (JVal.str (c :: e2))) = tdj (JVal.str (c :: e2)) from rfl]
                rw [show (if (c :: e2 : Str) = [] then ([] : List (Str × JVal))
                  else [("ext".toList, JVal.str (c :: e2))]) =
                  [("ext".toList, JVal.str (c :: e2))] from rfl]
                rw [htv]
                rw [show (if false = true then [("meta".toList, mv)]
                  else ([] : List (Str × JVal))) = ([] : List (Str × JVal)) from rfl]
                rw [show (if false = true then (compressCore wc gd (tdj (JVal.str (c :: e2))) text L N).1 ++ fuzzBlock fb
                  else (compressCore wc gd (tdj (JVal.str (c :: e2))) text L N).1) = (compressCore wc gd (tdj (JVal.str (c :: e2))) text L N).1 from rfl]
                rw [show (if false = true then [("f".toList, JVal.num 1), ("s".toList, JVal.num seed)]
                  else ([] : List (Str × JVal))) = ([] : List (Str × JVal)) from rfl]
                try simp only [List.cons_append, List.nil_append, List.append_nil]
                have hsplit := splitFirstNL_header (dumps (JVal.obj [("v".toList, JVal.str "1.2".toList),
                  ("m".toList, JVal.obj ((compressCore wc gd (tdj (JVal.str (c :: e2))) text L N).2.map
                    (fun q => (q.1, JVal.str q.2)))),
                  ("ext".toList, JVal.str (c :: e2))])) ((compressCore wc gd (tdj (JVal.str (c :: e2))) text L N).1) (noNL_dumpV _)
                have hgood : goodV (JVal.obj [("v".toList, JVal.str "1.2".toList),
                  ("m".toList, JVal.obj ((compressCore wc gd (tdj (JVal.str (c :: e2))) text L N).2.map
                    (fun q => (q.1, JVal.str q.2)))),
                  ("ext".toList, JVal.str (c :: e2))]) = true := by
                  have h1 := goodM_map_str (compressCore wc gd (tdj (JVal.str (c :: e2))) text L N).2
                  simp [goodV, goodM, h1]
                have hparse := parseJ_dumps _ hgood
                simp only [expand, hsplit, hparse]
                exact expandHeader_correct wc H gd tdj text L N hL (tdj (JVal.str (c :: e2))) [("v".toList, JVal.str "1.2".toList),
                  ("m".toList, JVal.obj ((compressCore wc gd (tdj (JVal.str (c :: e2))) text L N).2.map
                    (fun q => (q.1, JVal.str q.2)))),
                  ("ext".toList, JVal.str (c :: e2))] false fb hfb
                  (by rfl) (by rfl) (by rfl) (by rfl)


/-- The real Python word-character predicate `\w` satisfies all the
assumptions the round-trip development makes of it (restricted to ASCII,
which is all the token machinery touches). -/
theorem WCHyps_ascii : WCHyps asciiWordCh :=
  ⟨asciiWordCh_of_class, fun c hc => by simp [asciiWordCh, hc], by decide, by decide, by decide⟩

/-- A global dictionary of ten filler words followed by `hello`, so that
`hello` gets global index 10, whose base62 token is `~^a`. -/
def gdC : List Str :=
  ["wa".toList, "wb".toList, "wc".toList, "wd".toList, "we".toList,
   "wf".toList, "wg".toList, "wh".toList, "wi".toList, "wj".toList, "hello".toList]

set_option maxHeartbeats 2000000 in
/-- Claim `C1` counterexample: with `min_len = 1` (accepted by the code:
`min_len` is an arbitrary keyword parameter) the round-trip law fails.
In `"hello hello hello a a a"`, `hello` is replaced first by its global
token `~^a` (global index 10, base62 digit `a`); the later substitution
of the candidate `a` then rewrites the `a` inside every emitted `~^a`
token (both sides of that `a` are word boundaries), corrupting the body
to `~^~0 …`, which expands to `~^a ~^a ~^a a a a`, not the original. -/
theorem roundtrip_claim_counterexample :
    expand (fun _ => []) gdC
      (compress asciiWordCh gdC (fun _ => []) "hello hello hello a a a".toList
        false [] 42 none none 1 200)
      ≠ some "hello hello hello a a a".toList := by
  decide

/-- A closed instance of the amended round-trip law `C1`: tilde-containing
input, fuzzing on, metadata and extension present, default `min_len`. -/
theorem compress_expand_roundtrip_witness :
    expand (fun _ => []) ["print".toList]
      (compress asciiWordCh ["print".toList] (fun _ => []) "a~b".toList true
        "XYZT".toList 7 (some (JVal.num 5)) (some "py".toList) 4 200) =
      some "a~b".toList :=
  compress_expand_roundtrip asciiWordCh WCHyps_ascii ["print".toList] (fun _ => [])
    "a~b".toList true "XYZT".toList (by decide) 7 (some (JVal.num 5))
    (fun mv hm => by cases hm; rfl) (some "py".toList) 4 200 (by decide)

/-- Claim `C7` counterexample: `"5"` is valid JSON but not a JSON object,
so `json.loads` succeeds and `header.get` raises an uncaught
`AttributeError` (modelled by `none`); the input is *not* returned
unchanged, although its first line does not parse as a JSON header. -/
theorem expand_nonobject_header_counterexample :
    expand (fun _ => []) [] "5\nx".toList = none ∧
    expand (fun _ => []) [] "5\nx".toList ≠ some "5\nx".toList := by
  exact ⟨rfl, by decide⟩

/-- Claim `C7` (amended): `expand` returns the input unchanged in exactly
the two caught malformed cases — the input has no newline (the unpacking
of `text.split` raises `ValueError`), or the first line is not valid JSON
(`json.loads` raises `ValueError`).  A first line that is valid JSON but
not an object instead raises an uncaught `AttributeError` (see the
counterexample). -/
theorem expand_malformed_passthrough (tdj : JVal → List Str) (gd : List Str) (text : Str)
    (h : splitFirstNL text = none ∨
      ∃ p, splitFirstNL text = some p ∧ parseJ p.1 = none) :
    expand tdj gd text = some text := by
  rcases h with h | ⟨⟨hl, body⟩, h1, h2⟩
  · simp only [expand, h]
  · simp only [expand, h1, h2]

/-- Closed instances of the two amended `C7` cases: no newline at all,
and a first line that is not valid JSON. -/
theorem expand_malformed_passthrough_witness :
    expand (fun _ => []) [] "abc".toList = some "abc".toList ∧
    expand (fun _ => []) [] "oops\nbody".toList = some "oops\nbody".toList :=
  ⟨expand_malformed_passthrough (fun _ => []) [] "abc".toList (Or.inl (by rfl)),
   expand_malformed_passthrough (fun _ => []) [] "oops\nbody".toList
     (Or.inr ⟨("oops".toList, "body".toList), by rfl, by rfl⟩)⟩

theorem jGet_cons_ne (h : List (Str × JVal)) (k k2 : Str) (v : JVal)
    (hne : (k == k2) = false) : jGet ((k2, v) :: h) k = jGet h k := by
  simp only [jGet, List.reverse_cons]
  cases hg : List.lookup k h.reverse with
  | some w => rw [lookup_append_of_some k h.reverse [(k2, v)] w hg]
  | none =>
    rw [lookup_append_of_none k h.reverse [(k2, v)] hg, lookup_cons_step, hne]
    rfl

theorem jGet_cons_absent (h : List (Str × JVal)) (k : Str) (v : JVal)
    (hk : jGet h k = none) : jGet ((k, v) :: h) k = some v := by
  simp only [jGet, List.reverse_cons] at hk ⊢
  rw [lookup_append_of_none k h.reverse [(k, v)] hk, lookup_cons_step]
  simp

/-- Claim `C10`: the legacy header keys are accepted: in any header where
none of the four flag/mapping keys is otherwise bound, supplying the
local mapping under `"map"` instead of `"m"`, or the fuzz flag under
`"fuzzed"` instead of `"f"`, yields the same expansion of any body. -/
theorem expandHeader_legacy_keys (tdj : JVal → List Str) (gd : List Str)
    (h : List (Str × JVal)) (v : JVal) (body : Str)
    (hm : jGet h "m".toList = none) (hmap : jGet h "map".toList = none)
    (hf : jGet h "f".toList = none) (hfz : jGet h "fuzzed".toList = none) :
    (expandHeader tdj gd (("map".toList, v) :: h) body =
      expandHeader tdj gd (("m".toList, v) :: h) body) ∧
    (expandHeader tdj gd (("fuzzed".toList, v) :: h) body =
      expandHeader tdj gd (("f".toList, v) :: h) body) := by
  constructor
  · have e1 : jGet (("map".toList, v) :: h) "f".toList = none := by
      rw [jGet_cons_ne h _ _ v (by decide)]; exact hf
    have e2 : jGet (("map".toList, v) :: h) "fuzzed".toList = none := by
      rw [jGet_cons_ne h _ _ v (by decide)]; exact hfz
    have e3 : jGet (("map".toList, v) :: h) "m".toList = none := by
      rw [jGet_cons_ne h _ _ v (by decide)]; exact hm
    have e4 : jGet (("map".toList, v) :: h) "map".toList = some v :=
      jGet_cons_absent h _ v hmap
    have e5 : jGet (("map".toList, v) :: h) "ext".toList = jGet h "ext".toList :=
      jGet_cons_ne h _ _ v (by decide)
    have f1 : jGet (("m".toList, v) :: h) "f".toList = none := by
      rw [jGet_cons_ne h _ _ v (by decide)]; exact hf
    have f2 : jGet (("m".toList, v) :: h) "fuzzed".toList = none := by
      rw [jGet_cons_ne h _ _ v (by decide)]; exact hfz
    have f3 : jGet (("m".toList, v) :: h) "m".toList = some v :=
      jGet_cons_absent h _ v hm
    have f5 : jGet (("m".toList, v) :: h) "ext".toList = jGet h "ext".toList :=
      jGet_cons_ne h _ _ v (by decide)
    simp only [expandHeader, jTruthyO, e1, e2, e3, e4, e5, f1, f2, f3, f5]
  · have e1 : jGet (("fuzzed".toList, v) :: h) "f".toList = none := by
      rw [jGet_cons_ne h _ _ v (by decide)]; exact hf
    have e2 : jGet (("fuzzed".toList, v) :: h) "fuzzed".toList = some v :=
      jGet_cons_absent h _ v hfz
    have e3 : jGet (("fuzzed".toList, v) :: h) "m".toList = none := by
      rw [jGet_cons_ne h _ _ v (by decide)]; exact hm
    have e4 : jGet (("fuzzed".toList, v) :: h) "map".toList = none := by
      rw [jGet_cons_ne h _ _ v (by decide)]; exact hmap
    have e5 : jGet (("fuzzed".toList, v) :: h) "ext".toList = jGet h "ext".toList :=
      jGet_cons_ne h _ _ v (by decide)
    have f1 : jGet (("f".toList, v) :: h) "f".toList = some v :=
      jGet_cons_absent h _ v hf
    have f2 : jGet (("f".toList, v) :: h) "fuzzed".toList = none := by
      rw [jGet_cons_ne h _ _ v (by decide)]; exact hfz
    have f3 : jGet (("f".toList, v) :: h) "m".toList = none := by
      rw [jGet_cons_ne h _ _ v (by decide)]; exact hm
    have f4 : jGet (("f".toList, v) :: h) "map".toList = none := by
      rw [jGet_cons_ne h _ _ v (by decide)]; exact hmap
    have f5 : jGet (("f".toList, v) :: h) "ext".toList = jGet h "ext".toList :=
      jGet_cons_ne h _ _ v (by decide)
    simp only [expandHeader, jTruthyO, e1, e2, e3, e4, e5, f1, f2, f3, f4, f5,
      Bool.false_or, Bool.or_false]

/-- A closed instance of `C10` on singleton legacy headers. -/
theorem expandHeader_legacy_keys_witness :
    (expandHeader (fun _ => []) [] [("map".toList, JVal.obj [])] "tok".toList =
      expandHeader (fun _ => []) [] [("m".toList, JVal.obj [])] "tok".toList) ∧
    (expandHeader (fun _ => []) [] [("fuzzed".toList, JVal.obj [])] "tok".toList =
      expandHeader (fun _ => []) [] [("f".toList, JVal.obj [])] "tok".toList) :=
  expandHeader_legacy_keys (fun _ => []) [] [] (JVal.obj []) "tok".toList rfl rfl rfl rfl

/-- The result record of `analyze_content` (only the fields the claims
touch: the content `type` and the recommended `action`). -/
structure AnalysisR where
  type : Str
  action : Str
  deriving DecidableEq

/-- `analyze_content` (lines 63–95), bytes as `List Nat`.  The two exact
branches are translated; the entropy/whitespace decision logic on
non-empty NUL-free data computes with IEEE-754 floats and is abstracted
as `oracle`. -/
def analyze_content (oracle : List Nat → AnalysisR) (data : List Nat) : AnalysisR :=
  if data.length = 0 then ⟨"empty".toList, "pass".toList⟩
  else if (data.take 1024).contains 0 then ⟨"binary".toList, "pass".toList⟩
  else oracle data

/-- The CLI compression path of `main` (lines 596–640) for piped (non-TTY)
input: empty input exits before writing anything; `action = pass` echoes
the input; undecodable UTF-8 echoes the input; otherwise the compressed
document is written (`decodeUtf8` and `doCompress` abstract the
float/unicode-dependent parts). -/
def cliCompressOut (oracle : List Nat → AnalysisR) (decodeUtf8 : List Nat → Option Str)
    (doCompress : Str → List Nat) (input : List Nat) : List Nat :=
  if input.length = 0 then []
  else if (analyze_content oracle input).action = "pass".toList then input
  else match decodeUtf8 input with
    | none => input
    | some t => doCompress t

/-- Claim `C2`: on empty input the compression tool writes nothing — zero
bytes, the input unchanged — and the classifier reports the kind `empty`
with action `pass`, whatever the entropy oracle, decoder and compressor
do. -/
theorem cli_empty_input (oracle : List Nat → AnalysisR)
    (decodeUtf8 : List Nat → Option Str) (doCompress : Str → List Nat) :
    cliCompressOut oracle decodeUtf8 doCompress [] = [] ∧
    analyze_content oracle [] = ⟨"empty".toList, "pass".toList⟩ :=
  ⟨rfl, rfl⟩


end RTO
